import Mathlib

/-! # slabgo: a slab allocator

A shallow embedding of `slab.go`.

Modelling conventions.

* An object handle is the address of the object (a `Nat` below `2 ^ 64`).
* A Go `int` is an `Int`, a `uintptr`/`uint64` is a `Nat`.  Counters and sizes that
  count slabs or objects held in memory change by one per call and are modelled without
  wrap-around; where a word comes from the caller (the `ObjLen` option, the address passed
  to `free`) the 64-bit wrap is explicit (`toI64`, `toU64`, `% 2 ^ 64`).
* A run-time panic (index out of range, nil dereference, division by zero) is the
  result `none` of an operation.
* The address at which the Go run time places a new object array is not chosen by the
  program: `newSlab` takes it as the extra argument `base`, and `Alloc` takes a function
  `mem` giving the base address of the i-th slab created during the call.
* The callbacks are observed through the list of `Event`s an operation returns.
-/

namespace Slabgo

/-! ## Machine words and slices -/

/-- Conversion of an integer to a 64-bit unsigned word: uint64(x), uintptr(x). -/
def toU64 (x : Int) : Nat := (x % 2 ^ 64).toNat

/-- Conversion of an integer to a 64-bit signed int: int(x). -/
def toI64 (x : Int) : Int := (2 ^ 63 + x) % 2 ^ 64 - 2 ^ 63

/-- Slice indexing by a Go int; `none` is the index-out-of-range panic. -/
def index {α : Type} (l : List α) (i : Int) : Option α :=
  if i < 0 then none else l[i.toNat]?

/-! ## The table of trailing zeros -/

/-- Body of the loop of `buildNtzMatrix` at index `i`; every step is byte arithmetic. -/
def ntzEntry (i : Nat) : Nat :=
  let b := i % 256
  let b := (b ^^^ 255) &&& ((b + 1) % 256)
  let b := (b + 255) % 256
  let b := ((b &&& 0x55) + ((b >>> 1) &&& 0x55)) % 256
  let b := ((b &&& 0x33) + ((b >>> 2) &&& 0x33)) % 256
  let b := ((b &&& 0x0f) + ((b >>> 4) &&& 0xff)) % 256
  b

/-- The table filled by `buildNtzMatrix`. -/
def buildNtzMatrix : List Nat := (List.range 256).map ntzEntry

/-- The global `ntzMatrix` after `init`. -/
def ntzMatrix : List Nat := buildNtzMatrix

/-! ## Data model -/

/-- What the code observes of a `reflect.Type`: the size of a value. -/
structure reflectType where
  Size : Nat
deriving DecidableEq, Repr

/-- Cache statistics. -/
structure CacheStats where
  TotalSlabs : Int
  InuseSlabs : Int
  TotalObjs : Int
  InuseObjs : Int
  Allocs : Nat
  Frees : Nat
  CacheSize : Nat
  CacheSizeInuse : Nat
deriving DecidableEq, Repr

/-- A call of one of the four callbacks. -/
inductive Event where
  | grower (s : CacheStats)
  | reaper (s : CacheStats)
  | ctor (objp : Nat)
  | dtor (objp : Nat)
deriving DecidableEq, Repr

/-- The struct `slab`. -/
structure slab where
  total : Int
  inuse : Int
  first : Int
  objsize : Nat
  smem : Nat
  emem : Nat
  bufctl : List Nat
  chunk : List Nat
deriving DecidableEq, Repr

/-- The struct `Cache`; the field `part` is the list the source calls partial.
`ctor` and `dtor` record whether the callback is non-nil. -/
structure Cache where
  full : List slab
  part : List slab
  empty : List slab
  objType : reflectType
  objLen : Int
  inuseObjs : Int
  allocs : Nat
  frees : Nat
  grower : CacheStats → Int
  reaper : CacheStats → Int
  ctor : Bool
  dtor : Bool

/-- Options of NewCache; a nil Grower or Reaper is `none`. -/
structure CacheOptions where
  ObjLen : Int
  Grower : Option (CacheStats → Int)
  Reaper : Option (CacheStats → Int)
  Constructor : Bool
  Destructor : Bool

/-! ## Policies -/

/-- The default grower. -/
def DefaultGrower (s : CacheStats) : Int :=
  if s.TotalSlabs = 0 then 1
  else if s.TotalSlabs < 32 then s.TotalSlabs
  else s.TotalSlabs / 4

/-- The default reaper: a slab is never freed. -/
def DefaultReaper (_s : CacheStats) : Int := 0

/-! ## The slab -/

/-- The loop of `slab.alloc` that looks for the next byte with a free bit: `bs` is the
part of `bufctl` from byte `i` on. -/
def slab.scan : List Nat → Nat → Option Int
  | [], _ => none
  | b :: bs, i =>
    if b ≠ 0xff then some ((i : Int) * 8 + ((ntzMatrix.getD b 0 : Nat) : Int))
    else slab.scan bs (i + 1)

/-- The method `slab.alloc`: the new slab and the object handed out. -/
def slab.alloc (s : slab) : Option (slab × Nat) :=
  match index s.chunk s.first with
  | none => none
  | some obj =>
    match index s.bufctl (s.first / 8) with
    | none => none
    | some b =>
      let bufctl := s.bufctl.set (s.first / 8).toNat ((b ||| (1 <<< (s.first % 8).toNat)) % 256)
      let inuse := s.inuse + 1
      let found := if s.total > inuse then slab.scan (bufctl.drop (s.first / 8).toNat) (s.first / 8).toNat
        else none
      match found with
      | some f => some ({ s with bufctl := bufctl, inuse := inuse, first := f }, obj)
      | none => some ({ s with bufctl := bufctl, inuse := inuse, first := (bufctl.length : Int) * 8 }, obj)

/-- The method `slab.free`: the new slab and the boolean result. -/
def slab.free (s : slab) (optr : Nat) : Option (slab × Bool) :=
  if optr > s.emem then some (s, false)
  else
    let lptr := (2 ^ 64 + optr - s.smem) % 2 ^ 64
    if s.objsize = 0 then none
    else
      let iptr := lptr / s.objsize
      if lptr ≠ (iptr * s.objsize) % 2 ^ 64 then some (s, false)
      else
        let i := toI64 iptr
        match index s.bufctl (i / 8) with
        | none => none
        | some b =>
          some ({ s with
                  bufctl := s.bufctl.set (i / 8).toNat ((b ^^^ (1 <<< (i % 8).toNat)) % 256)
                  inuse := s.inuse - 1
                  first := if s.first > i then i else s.first }, true)

/-- The method `slab.destroy`: the destructor calls it makes. -/
def slab.destroy (s : slab) (dtor : Bool) : List Event :=
  if dtor then s.chunk.map Event.dtor else []

/-- The function `newSlab`, the object array being placed at `base`; `none` is the nil
result. -/
def newSlab (otype : reflectType) (size : Int) (ctor : Bool) (base : Nat) :
    Option (slab × List Event) :=
  if size < 1 ∨ size % 8 ≠ 0 then none
  else
    let chunk := (List.range size.toNat).map (fun i => base + i * otype.Size)
    some ({ total := size
            inuse := 0
            first := 0
            objsize := otype.Size
            smem := base
            emem := base + (size.toNat - 1) * otype.Size
            bufctl := List.replicate (size / 8).toNat 0
            chunk := chunk },
          if ctor then chunk.map Event.ctor else [])

/-! ## The address-ordered list of slabs -/

/-- The loop of Go's `sort.Search` on the interval from `i` to `j`; `fuel` bounds the
number of iterations. -/
def searchLoop (f : Nat → Bool) : Nat → Nat → Nat → Nat
  | 0, i, _ => i
  | fuel + 1, i, j =>
    if i < j then
      let h := (i + j) / 2
      if !f h then searchLoop f fuel (h + 1) j else searchLoop f fuel i h
    else i

/-- Go's `sort.Search`. -/
def Search (n : Nat) (f : Nat → Bool) : Nat := searchLoop f n 0 n

/-- The closure that `slabs.find` hands to `sort.Search`: whether `s[i].smem > p`. -/
def slabs.above (s : List slab) (p : Nat) (i : Nat) : Bool :=
  match s[i]? with
  | some x => decide (x.smem > p)
  | none => true

/-- The method `slabs.find`. -/
def slabs.find (s : List slab) (p : Nat) : Int :=
  (Search s.length (slabs.above s p) : Int) - 1

/-- The method `slabs.insert`. -/
def slabs.insert (s : List slab) (o : slab) : List slab :=
  let i := (slabs.find s o.smem + 1).toNat
  s.take i ++ o :: s.drop i

/-- The method `slabs.pop`. -/
def slabs.pop (s : List slab) (i : Int) : Option (slab × List slab) :=
  match index s i with
  | none => none
  | some o => some (o, s.eraseIdx i.toNat)

/-! ## The cache -/

/-- The method `ReadStats`. -/
def Cache.ReadStats (c : Cache) : CacheStats :=
  let totalSlabs : Int := c.full.length + c.part.length + c.empty.length
  let totalObjs : Int := totalSlabs * c.objLen
  { TotalSlabs := totalSlabs
    InuseSlabs := c.full.length + c.part.length
    TotalObjs := totalObjs
    InuseObjs := c.inuseObjs
    Allocs := c.allocs
    Frees := c.frees
    CacheSize := (c.objType.Size * toU64 totalObjs) % 2 ^ 64
    CacheSizeInuse := (c.objType.Size * toU64 c.inuseObjs) % 2 ^ 64 }

/-- The loop of `grow`: `n` slabs are still to be created, `i` have been. -/
def Cache.growLoop (mem : Nat → Nat) : Nat → Nat → Cache → Option (Cache × List Event)
  | 0, _, c => some (c, [])
  | n + 1, i, c =>
    match newSlab c.objType c.objLen c.ctor (mem i) with
    | none => none
    | some (o, ev) =>
      match Cache.growLoop mem n (i + 1) { c with empty := slabs.insert c.empty o } with
      | none => none
      | some (c1, ev1) => some (c1, ev ++ ev1)

/-- The method `grow`. -/
def Cache.grow (c : Cache) (mem : Nat → Nat) : Option (Cache × Int × List Event) :=
  let s := c.ReadStats
  let num := c.grower s
  let num := if num < 0 then 0 else num
  match Cache.growLoop mem num.toNat 0 c with
  | none => none
  | some (c1, ev) => some (c1, num, Event.grower s :: ev)

/-- The loop of `reap`: `n` slabs are still to be destroyed. -/
def Cache.reapLoop : Nat → Cache → Option (Cache × List Event)
  | 0, c => some (c, [])
  | n + 1, c =>
    match slabs.pop c.empty ((c.empty.length : Int) - 1) with
    | none => none
    | some (o, e) =>
      match Cache.reapLoop n { c with empty := e } with
      | none => none
      | some (c1, ev1) => some (c1, o.destroy c.dtor ++ ev1)

/-- The method `reap`. -/
def Cache.reap (c : Cache) : Option (Cache × Int × List Event) :=
  let s := c.ReadStats
  let num := c.reaper s
  let num := if num > (c.empty.length : Int) then (c.empty.length : Int) else num
  match Cache.reapLoop num.toNat c with
  | none => none
  | some (c1, ev) => some (c1, num, Event.reaper s :: ev)

/-- The first statement of `Alloc` (the test of the partial list): `none` is a panic,
the boolean is false when `Alloc` returns nil at once. -/
def Cache.refill (c : Cache) (mem : Nat → Nat) : Option (Cache × List Event × Bool) :=
  if c.part.length = 0 then
    let grown : Option (Cache × Int × List Event) :=
      if c.empty.length = 0 then c.grow mem else some (c, 1, [])
    match grown with
    | none => none
    | some (c1, num, ev) =>
      if num = 0 then some (c1, ev, false)
      else
        match slabs.pop c1.empty 0 with
        | none => none
        | some (o, e) => some ({ c1 with part := slabs.insert c1.part o, empty := e }, ev, true)
  else some (c, [], true)

/-- The method `Alloc`: the new cache, the object (`none` is nil) and the callbacks
made. -/
def Cache.Alloc (c : Cache) (mem : Nat → Nat) : Option (Cache × Option Nat × List Event) :=
  match c.refill mem with
  | none => none
  | some (c1, ev, false) => some (c1, none, ev)
  | some (c1, ev, true) =>
    match index c1.part 0 with
    | none => none
    | some s =>
      match s.alloc with
      | none => none
      | some (s1, obj) =>
        let part1 := c1.part.set 0 s1
        if s1.total = s1.inuse then
          match slabs.pop part1 0 with
          | none => none
          | some (o, p) =>
            some ({ c1 with
                    full := slabs.insert c1.full o
                    part := p
                    inuseObjs := c1.inuseObjs + 1
                    allocs := c1.allocs + 1 }, some obj, ev)
        else
          some ({ c1 with
                  part := part1
                  inuseObjs := c1.inuseObjs + 1
                  allocs := c1.allocs + 1 }, some obj, ev)

/-- The counter updates and the result of a successful `free`. -/
def Cache.freed (c : Cache) (ev : List Event) : Cache × Bool × List Event :=
  ({ c with inuseObjs := c.inuseObjs - 1, frees := c.frees + 1 }, true, ev)

/-- The block "free from partial" of `Cache.free`: `some none` when control falls
through to the next block. -/
def Cache.freePart (c : Cache) (ptr : Nat) : Option (Option (Cache × Bool × List Event)) :=
  let i := slabs.find c.part ptr
  if i > -1 then
    match index c.part i with
    | none => none
    | some s =>
      match s.free ptr with
      | none => none
      | some (_, false) => some none
      | some (s1, true) =>
        let part1 := c.part.set i.toNat s1
        if s1.inuse = 0 then
          match slabs.pop part1 i with
          | none => none
          | some (o, p) =>
            match Cache.reap { c with part := p, empty := slabs.insert c.empty o } with
            | none => none
            | some (c1, _, ev) => some (some (c1.freed ev))
        else some (some (Cache.freed { c with part := part1 } []))
  else some none

/-- The block "free from full" of `Cache.free`. -/
def Cache.freeFull (c : Cache) (ptr : Nat) : Option (Option (Cache × Bool × List Event)) :=
  let i := slabs.find c.full ptr
  if i > -1 then
    match index c.full i with
    | none => none
    | some s =>
      match s.free ptr with
      | none => none
      | some (_, false) => some none
      | some (s1, true) =>
        let full1 := c.full.set i.toNat s1
        match slabs.pop full1 i with
        | none => none
        | some (o, f) =>
          if s1.inuse = 0 then
            match Cache.reap { c with full := f, empty := slabs.insert c.empty o } with
            | none => none
            | some (c1, _, ev) => some (some (c1.freed ev))
          else some (some (Cache.freed { c with full := f, part := slabs.insert c.part o } []))
  else some none

/-- The method `Cache.free`. -/
def Cache.free (c : Cache) (ptr : Nat) : Option (Cache × Bool × List Event) :=
  match c.freePart ptr with
  | none => none
  | some (some r) => some r
  | some none =>
    match c.freeFull ptr with
    | none => none
    | some (some r) => some r
    | some none => some (c, false, [])

/-- The method `Free`: `objp` is the address of the value the argument points to, or
`none` when the argument is nil or not a pointer to an addressable value. -/
def Cache.Free (c : Cache) (objp : Option Nat) : Option (Cache × Bool × List Event) :=
  match objp with
  | none => some (c, false, [])
  | some a => c.free a

/-- The method `FreePtr`. -/
def Cache.FreePtr (c : Cache) (objp : Nat) : Option (Cache × Bool × List Event) :=
  c.free objp

/-- One of the three loops of `Destroy` over a list: `n` slabs are still to be popped. -/
def Cache.destroyLoop (dtor : Bool) : Nat → List slab → Option (List slab × List Event)
  | 0, l => some (l, [])
  | n + 1, l =>
    match slabs.pop l (n : Int) with
    | none => none
    | some (o, l1) =>
      match Cache.destroyLoop dtor n l1 with
      | none => none
      | some (l2, ev) => some (l2, o.destroy dtor ++ ev)

/-- The method `Destroy`. -/
def Cache.Destroy (c : Cache) : Option (Cache × List Event) :=
  match Cache.destroyLoop c.dtor c.full.length c.full with
  | none => none
  | some (f, ev1) =>
    match Cache.destroyLoop c.dtor c.part.length c.part with
    | none => none
    | some (p, ev2) =>
      match Cache.destroyLoop c.dtor c.empty.length c.empty with
      | none => none
      | some (e, ev3) =>
        some ({ c with full := f, part := p, empty := e, inuseObjs := 0, allocs := 0, frees := 0 },
              ev1 ++ ev2 ++ ev3)

/-- The method `ObjectLen`. -/
def Cache.ObjectLen (c : Cache) : Int := c.objLen

/-- The method `ObjectType`. -/
def Cache.ObjectType (c : Cache) : reflectType := c.objType

/-- The function `NewCache`; `obj` is the dynamic type of the sample (`none` for nil). -/
def NewCache (obj : Option reflectType) (opts : CacheOptions) : Option Cache :=
  match obj with
  | none => none
  | some objtype =>
    if objtype.Size < 1 then none
    else
      let objlen := opts.ObjLen
      let objlen :=
        if objlen = 0 then 256
        else if objlen % 8 ≠ 0 then toI64 (objlen + (8 - objlen % 8))
        else objlen
      some { full := []
             part := []
             empty := []
             objType := objtype
             objLen := objlen
             inuseObjs := 0
             allocs := 0
             frees := 0
             grower := opts.Grower.getD DefaultGrower
             reaper := opts.Reaper.getD DefaultReaper
             ctor := opts.Constructor
             dtor := opts.Destructor }

/-- The function `NewCacheSimple`. -/
def NewCacheSimple (obj : Option reflectType) : Option Cache :=
  NewCache obj { ObjLen := 0, Grower := none, Reaper := none, Constructor := false, Destructor := false }

/-! ## Sequences of calls -/

/-- A call of a public method. -/
inductive Op where
  | Alloc (mem : Nat → Nat)
  | Free (objp : Option Nat)
  | FreePtr (objp : Nat)
  | Destroy

/-- What a call returns. -/
inductive Ret where
  | obj (o : Option Nat)
  | ok (b : Bool)
  | unit
deriving DecidableEq, Repr

/-- One call: the new cache, the value returned and the callbacks made; `none` is a
panic. -/
def Cache.step (c : Cache) : Op → Option (Cache × Ret × List Event)
  | Op.Alloc mem => (c.Alloc mem).map (fun r => (r.1, Ret.obj r.2.1, r.2.2))
  | Op.Free objp => (c.Free objp).map (fun r => (r.1, Ret.ok r.2.1, r.2.2))
  | Op.FreePtr objp => (c.FreePtr objp).map (fun r => (r.1, Ret.ok r.2.1, r.2.2))
  | Op.Destroy => (c.Destroy).map (fun r => (r.1, Ret.unit, r.2))

/-- A sequence of calls: the final cache, the values returned and the callbacks made. -/
def Cache.run (c : Cache) : List Op → Option (Cache × List Ret × List Event)
  | [] => some (c, [], [])
  | op :: ops =>
    match c.step op with
    | none => none
    | some (c1, r, ev) =>
      match Cache.run c1 ops with
      | none => none
      | some (c2, rs, ev2) => some (c2, r :: rs, ev ++ ev2)

/-- The cache states reachable from NewCache by calls that return. Addresses passed by
the caller are machine words. -/
inductive Reachable : Cache → Prop where
  | new (obj : Option reflectType) (opts : CacheOptions) (c : Cache) :
      NewCache obj opts = some c → Reachable c
  | step (c : Cache) (op : Op) (c1 : Cache) (r : Ret) (ev : List Event) :
      Reachable c → c.step op = some (c1, r, ev) → Reachable c1

/-! ## Predicates of the specification -/

/-- A list of slabs is sorted by base address. -/
def slabs.Sorted (l : List slab) : Prop := l.Pairwise (fun a b => a.smem ≤ b.smem)

/-- The sum of the in-use counts of a list of slabs. -/
def sumInuse (l : List slab) : Int := (l.map slab.inuse).sum

/-- The callbacks made by `newSlab` for a slab `o`. -/
def ctorEvents (ctor : Bool) (o : slab) : List Event := if ctor then o.chunk.map Event.ctor else []

/-- All the slabs a cache owns. -/
def Cache.slabs (c : Cache) : List slab := c.full ++ c.part ++ c.empty

/-- The invariant of every reachable cache: the counters agree with the slabs, each list
holds the slabs of its occupancy class, and the lists are sorted by base address. -/
structure Cache.Inv (c : Cache) : Prop where
  cons : c.inuseObjs = (c.allocs : Int) - (c.frees : Int)
  sum : c.inuseObjs = sumInuse c.full + sumInuse c.part + sumInuse c.empty
  full : ∀ s ∈ c.full, s.inuse = s.total
  empty : ∀ s ∈ c.empty, s.inuse = 0
  part : ∀ s ∈ c.part, 0 < s.inuse ∧ s.inuse < s.total
  total : ∀ s ∈ c.slabs, 1 ≤ s.total
  size : 1 ≤ c.objType.Size
  objsize : ∀ s ∈ c.slabs, s.objsize = c.objType.Size
  sorted : slabs.Sorted c.full ∧ slabs.Sorted c.part ∧ slabs.Sorted c.empty

/-- The cache after a sequence of calls (the cache itself if a call panics). -/
def Cache.after (c : Cache) (ops : List Op) : Cache :=
  match c.run ops with
  | some r => r.1
  | none => c

/-- A sample cache: objects of 16 bytes, 8 objects per slab, default policies. -/
def demoCache : Cache :=
  { full := [], part := [], empty := [], objType := { Size := 16 }, objLen := 8, inuseObjs := 0,
    allocs := 0, frees := 0, grower := DefaultGrower, reaper := DefaultReaper, ctor := true,
    dtor := true }

/-- A sample placement of new slabs: 1024 bytes apart from address 4096 on. -/
def demoMem (i : Nat) : Nat := 4096 + i * 1024

/-- Bit `k` of a bitmap: whether slot `k` is marked in use. -/
def bitAt (bs : List Nat) (k : Nat) : Bool := (bs.getD (k / 8) 0).testBit (k % 8)

/-- Bit `k` of the bitmap of a slab. -/
def slab.bit (s : slab) (k : Nat) : Bool := bitAt s.bufctl k

/-- The number of slots among the first `n` that are marked in use. -/
def countBits (bs : List Nat) (n : Nat) : Nat := (List.range n).countP (bitAt bs)

/-- A slab has the shape `newSlab` gives it: one bitmap byte per eight objects, the
handles of consecutive objects in `chunk`, and `emem` the address of the last object. -/
structure slab.WF (s : slab) : Prop where
  total : s.total = 8 * (s.bufctl.length : Int)
  pos : 1 ≤ s.bufctl.length
  bytes : ∀ b ∈ s.bufctl, b < 256
  chunk : s.chunk = (List.range s.total.toNat).map (fun i => s.smem + i * s.objsize)
  emem : s.emem = s.smem + (s.total.toNat - 1) * s.objsize
  objsize : 1 ≤ s.objsize

/-- The counters of a slab agree with its bitmap: `inuse` is the number of set bits and
`first` is the index of the lowest clear bit (`total` when there is none). -/
structure slab.Exact (s : slab) : Prop where
  inuse : s.inuse = (countBits s.bufctl s.total.toNat : Int)
  first_nonneg : 0 ≤ s.first
  first_le : s.first ≤ s.total
  below : ∀ k : Nat, (k : Int) < s.first → s.bit k = true
  free : s.first < s.total → s.bit s.first.toNat = false

/-- The object array of a slab lies in the 64-bit address space and its length is a Go
int. -/
structure slab.InWord (s : slab) : Prop where
  word : s.emem + s.objsize ≤ 2 ^ 64
  int : s.total < 2 ^ 63

/-- The event is a call of the grower. -/
def Event.isGrower : Event → Bool
  | Event.grower _ => true
  | _ => false

/-- The event is a call of the reaper. -/
def Event.isReaper : Event → Bool
  | Event.reaper _ => true
  | _ => false

/-- The event is a call of the constructor. -/
def Event.isCtor : Event → Bool
  | Event.ctor _ => true
  | _ => false

/-- The event is a call of the destructor. -/
def Event.isDtor : Event → Bool
  | Event.dtor _ => true
  | _ => false

/-- The quotient `n / l` rounded up. -/
def ceilDiv (n l : Nat) : Nat := (n + l - 1) / l

/-- The cache after `n` Allocs and no Free under a grower that always returns 1: `n / L`
full slabs, one partial slab holding the `n % L` remaining objects, no empty slab. -/
structure Cache.Filled (c : Cache) (n : Nat) : Prop where
  len : 0 < c.objLen ∧ c.objLen % 8 = 0
  size : 1 ≤ c.objType.Size
  grower : ∀ st, c.grower st = 1
  ctor : c.ctor = true
  empty : c.empty = []
  full : c.full.length = n / c.objLen.toNat
  part0 : n % c.objLen.toNat = 0 → c.part = []
  part1 : n % c.objLen.toNat ≠ 0 → ∃ s, c.part = [s] ∧ s.WF ∧ s.Exact ∧
    s.inuse = ((n % c.objLen.toNat : Nat) : Int) ∧ s.total = c.objLen
  inuseObjs : c.inuseObjs = (n : Int)
  allocs : c.allocs = n
  frees : c.frees = 0

/-- A grower that always returns 1. -/
def unitGrower (_s : CacheStats) : Int := 1

/-- A sample cache with the grow-by-one policy: objects of 16 bytes, 8 objects per slab. -/
def unitCache : Cache :=
  { full := [], part := [], empty := [], objType := { Size := 16 }, objLen := 8, inuseObjs := 0,
    allocs := 0, frees := 0, grower := unitGrower, reaper := DefaultReaper, ctor := true,
    dtor := true }

/-- Two slabs occupy disjoint address ranges. -/
def slab.Disjoint (s t : slab) : Prop := s.emem < t.smem ∨ t.emem < s.smem

/-- The object at address `a` sits in a slot of `s` that is marked in use. -/
def slab.Owns (s : slab) (a : Nat) : Prop :=
  ∃ k, k < s.total.toNat ∧ s.bit k = true ∧ a = s.smem + k * s.objsize

/-- A collection of slabs agrees with the list `live` of the objects handed out and not yet
freed: every slab is in order, the address ranges are pairwise disjoint, and the slots
marked in use are exactly the live objects. -/
structure SlabsOK (l : List slab) (live : List Nat) : Prop where
  good : ∀ s ∈ l, s.WF ∧ s.Exact ∧ s.InWord
  disj : l.Pairwise slab.Disjoint
  own : ∀ a, a ∈ live ↔ ∃ s ∈ l, s.Owns a

/-- The run time can place the slabs that an Alloc creates at the addresses `mem`: when
the grower is consulted (no partial and no empty slab), each object array it asks for lies
in the address space and overlaps neither a slab of the cache nor an array created before
it in the same call. -/
def Cache.Fresh (c : Cache) (mem : Nat → Nat) : Prop :=
  c.part = [] → c.empty = [] → ∀ i : Nat, (i : Int) < c.grower c.ReadStats →
    mem i + c.objLen.toNat * c.objType.Size ≤ 2 ^ 64 ∧
    (∀ s ∈ c.slabs, mem i + (c.objLen.toNat - 1) * c.objType.Size < s.smem ∨ s.emem < mem i) ∧
    (∀ j : Nat, j < i → mem j + (c.objLen.toNat - 1) * c.objType.Size < mem i ∨
      mem i + (c.objLen.toNat - 1) * c.objType.Size < mem j)

/-- The invariant of the caches reached by Allocs and by Frees of live objects. -/
structure Cache.LInv (c : Cache) (live : List Nat) : Prop where
  inv : c.Inv
  ok : SlabsOK c.slabs live
  int : c.objLen < 2 ^ 63

/-- The states reached from a fresh cache (whose ObjLen option is a Go int) by Alloc calls,
the run time placing new slabs in free memory, and by Free or FreePtr calls on live objects;
the list holds the objects handed out and not freed since. -/
inductive LiveReachable : Cache → List Nat → Prop where
  | new (obj : Option reflectType) (opts : CacheOptions) (c : Cache) :
      NewCache obj opts = some c → -(2 ^ 63) ≤ opts.ObjLen → opts.ObjLen < 2 ^ 63 →
      LiveReachable c []
  | alloc (c : Cache) (live : List Nat) (mem : Nat → Nat) (c1 : Cache) (r : Option Nat)
      (ev : List Event) :
      LiveReachable c live → c.Fresh mem → c.Alloc mem = some (c1, r, ev) →
      LiveReachable c1 (r.toList ++ live)
  | free (c : Cache) (live : List Nat) (a : Nat) (c1 : Cache) (b : Bool) (ev : List Event) :
      LiveReachable c live → a ∈ live → c.free a = some (c1, b, ev) →
      LiveReachable c1 (live.filter (fun x => decide (x ≠ a)))

/-- The fields of a cache that are fixed at construction are the same in both caches. -/
def Cache.SameConfig (c c1 : Cache) : Prop :=
  c1.objType = c.objType ∧ c1.objLen = c.objLen ∧ c1.grower = c.grower ∧
  c1.reaper = c.reaper ∧ c1.ctor = c.ctor ∧ c1.dtor = c.dtor

/-- A slab of a cache with `L` objects per slab: it has `L` slots, and `chunk` holds the
addresses of its consecutive objects. -/
def slab.Shaped (L : Int) (s : slab) : Prop :=
  s.total = L ∧ s.chunk = (List.range L.toNat).map (fun i => s.smem + i * s.objsize)

/-- A reaper that always returns 1. -/
def unitReaper (_s : CacheStats) : Int := 1

/-- A sample cache whose reaper always returns 1: objects of 16 bytes, 8 objects per slab. -/
def reapCache : Cache :=
  { full := [], part := [], empty := [], objType := { Size := 16 }, objLen := 8, inuseObjs := 0,
    allocs := 0, frees := 0, grower := DefaultGrower, reaper := unitReaper, ctor := true,
    dtor := true }

/-- A sample cache with the default policies: objects of 16 bytes, 32 objects per slab. -/
def growCache : Cache :=
  { full := [], part := [], empty := [], objType := { Size := 16 }, objLen := 32, inuseObjs := 0,
    allocs := 0, frees := 0, grower := DefaultGrower, reaper := DefaultReaper, ctor := true,
    dtor := true }

/-- A sample placement of the slabs created by the `n`-th call of a run: 1024 bytes apart,
each call in a range of its own. -/
def growMem (n i : Nat) : Nat := 65536 * (n + 1) + i * 1024

/-- The first `n` Allocs of the sample run. -/
def growOps (n : Nat) : List Op := (List.range n).map (fun k => Op.Alloc (growMem k))

/-- What is observed after a run: whether every Alloc returned an object, the number of slabs
and of objects the cache owns, and the number of constructor calls made. -/
def growSummary (r : Option (Cache × List Ret × List Event)) : Option (Bool × Int × Int × Nat) :=
  r.map (fun x => (x.2.1.all (fun o => decide (o ≠ Ret.obj none)), x.1.ReadStats.TotalSlabs,
    x.1.ReadStats.TotalObjs, x.2.2.countP Event.isCtor))

/-- The slabs reached from one that `newSlab` returned (for objects of size at least 1, the
object array lying in the address space) by `alloc` calls made while `inuse < total` and by
`free` calls on the address of a slot whose bit is 1. -/
inductive slab.Reach : slab → Prop where
  | new (t : reflectType) (size : Int) (ctor : Bool) (base : Nat) (o : slab) (ev : List Event) :
      newSlab t size ctor base = some (o, ev) → 1 ≤ t.Size → size < 2 ^ 63 →
      base + size.toNat * t.Size ≤ 2 ^ 64 → slab.Reach o
  | alloc (s s1 : slab) (obj : Nat) :
      slab.Reach s → s.inuse < s.total → s.alloc = some (s1, obj) → slab.Reach s1
  | free (s s1 : slab) (k : Nat) (b : Bool) :
      slab.Reach s → k < s.total.toNat → s.bit k = true →
      s.free (s.smem + k * s.objsize) = some (s1, b) → slab.Reach s1

/-- A sample slab as `newSlab` returns it: 8 objects of 16 bytes at address `base`. -/
def demoSlabAt (base : Nat) : slab :=
  { total := 8, inuse := 0, first := 0, objsize := 16, smem := base, emem := base + 112,
    bufctl := [0], chunk := (List.range 8).map (fun i => base + i * 16) }

/-- The sample slab at address 4096. -/
def demoSlab : slab := demoSlabAt 4096

/-- The sample slab after two `alloc` calls and the `free` of its first object. -/
def demoSlabUsed : slab := { demoSlab with inuse := 1, bufctl := [2] }

/-- Two sample slabs, at addresses 4096 and 8192. -/
def demoSlabs : List slab := [demoSlabAt 4096, demoSlabAt 8192]

/-- The sample slab after two `alloc` calls. -/
def demoSlabTwo : slab := { demoSlab with inuse := 2, first := 2, bufctl := [3] }

/-! # Theorems -/

/-! ## Slices and the address-ordered list -/

theorem index_eq_some {α : Type} {l : List α} {i : Int} {a : α} (h : index l i = some a) :
    0 ≤ i ∧ i.toNat < l.length ∧ l[i.toNat]? = some a := by
  unfold index at h
  split at h
  · simp at h
  · have h2 := List.getElem?_eq_some.mp h
    obtain ⟨hlt, _⟩ := h2
    exact ⟨by omega, hlt, h⟩

theorem index_of_getElem? {α : Type} {l : List α} {n : Nat} {a : α} (h : l[n]? = some a) :
    index l (n : Int) = some a := by
  unfold index
  simpa using h

theorem searchLoop_spec (f : Nat → Bool) : ∀ (fuel i j : Nat), i ≤ j → j - i ≤ fuel →
    i ≤ searchLoop f fuel i j ∧ searchLoop f fuel i j ≤ j ∧
    (searchLoop f fuel i j ≠ i → f (searchLoop f fuel i j - 1) = false) ∧
    (searchLoop f fuel i j ≠ j → f (searchLoop f fuel i j) = true) := by
  intro fuel
  induction fuel with
  | zero =>
    intro i j hij hf
    have : i = j := by omega
    subst this
    simp [searchLoop]
  | succ n ih =>
    intro i j hij hf
    unfold searchLoop
    by_cases hlt : i < j
    · simp only [hlt, if_true]
      by_cases hfh : f ((i + j) / 2) = true
      · simp only [hfh, Bool.not_true, Bool.false_eq_true, if_false]
        obtain ⟨h1, h2, h3, h4⟩ := ih i ((i + j) / 2) (by omega) (by omega)
        refine ⟨h1, by omega, h3, ?_⟩
        intro hne
        by_cases he : searchLoop f n i ((i + j) / 2) = (i + j) / 2
        · rw [he]; exact hfh
        · exact h4 he
      · have hfh2 : f ((i + j) / 2) = false := by simpa using hfh
        simp only [hfh2, Bool.not_false, if_true]
        obtain ⟨h1, h2, h3, h4⟩ := ih ((i + j) / 2 + 1) j (by omega) (by omega)
        refine ⟨by omega, h2, ?_, h4⟩
        intro _
        by_cases he : searchLoop f n ((i + j) / 2 + 1) j = (i + j) / 2 + 1
        · rw [he]; simpa using hfh2
        · exact h3 he
    · have : i = j := by omega
      subst this
      simp

theorem slabs.find_spec (s : List slab) (p : Nat) :
    -1 ≤ slabs.find s p ∧ slabs.find s p < s.length ∧
    (∀ x, s[(slabs.find s p).toNat]? = some x → 0 ≤ slabs.find s p → x.smem ≤ p) ∧
    (∀ x, s[(slabs.find s p + 1).toNat]? = some x → p < x.smem) := by
  have h := searchLoop_spec (slabs.above s p) s.length 0 s.length (Nat.zero_le _) (by omega)
  obtain ⟨_, h2, h3, h4⟩ := h
  unfold slabs.find Search
  generalize searchLoop _ s.length 0 s.length = r at *
  refine ⟨by omega, by omega, ?_, ?_⟩
  · intro x hx hr
    have hr0 : r ≠ 0 := by omega
    have h5 := h3 hr0
    have e : ((r : Int) - 1).toNat = r - 1 := by omega
    rw [e] at hx
    unfold slabs.above at h5
    rw [hx] at h5
    simpa using h5
  · intro x hx
    have e : ((r : Int) - 1 + 1).toNat = r := by omega
    rw [e] at hx
    have hlt : r < s.length := (List.getElem?_eq_some.mp hx).1
    have h5 := h4 (by omega)
    unfold slabs.above at h5
    rw [hx] at h5
    simpa using h5

theorem slabs.find_index (s : List slab) (p : Nat) (h : slabs.find s p > -1) :
    ∃ x, index s (slabs.find s p) = some x ∧ x.smem ≤ p := by
  obtain ⟨h1, h2, h3, _⟩ := slabs.find_spec s p
  have hlt : (slabs.find s p).toNat < s.length := by omega
  refine ⟨s[(slabs.find s p).toNat], ?_, ?_⟩
  · unfold index
    rw [if_neg (by omega)]
    exact List.getElem?_eq_getElem hlt
  · exact h3 _ (List.getElem?_eq_getElem hlt) (by omega)

theorem pairwise_getElem? {l : List slab} (hs : l.Pairwise (fun a b => a.smem ≤ b.smem))
    {i j : Nat} {x y : slab} (hx : l[i]? = some x) (hy : l[j]? = some y) (hij : i ≤ j) :
    x.smem ≤ y.smem := by
  obtain ⟨hi, rfl⟩ := List.getElem?_eq_some.mp hx
  obtain ⟨hj, rfl⟩ := List.getElem?_eq_some.mp hy
  rcases Nat.lt_or_ge i j with h | h
  · exact List.pairwise_iff_getElem.mp hs i j hi hj h
  · have : i = j := by omega
    subst this
    exact le_refl _

theorem slabs.find_sorted {s : List slab} (hs : slabs.Sorted s) (p : Nat) (k : Nat) (x : slab)
    (hx : s[k]? = some x) : x.smem ≤ p ↔ (k : Int) ≤ slabs.find s p := by
  obtain ⟨h1, h2, h3, h4⟩ := slabs.find_spec s p
  have hk : k < s.length := (List.getElem?_eq_some.mp hx).1
  constructor
  · intro hle
    by_contra hcon
    have hlt : (slabs.find s p + 1).toNat < s.length := by omega
    have h5 := h4 _ (List.getElem?_eq_getElem hlt)
    have := pairwise_getElem? hs (List.getElem?_eq_getElem hlt) hx (by omega)
    omega
  · intro hle
    have hlt : (slabs.find s p).toNat < s.length := by omega
    have h5 := h3 _ (List.getElem?_eq_getElem hlt) (by omega)
    have := pairwise_getElem? hs hx (List.getElem?_eq_getElem hlt) (by omega)
    omega

theorem slabs.insert_perm (l : List slab) (o : slab) : (slabs.insert l o).Perm (o :: l) := by
  unfold slabs.insert
  have h := @List.perm_middle _ o (l.take (slabs.find l o.smem + 1).toNat) (l.drop (slabs.find l o.smem + 1).toNat)
  simpa using h

theorem slabs.mem_insert {l : List slab} {o x : slab} : x ∈ slabs.insert l o ↔ x = o ∨ x ∈ l := by
  rw [(slabs.insert_perm l o).mem_iff]
  simp

theorem slabs.length_insert (l : List slab) (o : slab) : (slabs.insert l o).length = l.length + 1 := by
  rw [(slabs.insert_perm l o).length_eq]
  simp

theorem slabs.insert_sorted {l : List slab} (hs : slabs.Sorted l) (o : slab) :
    slabs.Sorted (slabs.insert l o) := by
  unfold slabs.insert slabs.Sorted
  rw [List.pairwise_append]
  refine ⟨hs.sublist (List.take_sublist _ _), ?_, ?_⟩
  · rw [List.pairwise_cons]
    refine ⟨?_, hs.sublist (List.drop_sublist _ _)⟩
    intro x hx
    obtain ⟨k, hk, rfl⟩ := List.getElem_of_mem hx
    rw [List.getElem_drop]
    have := (slabs.find_sorted hs o.smem ((slabs.find l o.smem + 1).toNat + k) _
      (List.getElem?_eq_getElem (by simp at hk; omega))).not
    have h0 := (slabs.find_spec l o.smem).1
    omega
  · intro a ha b hb
    have hao : a.smem ≤ o.smem := by
      obtain ⟨k, hk, rfl⟩ := List.getElem_of_mem ha
      rw [List.getElem_take]
      have hk2 : k < (slabs.find l o.smem + 1).toNat ∧ k < l.length := by
        simp at hk; omega
      have := (slabs.find_sorted hs o.smem k _ (List.getElem?_eq_getElem hk2.2))
      omega
    rcases List.mem_cons.mp hb with rfl | hb
    · exact hao
    · obtain ⟨k, hk, rfl⟩ := List.getElem_of_mem hb
      rw [List.getElem_drop]
      have := (slabs.find_sorted hs o.smem ((slabs.find l o.smem + 1).toNat + k) _
        (List.getElem?_eq_getElem (by simp at hk; omega))).not
      have h0 := (slabs.find_spec l o.smem).1
      omega

theorem slabs.pop_eq_some {l : List slab} {i : Int} {o : slab} {l1 : List slab}
    (h : slabs.pop l i = some (o, l1)) :
    0 ≤ i ∧ i.toNat < l.length ∧ l[i.toNat]? = some o ∧ l1 = l.eraseIdx i.toNat := by
  unfold slabs.pop at h
  split at h
  · simp at h
  · rename_i o1 ho
    obtain ⟨h1, h2, h3⟩ := index_eq_some ho
    simp only [Option.some.injEq, Prod.mk.injEq] at h
    obtain ⟨rfl, rfl⟩ := h
    exact ⟨h1, h2, h3, rfl⟩

theorem slabs.pop_of_getElem? {l : List slab} {n : Nat} {o : slab} (h : l[n]? = some o) :
    slabs.pop l (n : Int) = some (o, l.eraseIdx n) := by
  unfold slabs.pop
  rw [index_of_getElem? h]
  simp

theorem eraseIdx_perm {α : Type} {l : List α} {n : Nat} {o : α} (h : l[n]? = some o) :
    l.Perm (o :: l.eraseIdx n) := by
  obtain ⟨hlt, he⟩ := List.getElem?_eq_some.mp h
  have h1 : l = l.take n ++ o :: l.drop (n + 1) := by
    conv_lhs => rw [← List.take_append_drop n l, List.drop_eq_getElem_cons hlt, he]
  rw [List.eraseIdx_eq_take_drop_succ]
  conv_lhs => rw [h1]
  exact List.perm_middle

theorem slabs.pop_perm {l : List slab} {i : Int} {o : slab} {l1 : List slab}
    (h : slabs.pop l i = some (o, l1)) : l.Perm (o :: l1) := by
  obtain ⟨_, _, h3, rfl⟩ := slabs.pop_eq_some h
  exact eraseIdx_perm h3

theorem slabs.pop_sorted {l : List slab} {i : Int} {o : slab} {l1 : List slab}
    (h : slabs.pop l i = some (o, l1)) (hs : slabs.Sorted l) : slabs.Sorted l1 := by
  obtain ⟨_, _, _, rfl⟩ := slabs.pop_eq_some h
  exact hs.sublist (List.eraseIdx_sublist _ _)

theorem eraseIdx_set {α : Type} (l : List α) (n : Nat) (a : α) :
    (l.set n a).eraseIdx n = l.eraseIdx n := by
  induction l generalizing n with
  | nil => simp
  | cons x xs ih =>
    cases n with
    | zero => simp
    | succ m => simp [ih]


/-! ## The slab: what alloc and free leave unchanged -/

theorem slab.alloc_frame {s s1 : slab} {obj : Nat} (h : s.alloc = some (s1, obj)) :
    s1.total = s.total ∧ s1.inuse = s.inuse + 1 ∧ s1.objsize = s.objsize ∧ s1.smem = s.smem ∧
    s1.emem = s.emem ∧ s1.chunk = s.chunk ∧ s1.bufctl.length = s.bufctl.length ∧
    index s.chunk s.first = some obj := by
  unfold slab.alloc at h
  split at h
  · simp at h
  · rename_i o ho
    split at h
    · simp at h
    · rename_i b hb
      simp only at h
      split at h <;>
      · simp only [Option.some.injEq, Prod.mk.injEq] at h
        obtain ⟨rfl, rfl⟩ := h
        simp [ho]

theorem slab.free_false {s s1 : slab} {p : Nat} (h : s.free p = some (s1, false)) : s1 = s := by
  unfold slab.free at h
  split at h
  · simp at h; exact h.symm
  · simp only at h
    split at h
    · simp at h
    · split at h
      · simp at h; exact h.symm
      · split at h <;> simp at h

theorem slab.free_frame {s s1 : slab} {p : Nat} (h : s.free p = some (s1, true)) :
    s1.total = s.total ∧ s1.inuse = s.inuse - 1 ∧ s1.objsize = s.objsize ∧ s1.smem = s.smem ∧
    s1.emem = s.emem ∧ s1.chunk = s.chunk ∧ s1.bufctl.length = s.bufctl.length ∧
    p ≤ s.emem ∧ s.objsize ≠ 0 ∧
    (2 ^ 64 + p - s.smem) % 2 ^ 64 =
      ((2 ^ 64 + p - s.smem) % 2 ^ 64 / s.objsize * s.objsize) % 2 ^ 64 := by
  unfold slab.free at h
  split at h
  · simp at h
  · rename_i hle
    simp only at h
    split at h
    · simp at h
    · rename_i hsz
      split at h
      · simp at h
      · rename_i hal
        split at h
        · simp at h
        · simp only [Option.some.injEq, Prod.mk.injEq, and_true] at h
          subst h
          simp only [List.length_set, true_and]
          refine ⟨by omega, hsz, ?_⟩
          simpa using hal

theorem sumInuse_perm {l1 l2 : List slab} (h : l1.Perm l2) : sumInuse l1 = sumInuse l2 := by
  unfold sumInuse
  exact (h.map slab.inuse).sum_eq

theorem sumInuse_cons (o : slab) (l : List slab) : sumInuse (o :: l) = o.inuse + sumInuse l := by
  simp [sumInuse]

theorem sumInuse_insert (l : List slab) (o : slab) :
    sumInuse (slabs.insert l o) = o.inuse + sumInuse l := by
  rw [sumInuse_perm (slabs.insert_perm l o), sumInuse_cons]

theorem sumInuse_eraseIdx {l : List slab} {n : Nat} {o : slab} (h : l[n]? = some o) :
    sumInuse l = o.inuse + sumInuse (l.eraseIdx n) := by
  rw [sumInuse_perm (eraseIdx_perm h), sumInuse_cons]

theorem set_perm {α : Type} {l : List α} {n : Nat} {o : α} (h : l[n]? = some o) (a : α) :
    (l.set n a).Perm (a :: l.eraseIdx n) := by
  have hlt := (List.getElem?_eq_some.mp h).1
  have h2 : (l.set n a)[n]? = some a := by
    simp [List.getElem?_set, hlt]
  have := eraseIdx_perm h2
  rwa [eraseIdx_set] at this

theorem newSlab_eq_some {t : reflectType} {size : Int} {ctor : Bool} {base : Nat} {o : slab}
    {ev : List Event} (h : newSlab t size ctor base = some (o, ev)) :
    1 ≤ size ∧ size % 8 = 0 ∧ o.total = size ∧ o.inuse = 0 ∧ o.first = 0 ∧ o.objsize = t.Size ∧
    o.smem = base ∧ o.emem = base + (size.toNat - 1) * t.Size ∧
    o.bufctl = List.replicate (size / 8).toNat 0 ∧
    o.chunk = (List.range size.toNat).map (fun i => base + i * t.Size) ∧
    ev = if ctor then o.chunk.map Event.ctor else [] := by
  unfold newSlab at h
  split at h
  · simp at h
  · rename_i hs
    simp only [Option.some.injEq, Prod.mk.injEq] at h
    obtain ⟨rfl, rfl⟩ := h
    simp only [and_self, and_true, true_and]
    omega

/-! ## The cache: grow and reap -/

theorem Cache.growLoop_spec (mem : Nat → Nat) : ∀ (n i : Nat) (c c1 : Cache) (ev : List Event),
    Cache.growLoop mem n i c = some (c1, ev) →
    c1 = { c with empty := c1.empty } ∧
    ∃ news : List slab, news.length = n ∧ c1.empty.Perm (news ++ c.empty) ∧
      (slabs.Sorted c.empty → slabs.Sorted c1.empty) ∧
      (∀ k o, news[k]? = some o → ∃ evo, newSlab c.objType c.objLen c.ctor (mem (i + k)) = some (o, evo)) ∧
      ev = news.flatMap (ctorEvents c.ctor) := by
  intro n
  induction n with
  | zero =>
    intro i c c1 ev h
    simp only [Cache.growLoop, Option.some.injEq, Prod.mk.injEq] at h
    obtain ⟨rfl, rfl⟩ := h
    exact ⟨rfl, [], rfl, by simp, fun h => h, by simp, by simp⟩
  | succ n ih =>
    intro i c c1 ev h
    unfold Cache.growLoop at h
    split at h
    · cases h
    · rename_i o evo ho
      split at h
      · cases h
      · rename_i c2 ev2 h2
        simp only [Option.some.injEq, Prod.mk.injEq] at h
        obtain ⟨rfl, rfl⟩ := h
        obtain ⟨he, news, hl, hp, hs, hn, hev⟩ := ih (i + 1) _ _ _ h2
        refine ⟨?_, o :: news, by simp [hl], ?_, ?_, ?_, ?_⟩
        · rw [he]
        · refine hp.trans ?_
          simp only [List.cons_append]
          refine (List.Perm.append_left news (slabs.insert_perm c.empty o)).trans ?_
          exact List.perm_middle
        · intro h0
          exact hs (slabs.insert_sorted h0 o)
        · intro k x hk
          cases k with
          | zero =>
            simp only [List.getElem?_cons_zero, Option.some.injEq] at hk
            subst hk
            exact ⟨evo, ho⟩
          | succ k =>
            simp only [List.getElem?_cons_succ] at hk
            obtain ⟨e, he2⟩ := hn k x hk
            refine ⟨e, ?_⟩
            have : i + 1 + k = i + (k + 1) := by omega
            rw [← this]
            exact he2
        · rw [hev]
          have := (newSlab_eq_some ho).2.2.2.2.2.2.2.2.2.2
          simp [List.flatMap, ctorEvents, this]

theorem Cache.grow_spec {c c1 : Cache} {mem : Nat → Nat} {num : Int} {ev : List Event}
    (h : c.grow mem = some (c1, num, ev)) :
    0 ≤ num ∧ num = (if c.grower c.ReadStats < 0 then 0 else c.grower c.ReadStats) ∧
    c1 = { c with empty := c1.empty } ∧
    ∃ news : List slab, (news.length : Int) = num ∧ c1.empty.Perm (news ++ c.empty) ∧
      (slabs.Sorted c.empty → slabs.Sorted c1.empty) ∧
      (∀ k o, news[k]? = some o → ∃ evo, newSlab c.objType c.objLen c.ctor (mem k) = some (o, evo)) ∧
      ev = Event.grower c.ReadStats :: news.flatMap (ctorEvents c.ctor) := by
  unfold Cache.grow at h
  simp only at h
  split at h
  · cases h
  · rename_i c2 ev2 h2
    simp only [Option.some.injEq, Prod.mk.injEq] at h
    obtain ⟨rfl, rfl, rfl⟩ := h
    obtain ⟨he, news, hl, hp, hs, hn, hev⟩ := Cache.growLoop_spec mem _ _ _ _ _ h2
    refine ⟨by split <;> omega, rfl, he, news, ?_, hp, hs, ?_, by rw [hev]⟩
    · rw [hl]
      split <;> omega
    · intro k o hk
      have := hn k o hk
      simpa using this

theorem Cache.grow_zero {c : Cache} {mem : Nat → Nat} (h : c.grower c.ReadStats ≤ 0) :
    c.grow mem = some (c, 0, [Event.grower c.ReadStats]) := by
  unfold Cache.grow
  have : (if c.grower c.ReadStats < 0 then 0 else c.grower c.ReadStats) = 0 := by
    split <;> omega
  simp only [this]
  simp [Cache.growLoop]

theorem drop_snoc {α : Type} (l : List α) (k : Nat) (h : k < l.length) :
    l.drop k = (l.take (l.length - 1)).drop k ++ [l[l.length - 1]] := by
  rcases List.eq_nil_or_concat l with rfl | ⟨L, b, rfl⟩
  · simp at h
  · have hk : k ≤ L.length := by simp at h; omega
    simp [List.drop_append_of_le_length hk]

theorem Cache.reapLoop_spec : ∀ (n : Nat) (c : Cache), n ≤ c.empty.length →
    ∃ c1 ev, Cache.reapLoop n c = some (c1, ev) ∧
    c1 = { c with empty := c.empty.take (c.empty.length - n) } ∧
    ev = ((c.empty.drop (c.empty.length - n)).reverse).flatMap (fun o => o.destroy c.dtor) := by
  intro n
  induction n with
  | zero =>
    intro c _
    refine ⟨c, [], rfl, ?_, ?_⟩
    · simp
    · simp
  | succ n ih =>
    intro c hn
    unfold Cache.reapLoop
    have hlt : c.empty.length - 1 < c.empty.length := by omega
    have hpop := slabs.pop_of_getElem? (List.getElem?_eq_getElem hlt)
    have hc : ((c.empty.length : Int) - 1) = ((c.empty.length - 1 : Nat) : Int) := by omega
    rw [hc, hpop]
    simp only
    have hlen : (c.empty.eraseIdx (c.empty.length - 1)).length = c.empty.length - 1 := by
      rw [List.length_eraseIdx]; simp [hlt]
    obtain ⟨c1, ev, h1, h2, h3⟩ := ih { c with empty := c.empty.eraseIdx (c.empty.length - 1) }
      (by simp only; omega)
    rw [h1]
    refine ⟨c1, _, rfl, ?_, ?_⟩
    · rw [h2]
      simp only [hlen]
      rw [List.eraseIdx_eq_take_drop_succ]
      have : c.empty.length - 1 + 1 = c.empty.length := by omega
      rw [this, List.drop_of_length_le (le_refl _), List.append_nil, List.take_take]
      congr 2
      omega
    · rw [h3]
      simp only [hlen]
      rw [List.eraseIdx_eq_take_drop_succ]
      have : c.empty.length - 1 + 1 = c.empty.length := by omega
      rw [this, List.drop_of_length_le (le_refl _), List.append_nil]
      have e1 : c.empty.length - 1 - n = c.empty.length - (n + 1) := by omega
      rw [e1]
      have e2 : List.drop (c.empty.length - (n + 1)) c.empty =
          List.drop (c.empty.length - (n + 1)) (List.take (c.empty.length - 1) c.empty) ++
            [c.empty[c.empty.length - 1]] := by
        exact drop_snoc c.empty _ (by omega)
      rw [e2]
      simp [List.flatMap]

theorem Cache.reap_spec (c : Cache) :
    ∃ k num, k ≤ c.empty.length ∧
      c.reap = some ({ c with empty := c.empty.take (c.empty.length - k) }, num,
        Event.reaper c.ReadStats ::
          ((c.empty.drop (c.empty.length - k)).reverse).flatMap (fun o => o.destroy c.dtor)) ∧
      num = (if c.reaper c.ReadStats > (c.empty.length : Int) then (c.empty.length : Int)
        else c.reaper c.ReadStats) ∧ k = num.toNat := by
  unfold Cache.reap
  simp only
  generalize hnum : (if c.reaper c.ReadStats > (c.empty.length : Int) then (c.empty.length : Int)
        else c.reaper c.ReadStats) = num
  have hle : num.toNat ≤ c.empty.length := by
    subst hnum
    split <;> omega
  obtain ⟨c1, ev, h1, h2, h3⟩ := Cache.reapLoop_spec num.toNat c hle
  refine ⟨num.toNat, num, hle, ?_, rfl, rfl⟩
  rw [h1, h2, h3]

theorem Cache.freePart_cases (c : Cache) (p : Nat) :
    (c.freePart p = some none ∧
      ∀ s, index c.part (slabs.find c.part p) = some s → s.free p = some (s, false)) ∨
    (c.freePart p = none ∧
      ∃ s, index c.part (slabs.find c.part p) = some s ∧ s.smem ≤ p ∧ s.free p = none) ∨
    (∃ (n : Nat) (s s1 : slab), slabs.find c.part p = n ∧ c.part[n]? = some s ∧ s.smem ≤ p ∧
      s.free p = some (s1, true) ∧
      ((s1.inuse ≠ 0 ∧
        c.freePart p = some (some (Cache.freed { c with part := c.part.set n s1 } []))) ∨
      (s1.inuse = 0 ∧ ∃ c1 num ev,
        Cache.reap { c with part := c.part.eraseIdx n, empty := slabs.insert c.empty s1 } =
          some (c1, num, ev) ∧
        c.freePart p = some (some (c1.freed ev))))) := by
  unfold Cache.freePart
  simp only
  by_cases hi : slabs.find c.part p > -1
  · obtain ⟨s, hs, hle⟩ := slabs.find_index c.part p hi
    obtain ⟨h0, hlt, hget⟩ := index_eq_some hs
    rw [if_pos hi, hs]
    simp only
    rcases hf : s.free p with _ | ⟨s1, b⟩
    · right; left
      exact ⟨rfl, s, rfl, hle, hf⟩
    · cases b
      · left
        have := slab.free_false hf
        subst this
        refine ⟨rfl, ?_⟩
        intro s2 h2
        cases h2
        exact hf
      · right; right
        refine ⟨(slabs.find c.part p).toNat, s, s1, by omega, hget, hle, hf, ?_⟩
        simp only
        by_cases hz : s1.inuse = 0
        · right
          have hpop : slabs.pop (c.part.set (slabs.find c.part p).toNat s1) (slabs.find c.part p) =
              some (s1, c.part.eraseIdx (slabs.find c.part p).toNat) := by
            have h1 : (c.part.set (slabs.find c.part p).toNat s1)[(slabs.find c.part p).toNat]? = some s1 := by
              simp [List.getElem?_set, hlt]
            have := slabs.pop_of_getElem? h1
            rw [eraseIdx_set] at this
            rw [← this]
            congr 1
            omega
          rw [if_pos hz, hpop]
          simp only
          obtain ⟨k, num, _, hr, _⟩ := Cache.reap_spec
            { c with part := c.part.eraseIdx (slabs.find c.part p).toNat, empty := slabs.insert c.empty s1 }
          rw [hr]
          exact ⟨hz, _, _, _, rfl, rfl⟩
        · left
          rw [if_neg hz]
          exact ⟨hz, rfl⟩
  · left
    rw [if_neg hi]
    refine ⟨rfl, ?_⟩
    intro s hs
    have := (index_eq_some hs).1
    omega

theorem Cache.freeFull_cases (c : Cache) (p : Nat) :
    (c.freeFull p = some none ∧
      ∀ s, index c.full (slabs.find c.full p) = some s → s.free p = some (s, false)) ∨
    (c.freeFull p = none ∧
      ∃ s, index c.full (slabs.find c.full p) = some s ∧ s.smem ≤ p ∧ s.free p = none) ∨
    (∃ (n : Nat) (s s1 : slab), slabs.find c.full p = n ∧ c.full[n]? = some s ∧ s.smem ≤ p ∧
      s.free p = some (s1, true) ∧
      ((s1.inuse ≠ 0 ∧
        c.freeFull p = some (some (Cache.freed
          { c with full := c.full.eraseIdx n, part := slabs.insert c.part s1 } []))) ∨
      (s1.inuse = 0 ∧ ∃ c1 num ev,
        Cache.reap { c with full := c.full.eraseIdx n, empty := slabs.insert c.empty s1 } =
          some (c1, num, ev) ∧
        c.freeFull p = some (some (c1.freed ev))))) := by
  unfold Cache.freeFull
  simp only
  by_cases hi : slabs.find c.full p > -1
  · obtain ⟨s, hs, hle⟩ := slabs.find_index c.full p hi
    obtain ⟨h0, hlt, hget⟩ := index_eq_some hs
    rw [if_pos hi, hs]
    simp only
    rcases hf : s.free p with _ | ⟨s1, b⟩
    · right; left
      exact ⟨rfl, s, rfl, hle, hf⟩
    · cases b
      · left
        have := slab.free_false hf
        subst this
        refine ⟨rfl, ?_⟩
        intro s2 h2
        cases h2
        exact hf
      · right; right
        refine ⟨(slabs.find c.full p).toNat, s, s1, by omega, hget, hle, hf, ?_⟩
        simp only
        have hpop : slabs.pop (c.full.set (slabs.find c.full p).toNat s1) (slabs.find c.full p) =
            some (s1, c.full.eraseIdx (slabs.find c.full p).toNat) := by
          have h1 : (c.full.set (slabs.find c.full p).toNat s1)[(slabs.find c.full p).toNat]? = some s1 := by
            simp [List.getElem?_set, hlt]
          have := slabs.pop_of_getElem? h1
          rw [eraseIdx_set] at this
          rw [← this]
          congr 1
          omega
        rw [hpop]
        simp only
        by_cases hz : s1.inuse = 0
        · right
          rw [if_pos hz]
          obtain ⟨k, num, _, hr, _⟩ := Cache.reap_spec
            { c with full := c.full.eraseIdx (slabs.find c.full p).toNat, empty := slabs.insert c.empty s1 }
          rw [hr]
          exact ⟨hz, _, _, _, rfl, rfl⟩
        · left
          rw [if_neg hz]
          exact ⟨hz, rfl⟩
  · left
    rw [if_neg hi]
    refine ⟨rfl, ?_⟩
    intro s hs
    have := (index_eq_some hs).1
    omega

/-! ## The cache: Alloc and free by cases -/

theorem slabs.insert_nil (o : slab) : slabs.insert [] o = [o] := rfl

theorem slabs.pop_zero_cons (o : slab) (e : List slab) : slabs.pop (o :: e) 0 = some (o, e) := by
  simp [slabs.pop, index]

theorem Cache.refill_cases (c : Cache) (mem : Nat → Nat) :
    (c.part ≠ [] ∧ c.refill mem = some (c, [], true)) ∨
    (c.part = [] ∧ ∃ o e, c.empty = o :: e ∧
      c.refill mem = some ({ c with part := [o], empty := e }, [], true)) ∨
    (c.part = [] ∧ c.empty = [] ∧ c.grow mem = none ∧ c.refill mem = none) ∨
    (c.part = [] ∧ c.empty = [] ∧ ∃ cg ev, c.grow mem = some (cg, 0, ev) ∧
      c.refill mem = some (cg, ev, false)) ∨
    (c.part = [] ∧ c.empty = [] ∧ ∃ cg num ev o e, c.grow mem = some (cg, num, ev) ∧ num ≠ 0 ∧
      cg.empty = o :: e ∧ c.refill mem = some ({ cg with part := [o], empty := e }, ev, true)) := by
  unfold Cache.refill
  by_cases hp : c.part = []
  · have hp0 : c.part.length = 0 := by simp [hp]
    rw [if_pos hp0]
    simp only
    rcases he : c.empty with _ | ⟨o, e⟩
    · simp only [List.length_nil, if_true]
      rcases hg : c.grow mem with _ | ⟨cg, num, ev⟩
      · right; right; left
        simp [hp]
      · simp only
        by_cases hn : num = 0
        · subst hn
          right; right; right; left
          simp [hp]
        · right; right; right; right
          rw [if_neg hn]
          obtain ⟨_, _, hcg, news, hl, hperm, _⟩ := Cache.grow_spec hg
          have hlen : cg.empty.length ≠ 0 := by
            rw [hperm.length_eq]
            simp only [List.length_append]
            omega
          rcases hce : cg.empty with _ | ⟨o, e⟩
          · simp [hce] at hlen
          · rw [slabs.pop_zero_cons]
            simp only
            have hcp : cg.part = [] := by rw [hcg]; exact hp
            rw [hcp, slabs.insert_nil]
            exact ⟨hp, trivial, cg, num, ev, o, e, rfl, hn, hce, rfl⟩
    · right; left
      simp only [List.length_cons, Nat.add_one_ne_zero, if_false, one_ne_zero]
      rw [he, slabs.pop_zero_cons]
      simp only
      rw [hp, slabs.insert_nil]
      exact ⟨rfl, o, e, rfl, rfl⟩
  · left
    have hp0 : ¬ c.part.length = 0 := by
      intro h
      exact hp (List.length_eq_zero.mp h)
    rw [if_neg hp0]
    exact ⟨hp, rfl⟩

theorem Cache.refill_part_ne_nil {c c1 : Cache} {mem : Nat → Nat} {ev : List Event}
    (h : c.refill mem = some (c1, ev, true)) : c1.part ≠ [] := by
  rcases Cache.refill_cases c mem with ⟨hp, h1⟩ | ⟨_, o, e, _, h1⟩ | ⟨_, _, _, h1⟩ |
      ⟨_, _, cg, ev1, _, h1⟩ | ⟨_, _, cg, num, ev1, o, e, _, _, _, h1⟩
  all_goals
    rw [h1] at h
    simp only [Option.some.injEq, Prod.mk.injEq, reduceCtorEq, and_false, Bool.false_eq_true] at h
  · obtain ⟨rfl, _⟩ := h
    exact hp
  · obtain ⟨rfl, _⟩ := h
    simp
  · obtain ⟨rfl, _⟩ := h
    simp

theorem Cache.Alloc_of_refill {c c1 : Cache} {mem : Nat → Nat} {ev : List Event} {s : slab}
    {rest : List slab} (h : c.refill mem = some (c1, ev, true)) (hp : c1.part = s :: rest) :
    c.Alloc mem =
      match s.alloc with
      | none => none
      | some (s1, obj) =>
        if s1.total = s1.inuse then
          some ({ c1 with
                  full := slabs.insert c1.full s1
                  part := rest
                  inuseObjs := c1.inuseObjs + 1
                  allocs := c1.allocs + 1 }, some obj, ev)
        else
          some ({ c1 with
                  part := s1 :: rest
                  inuseObjs := c1.inuseObjs + 1
                  allocs := c1.allocs + 1 }, some obj, ev) := by
  unfold Cache.Alloc
  rw [h]
  simp only
  rw [hp]
  have : index (s :: rest) 0 = some s := by simp [index]
  rw [this]
  simp only
  rcases s.alloc with _ | ⟨s1, obj⟩
  · rfl
  · simp only [List.set_cons_zero]
    rw [slabs.pop_zero_cons]

theorem Cache.Alloc_of_refill_false {c c1 : Cache} {mem : Nat → Nat} {ev : List Event}
    (h : c.refill mem = some (c1, ev, false)) : c.Alloc mem = some (c1, none, ev) := by
  unfold Cache.Alloc
  rw [h]

theorem Cache.Alloc_of_refill_none {c : Cache} {mem : Nat → Nat}
    (h : c.refill mem = none) : c.Alloc mem = none := by
  unfold Cache.Alloc
  rw [h]

/-! ## The invariant of reachable caches -/

theorem sumInuse_zero {l : List slab} (h : ∀ s ∈ l, s.inuse = 0) : sumInuse l = 0 := by
  induction l with
  | nil => rfl
  | cons a l ih =>
    rw [sumInuse_cons, h a (List.mem_cons_self _ _), ih (fun s hs => h s (List.mem_cons_of_mem _ hs))]
    rfl

theorem sumInuse_set {l : List slab} {n : Nat} {o : slab} (h : l[n]? = some o) (a : slab) :
    sumInuse (l.set n a) = sumInuse l - o.inuse + a.inuse := by
  rw [sumInuse_perm (set_perm h a), sumInuse_cons, sumInuse_eraseIdx h]
  omega

theorem slabs.sorted_set {l : List slab} {n : Nat} {o a : slab} (h : l[n]? = some o)
    (ha : a.smem = o.smem) (hs : slabs.Sorted l) : slabs.Sorted (l.set n a) := by
  unfold slabs.Sorted at *
  have e : (l.set n a).map slab.smem = l.map slab.smem := by
    rw [List.map_set]
    apply List.ext_getElem?
    intro k
    rw [List.getElem?_set]
    split
    · rename_i hk
      subst hk
      split
      · simp [h, ha]
      · rename_i hlt
        simp at hlt
        have := (List.getElem?_eq_some.mp h).1
        omega
    · rfl
  have h1 : (l.map slab.smem).Pairwise (· ≤ ·) := List.pairwise_map.mpr hs
  rw [← e] at h1
  exact List.pairwise_map.mp h1

theorem Cache.mem_slabs {c : Cache} {x : slab} :
    x ∈ c.slabs ↔ x ∈ c.full ∨ x ∈ c.part ∨ x ∈ c.empty := by
  simp [Cache.slabs, or_assoc]

theorem Cache.Inv_new {obj : Option reflectType} {opts : CacheOptions} {c : Cache}
    (h : NewCache obj opts = some c) : c.Inv := by
  unfold NewCache at h
  split at h
  · cases h
  · split at h
    · cases h
    · rename_i hsz
      simp only [Option.some.injEq] at h
      subst h
      constructor <;> simp [sumInuse, Cache.slabs, slabs.Sorted]
      omega

theorem Cache.Inv_grow {c cg : Cache} {mem : Nat → Nat} {num : Int} {ev : List Event}
    (hi : c.Inv) (h : c.grow mem = some (cg, num, ev)) : cg.Inv := by
  obtain ⟨_, _, hcg, news, hl, hperm, hsort, hnew, _⟩ := Cache.grow_spec h
  have hnews : ∀ x ∈ news, x.inuse = 0 ∧ 1 ≤ x.total ∧ x.objsize = c.objType.Size := by
    intro x hx
    obtain ⟨k, hk⟩ := List.getElem?_of_mem hx
    obtain ⟨evo, ho⟩ := hnew k x hk
    have := newSlab_eq_some ho
    refine ⟨this.2.2.2.1, ?_, this.2.2.2.2.2.1⟩
    have h1 := this.1
    have h3 := this.2.2.1
    omega
  have hmem : ∀ x, x ∈ cg.empty ↔ x ∈ news ∨ x ∈ c.empty := by
    intro x
    rw [hperm.mem_iff]
    simp
  have hf : cg.full = c.full := by rw [hcg]
  have hp : cg.part = c.part := by rw [hcg]
  have ht : cg.objType = c.objType := by rw [hcg]
  have hempty : ∀ s ∈ cg.empty, s.inuse = 0 := by
    intro s hs
    rcases (hmem s).mp hs with h1 | h1
    · exact (hnews s h1).1
    · exact hi.empty s h1
  constructor
  · rw [hcg]; exact hi.cons
  · rw [hf, hp, sumInuse_zero hempty]
    have := hi.sum
    rw [sumInuse_zero hi.empty] at this
    rw [hcg]
    exact this
  · rw [hf]; exact hi.full
  · exact hempty
  · rw [hp]; exact hi.part
  · intro s hs
    rw [Cache.mem_slabs, hf, hp, hmem] at hs
    rcases hs with h1 | h1 | h1 | h1
    · exact hi.total s (Cache.mem_slabs.mpr (Or.inl h1))
    · exact hi.total s (Cache.mem_slabs.mpr (Or.inr (Or.inl h1)))
    · exact (hnews s h1).2.1
    · exact hi.total s (Cache.mem_slabs.mpr (Or.inr (Or.inr h1)))
  · rw [ht]; exact hi.size
  · intro s hs
    rw [Cache.mem_slabs, hf, hp, hmem] at hs
    rw [ht]
    rcases hs with h1 | h1 | h1 | h1
    · exact hi.objsize s (Cache.mem_slabs.mpr (Or.inl h1))
    · exact hi.objsize s (Cache.mem_slabs.mpr (Or.inr (Or.inl h1)))
    · exact (hnews s h1).2.2
    · exact hi.objsize s (Cache.mem_slabs.mpr (Or.inr (Or.inr h1)))
  · rw [hf, hp]
    exact ⟨hi.sorted.1, hi.sorted.2.1, hsort hi.sorted.2.2⟩

theorem Cache.Inv_take {c : Cache} (hi : c.Inv) (s : slab) (rest e : List slab) {s1 : slab}
    {obj : Nat}
    (hs : 0 ≤ s.inuse ∧ s.inuse < s.total ∧ s.objsize = c.objType.Size)
    (hrest : ∀ x ∈ rest, x ∈ c.part) (hsr : slabs.Sorted (s :: rest))
    (he : ∀ x ∈ e, x ∈ c.empty) (hse : slabs.Sorted e)
    (hsum : s.inuse + sumInuse rest = sumInuse c.part)
    (ha : s.alloc = some (s1, obj)) :
    Cache.Inv (if s1.total = s1.inuse then
        { c with
          full := slabs.insert c.full s1
          part := rest
          empty := e
          inuseObjs := c.inuseObjs + 1
          allocs := c.allocs + 1 }
      else
        { c with
          part := s1 :: rest
          empty := e
          inuseObjs := c.inuseObjs + 1
          allocs := c.allocs + 1 }) := by
  obtain ⟨ht, hu, ho, hm, _⟩ := slab.alloc_frame ha
  have hcons := hi.cons
  have hsm := hi.sum
  rw [sumInuse_zero hi.empty] at hsm
  have hez : ∀ x ∈ e, x.inuse = 0 := fun x hx => hi.empty x (he x hx)
  have hsr2 := List.pairwise_cons.mp hsr
  split
  · rename_i hfull
    constructor
    · simp only; push_cast; omega
    · simp only
      rw [sumInuse_insert, sumInuse_zero hez]
      omega
    · intro x hx
      simp only [slabs.mem_insert] at hx
      rcases hx with rfl | hx
      · exact hfull.symm
      · exact hi.full x hx
    · exact hez
    · intro x hx
      exact hi.part x (hrest x hx)
    · intro x hx
      simp only [Cache.mem_slabs, slabs.mem_insert] at hx
      rcases hx with (rfl | hx) | hx | hx
      · omega
      · exact hi.total x (Cache.mem_slabs.mpr (Or.inl hx))
      · exact hi.total x (Cache.mem_slabs.mpr (Or.inr (Or.inl (hrest x hx))))
      · exact hi.total x (Cache.mem_slabs.mpr (Or.inr (Or.inr (he x hx))))
    · exact hi.size
    · intro x hx
      simp only [Cache.mem_slabs, slabs.mem_insert] at hx
      rcases hx with (rfl | hx) | hx | hx
      · simp only; omega
      · exact hi.objsize x (Cache.mem_slabs.mpr (Or.inl hx))
      · exact hi.objsize x (Cache.mem_slabs.mpr (Or.inr (Or.inl (hrest x hx))))
      · exact hi.objsize x (Cache.mem_slabs.mpr (Or.inr (Or.inr (he x hx))))
    · exact ⟨slabs.insert_sorted hi.sorted.1 s1, hsr2.2, hse⟩
  · rename_i hfull
    constructor
    · simp only; push_cast; omega
    · simp only
      rw [sumInuse_cons, sumInuse_zero hez]
      omega
    · exact hi.full
    · exact hez
    · intro x hx
      simp only [List.mem_cons] at hx
      rcases hx with rfl | hx
      · omega
      · exact hi.part x (hrest x hx)
    · intro x hx
      simp only [Cache.mem_slabs, List.mem_cons] at hx
      rcases hx with hx | (rfl | hx) | hx
      · exact hi.total x (Cache.mem_slabs.mpr (Or.inl hx))
      · omega
      · exact hi.total x (Cache.mem_slabs.mpr (Or.inr (Or.inl (hrest x hx))))
      · exact hi.total x (Cache.mem_slabs.mpr (Or.inr (Or.inr (he x hx))))
    · exact hi.size
    · intro x hx
      simp only [Cache.mem_slabs, List.mem_cons] at hx
      rcases hx with hx | (rfl | hx) | hx
      · exact hi.objsize x (Cache.mem_slabs.mpr (Or.inl hx))
      · simp only; omega
      · exact hi.objsize x (Cache.mem_slabs.mpr (Or.inr (Or.inl (hrest x hx))))
      · exact hi.objsize x (Cache.mem_slabs.mpr (Or.inr (Or.inr (he x hx))))
    · refine ⟨hi.sorted.1, ?_, hse⟩
      unfold slabs.Sorted
      rw [List.pairwise_cons]
      refine ⟨?_, hsr2.2⟩
      intro x hx
      rw [hm]
      exact hsr2.1 x hx

theorem Cache.Inv_Alloc {c c1 : Cache} {mem : Nat → Nat} {r : Option Nat} {ev : List Event}
    (hi : c.Inv) (h : c.Alloc mem = some (c1, r, ev)) : c1.Inv := by
  rcases Cache.refill_cases c mem with ⟨hp, h1⟩ | ⟨hp, o, e, he, h1⟩ | ⟨_, _, _, h1⟩ |
      ⟨_, _, cg, ev1, hg, h1⟩ | ⟨hp, _, cg, num, ev1, o, e, hg, _, he, h1⟩
  · obtain ⟨s, rest, hsr⟩ := List.exists_cons_of_ne_nil hp
    rw [Cache.Alloc_of_refill h1 hsr] at h
    rcases ha : s.alloc with _ | ⟨s1, obj⟩
    · rw [ha] at h; cases h
    · rw [ha] at h
      simp only at h
      have hps := hi.part s (by rw [hsr]; exact List.mem_cons_self _ _)
      have hos := hi.objsize s (Cache.mem_slabs.mpr (Or.inr (Or.inl (by rw [hsr]; exact List.mem_cons_self _ _))))
      have := Cache.Inv_take hi s rest c.empty ⟨by omega, hps.2, hos⟩
        (fun x hx => by rw [hsr]; exact List.mem_cons_of_mem _ hx)
        (by have := hi.sorted.2.1; rwa [hsr] at this) (fun x hx => hx) hi.sorted.2.2
        (by rw [hsr, sumInuse_cons]) ha
      split at h <;> rename_i hfull
      · rw [if_pos hfull] at this
        simp only [Option.some.injEq, Prod.mk.injEq] at h
        rw [← h.1]
        exact this
      · rw [if_neg hfull] at this
        simp only [Option.some.injEq, Prod.mk.injEq] at h
        rw [← h.1]
        exact this
  · rw [Cache.Alloc_of_refill h1 rfl] at h
    rcases ha : o.alloc with _ | ⟨s1, obj⟩
    · rw [ha] at h; cases h
    · rw [ha] at h
      simp only at h
      have hoe : o ∈ c.empty := by rw [he]; exact List.mem_cons_self _ _
      have hps := hi.empty o hoe
      have hts := hi.total o (Cache.mem_slabs.mpr (Or.inr (Or.inr hoe)))
      have hos := hi.objsize o (Cache.mem_slabs.mpr (Or.inr (Or.inr hoe)))
      have hse := hi.sorted.2.2
      rw [he] at hse
      have := Cache.Inv_take hi o [] e ⟨by omega, by omega, hos⟩
        (fun x hx => by simp at hx)
        (by simp [slabs.Sorted]) (fun x hx => by rw [he]; exact List.mem_cons_of_mem _ hx)
        (List.pairwise_cons.mp hse).2
        (by rw [hp, hps]; rfl) ha
      split at h <;> rename_i hfull
      · rw [if_pos hfull] at this
        simp only [Option.some.injEq, Prod.mk.injEq] at h
        rw [← h.1]
        exact this
      · rw [if_neg hfull] at this
        simp only [Option.some.injEq, Prod.mk.injEq] at h
        rw [← h.1]
        exact this
  · rw [Cache.Alloc_of_refill_none h1] at h
    cases h
  · rw [Cache.Alloc_of_refill_false h1] at h
    simp only [Option.some.injEq, Prod.mk.injEq] at h
    rw [← h.1]
    exact Cache.Inv_grow hi hg
  · have hig := Cache.Inv_grow hi hg
    have hcg := (Cache.grow_spec hg).2.2.1
    have hpg : cg.part = [] := by rw [hcg]; exact hp
    rw [Cache.Alloc_of_refill h1 rfl] at h
    rcases ha : o.alloc with _ | ⟨s1, obj⟩
    · rw [ha] at h; cases h
    · rw [ha] at h
      simp only at h
      have hoe : o ∈ cg.empty := by rw [he]; exact List.mem_cons_self _ _
      have hps := hig.empty o hoe
      have hts := hig.total o (Cache.mem_slabs.mpr (Or.inr (Or.inr hoe)))
      have hos := hig.objsize o (Cache.mem_slabs.mpr (Or.inr (Or.inr hoe)))
      have hse := hig.sorted.2.2
      rw [he] at hse
      have := Cache.Inv_take hig o [] e ⟨by omega, by omega, hos⟩
        (fun x hx => by simp at hx)
        (by simp [slabs.Sorted]) (fun x hx => by rw [he]; exact List.mem_cons_of_mem _ hx)
        (List.pairwise_cons.mp hse).2
        (by rw [hpg, hps]; rfl) ha
      split at h <;> rename_i hfull
      · rw [if_pos hfull] at this
        simp only [Option.some.injEq, Prod.mk.injEq] at h
        rw [← h.1]
        exact this
      · rw [if_neg hfull] at this
        simp only [Option.some.injEq, Prod.mk.injEq] at h
        rw [← h.1]
        exact this

theorem mem_of_getElem?_eq {α : Type} {l : List α} {n : Nat} {a : α} (h : l[n]? = some a) :
    a ∈ l := by
  obtain ⟨hlt, rfl⟩ := List.getElem?_eq_some.mp h
  exact List.getElem_mem hlt

theorem Cache.Inv_freed_reap {c2 c1 : Cache} {num : Int} {ev : List Event}
    (hi : (c2.freed []).1.Inv) (h : c2.reap = some (c1, num, ev)) : (c1.freed ev).1.Inv := by
  obtain ⟨k, num1, _, hr, _⟩ := Cache.reap_spec c2
  rw [hr] at h
  simp only [Option.some.injEq, Prod.mk.injEq] at h
  obtain ⟨rfl, _, _⟩ := h
  have hsub : ∀ x ∈ c2.empty.take (c2.empty.length - k), x ∈ c2.empty :=
    fun x hx => List.mem_of_mem_take hx
  have hez : ∀ x ∈ c2.empty.take (c2.empty.length - k), x.inuse = 0 :=
    fun x hx => hi.empty x (hsub x hx)
  constructor
  · exact hi.cons
  · have := hi.sum
    simp only [Cache.freed] at this ⊢
    have h0 : sumInuse c2.empty = 0 := sumInuse_zero hi.empty
    rw [h0] at this
    rw [sumInuse_zero hez]
    exact this
  · exact hi.full
  · exact hez
  · exact hi.part
  · intro x hx
    simp only [Cache.freed, Cache.mem_slabs] at hx
    rcases hx with hx | hx | hx
    · exact hi.total x (Cache.mem_slabs.mpr (Or.inl hx))
    · exact hi.total x (Cache.mem_slabs.mpr (Or.inr (Or.inl hx)))
    · exact hi.total x (Cache.mem_slabs.mpr (Or.inr (Or.inr (hsub x hx))))
  · exact hi.size
  · intro x hx
    simp only [Cache.freed, Cache.mem_slabs] at hx
    rcases hx with hx | hx | hx
    · exact hi.objsize x (Cache.mem_slabs.mpr (Or.inl hx))
    · exact hi.objsize x (Cache.mem_slabs.mpr (Or.inr (Or.inl hx)))
    · exact hi.objsize x (Cache.mem_slabs.mpr (Or.inr (Or.inr (hsub x hx))))
  · exact ⟨hi.sorted.1, hi.sorted.2.1, hi.sorted.2.2.sublist (List.take_sublist _ _)⟩

theorem Cache.Inv_freePart {c : Cache} {p : Nat} {r : Cache × Bool × List Event}
    (hi : c.Inv) (h : c.freePart p = some (some r)) : r.1.Inv := by
  rcases Cache.freePart_cases c p with ⟨h1, _⟩ | ⟨h1, _⟩ | ⟨n, s, s1, hn, hget, hle, hf, hcase⟩
  · rw [h1] at h; simp at h
  · rw [h1] at h; cases h
  · obtain ⟨ht, hu, ho, hm, _⟩ := slab.free_frame hf
    have hmem : s ∈ c.part := mem_of_getElem?_eq hget
    have hps := hi.part s hmem
    have hts := hi.total s (Cache.mem_slabs.mpr (Or.inr (Or.inl hmem)))
    have hos := hi.objsize s (Cache.mem_slabs.mpr (Or.inr (Or.inl hmem)))
    have hcons := hi.cons
    have hsm := hi.sum
    rw [sumInuse_zero hi.empty] at hsm
    rcases hcase with ⟨hz, h2⟩ | ⟨hz, c1, num, ev, hr, h2⟩
    · rw [h2] at h
      simp only [Option.some.injEq] at h
      subst h
      constructor
      · simp only [Cache.freed]; push_cast; omega
      · simp only [Cache.freed]
        rw [sumInuse_set hget, sumInuse_zero hi.empty]
        omega
      · exact hi.full
      · exact hi.empty
      · intro x hx
        rcases List.mem_or_eq_of_mem_set hx with hx | rfl
        · exact hi.part x hx
        · omega
      · intro x hx
        simp only [Cache.freed, Cache.mem_slabs] at hx
        rcases hx with hx | hx | hx
        · exact hi.total x (Cache.mem_slabs.mpr (Or.inl hx))
        · rcases List.mem_or_eq_of_mem_set hx with hx | rfl
          · exact hi.total x (Cache.mem_slabs.mpr (Or.inr (Or.inl hx)))
          · omega
        · exact hi.total x (Cache.mem_slabs.mpr (Or.inr (Or.inr hx)))
      · exact hi.size
      · intro x hx
        simp only [Cache.freed, Cache.mem_slabs] at hx
        rcases hx with hx | hx | hx
        · exact hi.objsize x (Cache.mem_slabs.mpr (Or.inl hx))
        · rcases List.mem_or_eq_of_mem_set hx with hx | rfl
          · exact hi.objsize x (Cache.mem_slabs.mpr (Or.inr (Or.inl hx)))
          · simp only [Cache.freed]; omega
        · exact hi.objsize x (Cache.mem_slabs.mpr (Or.inr (Or.inr hx)))
      · exact ⟨hi.sorted.1, slabs.sorted_set hget hm hi.sorted.2.1, hi.sorted.2.2⟩
    · rw [h2] at h
      simp only [Option.some.injEq] at h
      subst h
      refine Cache.Inv_freed_reap ?_ hr
      constructor
      · simp only [Cache.freed]; push_cast; omega
      · simp only [Cache.freed]
        rw [sumInuse_insert, sumInuse_zero hi.empty]
        have := sumInuse_eraseIdx hget
        omega
      · exact hi.full
      · intro x hx
        simp only [Cache.freed, slabs.mem_insert] at hx
        rcases hx with rfl | hx
        · exact hz
        · exact hi.empty x hx
      · intro x hx
        exact hi.part x (List.mem_of_mem_eraseIdx hx)
      · intro x hx
        simp only [Cache.freed, Cache.mem_slabs, slabs.mem_insert] at hx
        rcases hx with hx | hx | rfl | hx
        · exact hi.total x (Cache.mem_slabs.mpr (Or.inl hx))
        · exact hi.total x (Cache.mem_slabs.mpr (Or.inr (Or.inl (List.mem_of_mem_eraseIdx hx))))
        · omega
        · exact hi.total x (Cache.mem_slabs.mpr (Or.inr (Or.inr hx)))
      · exact hi.size
      · intro x hx
        simp only [Cache.freed, Cache.mem_slabs, slabs.mem_insert] at hx
        rcases hx with hx | hx | rfl | hx
        · exact hi.objsize x (Cache.mem_slabs.mpr (Or.inl hx))
        · exact hi.objsize x (Cache.mem_slabs.mpr (Or.inr (Or.inl (List.mem_of_mem_eraseIdx hx))))
        · simp only [Cache.freed]; omega
        · exact hi.objsize x (Cache.mem_slabs.mpr (Or.inr (Or.inr hx)))
      · exact ⟨hi.sorted.1, hi.sorted.2.1.sublist (List.eraseIdx_sublist _ _),
          slabs.insert_sorted hi.sorted.2.2 s1⟩

theorem Cache.Inv_freeFull {c : Cache} {p : Nat} {r : Cache × Bool × List Event}
    (hi : c.Inv) (h : c.freeFull p = some (some r)) : r.1.Inv := by
  rcases Cache.freeFull_cases c p with ⟨h1, _⟩ | ⟨h1, _⟩ | ⟨n, s, s1, hn, hget, hle, hf, hcase⟩
  · rw [h1] at h; simp at h
  · rw [h1] at h; cases h
  · obtain ⟨ht, hu, ho, hm, _⟩ := slab.free_frame hf
    have hmem : s ∈ c.full := mem_of_getElem?_eq hget
    have hps := hi.full s hmem
    have hts := hi.total s (Cache.mem_slabs.mpr (Or.inl hmem))
    have hos := hi.objsize s (Cache.mem_slabs.mpr (Or.inl hmem))
    have hcons := hi.cons
    have hsm := hi.sum
    rw [sumInuse_zero hi.empty] at hsm
    have hse := sumInuse_eraseIdx hget
    rcases hcase with ⟨hz, h2⟩ | ⟨hz, c1, num, ev, hr, h2⟩
    · rw [h2] at h
      simp only [Option.some.injEq] at h
      subst h
      constructor
      · simp only [Cache.freed]; push_cast; omega
      · simp only [Cache.freed]
        rw [sumInuse_insert, sumInuse_zero hi.empty]
        omega
      · intro x hx
        exact hi.full x (List.mem_of_mem_eraseIdx hx)
      · exact hi.empty
      · intro x hx
        simp only [Cache.freed, slabs.mem_insert] at hx
        rcases hx with rfl | hx
        · omega
        · exact hi.part x hx
      · intro x hx
        simp only [Cache.freed, Cache.mem_slabs, slabs.mem_insert] at hx
        rcases hx with hx | (rfl | hx) | hx
        · exact hi.total x (Cache.mem_slabs.mpr (Or.inl (List.mem_of_mem_eraseIdx hx)))
        · omega
        · exact hi.total x (Cache.mem_slabs.mpr (Or.inr (Or.inl hx)))
        · exact hi.total x (Cache.mem_slabs.mpr (Or.inr (Or.inr hx)))
      · exact hi.size
      · intro x hx
        simp only [Cache.freed, Cache.mem_slabs, slabs.mem_insert] at hx
        rcases hx with hx | (rfl | hx) | hx
        · exact hi.objsize x (Cache.mem_slabs.mpr (Or.inl (List.mem_of_mem_eraseIdx hx)))
        · simp only [Cache.freed]; omega
        · exact hi.objsize x (Cache.mem_slabs.mpr (Or.inr (Or.inl hx)))
        · exact hi.objsize x (Cache.mem_slabs.mpr (Or.inr (Or.inr hx)))
      · exact ⟨hi.sorted.1.sublist (List.eraseIdx_sublist _ _),
          slabs.insert_sorted hi.sorted.2.1 s1, hi.sorted.2.2⟩
    · rw [h2] at h
      simp only [Option.some.injEq] at h
      subst h
      refine Cache.Inv_freed_reap ?_ hr
      constructor
      · simp only [Cache.freed]; push_cast; omega
      · simp only [Cache.freed]
        rw [sumInuse_insert, sumInuse_zero hi.empty]
        omega
      · intro x hx
        exact hi.full x (List.mem_of_mem_eraseIdx hx)
      · intro x hx
        simp only [Cache.freed, slabs.mem_insert] at hx
        rcases hx with rfl | hx
        · exact hz
        · exact hi.empty x hx
      · exact hi.part
      · intro x hx
        simp only [Cache.freed, Cache.mem_slabs, slabs.mem_insert] at hx
        rcases hx with hx | hx | rfl | hx
        · exact hi.total x (Cache.mem_slabs.mpr (Or.inl (List.mem_of_mem_eraseIdx hx)))
        · exact hi.total x (Cache.mem_slabs.mpr (Or.inr (Or.inl hx)))
        · omega
        · exact hi.total x (Cache.mem_slabs.mpr (Or.inr (Or.inr hx)))
      · exact hi.size
      · intro x hx
        simp only [Cache.freed, Cache.mem_slabs, slabs.mem_insert] at hx
        rcases hx with hx | hx | rfl | hx
        · exact hi.objsize x (Cache.mem_slabs.mpr (Or.inl (List.mem_of_mem_eraseIdx hx)))
        · exact hi.objsize x (Cache.mem_slabs.mpr (Or.inr (Or.inl hx)))
        · simp only [Cache.freed]; omega
        · exact hi.objsize x (Cache.mem_slabs.mpr (Or.inr (Or.inr hx)))
      · exact ⟨hi.sorted.1.sublist (List.eraseIdx_sublist _ _), hi.sorted.2.1,
          slabs.insert_sorted hi.sorted.2.2 s1⟩

theorem Cache.free_eq (c : Cache) (p : Nat) :
    c.free p =
      match c.freePart p with
      | none => none
      | some (some r) => some r
      | some none =>
        match c.freeFull p with
        | none => none
        | some (some r) => some r
        | some none => some (c, false, []) := rfl

theorem Cache.Inv_free {c c1 : Cache} {p : Nat} {b : Bool} {ev : List Event}
    (hi : c.Inv) (h : c.free p = some (c1, b, ev)) : c1.Inv := by
  rw [Cache.free_eq] at h
  rcases h1 : c.freePart p with _ | _ | r
  · rw [h1] at h; cases h
  · rw [h1] at h
    simp only at h
    rcases h2 : c.freeFull p with _ | _ | r
    · rw [h2] at h; cases h
    · rw [h2] at h
      simp only [Option.some.injEq, Prod.mk.injEq] at h
      rw [← h.1]
      exact hi
    · rw [h2] at h
      simp only [Option.some.injEq] at h
      have := Cache.Inv_freeFull hi h2
      rw [h] at this
      exact this
  · rw [h1] at h
    simp only [Option.some.injEq] at h
    have := Cache.Inv_freePart hi h1
    rw [h] at this
    exact this

theorem Cache.destroyLoop_spec (dtor : Bool) : ∀ (n : Nat) (l : List slab), l.length = n →
    Cache.destroyLoop dtor n l = some ([], l.reverse.flatMap (fun o => o.destroy dtor)) := by
  intro n
  induction n with
  | zero =>
    intro l hl
    have : l = [] := List.length_eq_zero.mp hl
    subst this
    rfl
  | succ n ih =>
    intro l hl
    rcases List.eq_nil_or_concat l with rfl | ⟨L, b, hlb⟩
    · simp at hl
    · rw [List.concat_eq_append] at hlb
      subst hlb
      have hL : L.length = n := by simpa using hl
      unfold Cache.destroyLoop
      have hget : (L ++ [b])[n]? = some b := by
        rw [← hL]
        simp
      rw [slabs.pop_of_getElem? hget]
      simp only
      have he : (L ++ [b]).eraseIdx n = L := by
        rw [← hL, List.eraseIdx_eq_take_drop_succ]
        simp
      rw [he, ih L hL]
      simp [List.flatMap]

theorem Cache.Destroy_spec (c : Cache) :
    c.Destroy = some ({ c with full := [], part := [], empty := [], inuseObjs := 0, allocs := 0, frees := 0 },
      c.full.reverse.flatMap (fun o => o.destroy c.dtor) ++
      c.part.reverse.flatMap (fun o => o.destroy c.dtor) ++
      c.empty.reverse.flatMap (fun o => o.destroy c.dtor)) := by
  unfold Cache.Destroy
  rw [Cache.destroyLoop_spec c.dtor _ c.full rfl, Cache.destroyLoop_spec c.dtor _ c.part rfl,
    Cache.destroyLoop_spec c.dtor _ c.empty rfl]

theorem Cache.Inv_Destroy {c c1 : Cache} {ev : List Event} (hi : c.Inv)
    (h : c.Destroy = some (c1, ev)) : c1.Inv := by
  rw [Cache.Destroy_spec] at h
  simp only [Option.some.injEq, Prod.mk.injEq] at h
  rw [← h.1]
  constructor <;> simp [sumInuse, Cache.slabs, slabs.Sorted]
  exact hi.size

theorem Cache.Inv_step {c c1 : Cache} {op : Op} {r : Ret} {ev : List Event} (hi : c.Inv)
    (h : c.step op = some (c1, r, ev)) : c1.Inv := by
  cases op with
  | Alloc mem =>
    simp only [Cache.step, Option.map_eq_some', Prod.mk.injEq] at h
    obtain ⟨⟨c2, r2, ev2⟩, h1, rfl, _⟩ := h
    exact Cache.Inv_Alloc hi h1
  | Free objp =>
    simp only [Cache.step, Option.map_eq_some', Prod.mk.injEq] at h
    obtain ⟨⟨c2, r2, ev2⟩, h1, rfl, _⟩ := h
    cases objp with
    | none =>
      simp only [Cache.Free, Option.some.injEq, Prod.mk.injEq] at h1
      rw [← h1.1]
      exact hi
    | some a => exact Cache.Inv_free hi h1
  | FreePtr objp =>
    simp only [Cache.step, Option.map_eq_some', Prod.mk.injEq] at h
    obtain ⟨⟨c2, r2, ev2⟩, h1, rfl, _⟩ := h
    exact Cache.Inv_free hi h1
  | Destroy =>
    simp only [Cache.step, Option.map_eq_some', Prod.mk.injEq] at h
    obtain ⟨⟨c2, ev2⟩, h1, rfl, _⟩ := h
    exact Cache.Inv_Destroy hi h1

theorem Reachable.inv {c : Cache} (h : Reachable c) : c.Inv := by
  induction h with
  | new obj opts c h => exact Cache.Inv_new h
  | step c op c1 r ev _ hs ih => exact Cache.Inv_step ih hs


/-! ## Reachable states, failed frees, exhaustion -/

theorem Reachable.run {c : Cache} (h : Reachable c) : ∀ (ops : List Op) (c1 : Cache) (rs : List Ret)
    (ev : List Event), c.run ops = some (c1, rs, ev) → Reachable c1 := by
  intro ops
  induction ops generalizing c with
  | nil =>
    intro c1 rs ev hr
    simp only [Cache.run, Option.some.injEq, Prod.mk.injEq] at hr
    rw [← hr.1]
    exact h
  | cons op ops ih =>
    intro c1 rs ev hr
    unfold Cache.run at hr
    split at hr
    · cases hr
    · rename_i c2 r2 ev2 h2
      split at hr
      · cases hr
      · rename_i c3 rs3 ev3 h3
        simp only [Option.some.injEq, Prod.mk.injEq] at hr
        rw [← hr.1]
        exact ih (Reachable.step _ _ _ _ _ h h2) _ _ _ h3

theorem Reachable.after {c : Cache} (h : Reachable c) (ops : List Op) : Reachable (c.after ops) := by
  unfold Cache.after
  split
  · rename_i r hr
    exact h.run ops r.1 r.2.1 r.2.2 hr
  · exact h

theorem demoCache_reachable : Reachable demoCache :=
  Reachable.new (some { Size := 16 })
    { ObjLen := 8, Grower := none, Reaper := none, Constructor := true, Destructor := true } _ rfl

theorem Cache.free_false_unchanged {c c1 : Cache} {a : Nat} {ev : List Event}
    (h : c.free a = some (c1, false, ev)) : c1 = c ∧ ev = [] := by
  rw [Cache.free_eq] at h
  rcases Cache.freePart_cases c a with ⟨h1, _⟩ | ⟨h1, _⟩ | ⟨n, s, s1, _, _, _, _, hcase⟩
  · rw [h1] at h
    simp only at h
    rcases Cache.freeFull_cases c a with ⟨h2, _⟩ | ⟨h2, _⟩ | ⟨n, s, s1, _, _, _, _, hcase⟩
    · rw [h2] at h
      simp only [Option.some.injEq, Prod.mk.injEq, true_and] at h
      exact ⟨h.1.symm, h.2.symm⟩
    · rw [h2] at h; cases h
    · rcases hcase with ⟨_, h3⟩ | ⟨_, c2, num, ev2, _, h3⟩ <;>
      · rw [h3] at h
        simp [Cache.freed] at h
  · rw [h1] at h; cases h
  · rcases hcase with ⟨_, h3⟩ | ⟨_, c2, num, ev2, _, h3⟩ <;>
    · rw [h3] at h
      simp [Cache.freed] at h

theorem slab.free_rejects {s : slab} {a : Nat} (hsz : s.objsize ≠ 0) (hle : s.smem ≤ a)
    (ha : a < 2 ^ 64) (hno : ¬ (a ≤ s.emem ∧ (a - s.smem) % s.objsize = 0)) :
    s.free a = some (s, false) := by
  unfold slab.free
  by_cases h1 : a > s.emem
  · rw [if_pos h1]
  · rw [if_neg h1]
    simp only
    rw [if_neg hsz]
    have hl : (2 ^ 64 + a - s.smem) % 2 ^ 64 = a - s.smem := by omega
    rw [hl]
    have hm : (a - s.smem) / s.objsize * s.objsize ≤ a - s.smem := Nat.div_mul_le_self _ _
    have hw : (a - s.smem) / s.objsize * s.objsize % 2 ^ 64 = (a - s.smem) / s.objsize * s.objsize := by
      apply Nat.mod_eq_of_lt
      omega
    rw [hw]
    have hne : a - s.smem ≠ (a - s.smem) / s.objsize * s.objsize := by
      intro he
      apply hno
      refine ⟨by omega, ?_⟩
      rw [he]
      exact Nat.mul_mod_left _ _
    rw [if_pos hne]

theorem Cache.free_foreign {c : Cache} (hi : c.Inv) {a : Nat} (ha : a < 2 ^ 64)
    (hno : ∀ s ∈ c.part ++ c.full,
      ¬ (s.smem ≤ a ∧ a ≤ s.emem ∧ (a - s.smem) % s.objsize = 0)) :
    c.free a = some (c, false, []) := by
  have hrej : ∀ s, s ∈ c.part ++ c.full → s.smem ≤ a → s.free a = some (s, false) := by
    intro s hs hle
    have hmem : s ∈ c.slabs := by
      rw [Cache.mem_slabs]
      rcases List.mem_append.mp hs with h | h
      · exact Or.inr (Or.inl h)
      · exact Or.inl h
    have hsz : s.objsize ≠ 0 := by
      rw [hi.objsize s hmem]
      have := hi.size
      omega
    exact slab.free_rejects hsz hle ha (fun h => hno s hs ⟨hle, h.1, h.2⟩)
  rw [Cache.free_eq]
  rcases Cache.freePart_cases c a with ⟨h1, _⟩ | ⟨_, s, hs, hle, hf⟩ | ⟨n, s, s1, _, hget, hle, hf, _⟩
  · rw [h1]
    simp only
    rcases Cache.freeFull_cases c a with ⟨h2, _⟩ | ⟨_, s, hs, hle, hf⟩ | ⟨n, s, s1, _, hget, hle, hf, _⟩
    · rw [h2]
    · have := hrej s (List.mem_append_right _ (mem_of_getElem?_eq (index_eq_some hs).2.2)) hle
      rw [this] at hf
      cases hf
    · have := hrej s (List.mem_append_right _ (mem_of_getElem?_eq hget)) hle
      rw [this] at hf
      simp at hf
  · have := hrej s (List.mem_append_left _ (mem_of_getElem?_eq (index_eq_some hs).2.2)) hle
    rw [this] at hf
    cases hf
  · have := hrej s (List.mem_append_left _ (mem_of_getElem?_eq hget)) hle
    rw [this] at hf
    simp at hf

theorem Cache.Alloc_nil_iff (c : Cache) (mem : Nat → Nat) :
    ((∃ c1 ev, c.Alloc mem = some (c1, none, ev)) ↔
      (c.part = [] ∧ c.empty = [] ∧ c.grower c.ReadStats ≤ 0)) ∧
    (∀ c1 ev, c.Alloc mem = some (c1, none, ev) → c1 = c ∧ ev = [Event.grower c.ReadStats]) := by
  have key : ∀ c1 ev, c.Alloc mem = some (c1, none, ev) →
      (c.part = [] ∧ c.empty = [] ∧ c.grower c.ReadStats ≤ 0) ∧ c1 = c ∧
        ev = [Event.grower c.ReadStats] := by
    intro c1 ev h
    have hsome : ∀ {c2 : Cache} {ev2 : List Event} {s : slab} {rest : List slab},
        c.refill mem = some (c2, ev2, true) → c2.part = s :: rest → False := by
      intro c2 ev2 s rest h1 h2
      have h3 := Cache.Alloc_of_refill h1 h2
      rw [h] at h3
      rcases hs : s.alloc with _ | ⟨s1, obj⟩
      · rw [hs] at h3; cases h3
      · rw [hs] at h3
        simp only at h3
        split at h3 <;> simp at h3
    rcases Cache.refill_cases c mem with ⟨hp, h1⟩ | ⟨hp, o, e, he, h1⟩ | ⟨_, _, _, h1⟩ |
        ⟨hp, he, cg, ev1, hg, h1⟩ | ⟨hp, _, cg, num, ev1, o, e, hg, _, he, h1⟩
    · obtain ⟨s, rest, hsr⟩ := List.exists_cons_of_ne_nil hp
      exact (hsome h1 hsr).elim
    · exact (hsome h1 rfl).elim
    · rw [Cache.Alloc_of_refill_none h1] at h
      cases h
    · rw [Cache.Alloc_of_refill_false h1] at h
      simp only [Option.some.injEq, Prod.mk.injEq, true_and] at h
      obtain ⟨rfl, rfl⟩ := h
      obtain ⟨_, hnum, _⟩ := Cache.grow_spec hg
      have hle : c.grower c.ReadStats ≤ 0 := by
        split at hnum <;> omega
      rw [Cache.grow_zero hle] at hg
      simp only [Option.some.injEq, Prod.mk.injEq, true_and] at hg
      exact ⟨⟨hp, he, hle⟩, hg.1.symm, hg.2.symm⟩
    · exact (hsome h1 rfl).elim
  refine ⟨⟨?_, ?_⟩, fun c1 ev h => (key c1 ev h).2⟩
  · rintro ⟨c1, ev, h⟩
    exact (key c1 ev h).1
  · rintro ⟨hp, he, hle⟩
    refine ⟨c, [Event.grower c.ReadStats], ?_⟩
    rcases Cache.refill_cases c mem with ⟨hp1, _⟩ | ⟨_, o, e, he1, _⟩ | ⟨_, _, hg, _⟩ |
        ⟨_, _, cg, ev1, hg, h1⟩ | ⟨_, _, cg, num, ev1, o, e, hg, hn, _, _⟩
    · exact (hp1 hp).elim
    · rw [he] at he1; cases he1
    · rw [Cache.grow_zero hle] at hg; cases hg
    · rw [Cache.grow_zero hle] at hg
      simp only [Option.some.injEq, Prod.mk.injEq, true_and] at hg
      rw [Cache.Alloc_of_refill_false h1, ← hg.1, ← hg.2]
    · rw [Cache.grow_zero hle] at hg
      simp only [Option.some.injEq, Prod.mk.injEq] at hg
      exact (hn hg.2.1.symm).elim


/-! ## The bitmap -/

theorem ntzMatrix_getD (b : Nat) (h : b < 256) : ntzMatrix.getD b 0 = ntzEntry b := by
  unfold ntzMatrix buildNtzMatrix
  rw [List.getD_eq_getElem?_getD, List.getElem?_map, List.getElem?_range h]
  rfl

set_option maxRecDepth 100000 in
theorem ntzEntry_spec : ∀ b, b < 256 → b ≠ 255 →
    ntzEntry b < 8 ∧ b.testBit (ntzEntry b) = false ∧ ∀ j, j < ntzEntry b → b.testBit j = true := by
  decide

theorem ntzEntry_full : ntzEntry 255 = 8 := by decide

theorem setBit_byte {b k : Nat} (hb : b < 256) (hk : k < 8) :
    (b ||| (1 <<< k)) % 256 < 256 ∧
    ∀ j, ((b ||| (1 <<< k)) % 256).testBit j = (b.testBit j || decide (j = k)) := by
  have h1 : 1 <<< k < 2 ^ 8 := by
    rw [Nat.one_shiftLeft]
    exact Nat.pow_lt_pow_right (by norm_num) hk
  have h2 : b ||| (1 <<< k) < 2 ^ 8 := Nat.or_lt_two_pow (by norm_num; exact hb) h1
  have h3 : (b ||| (1 <<< k)) % 256 = b ||| (1 <<< k) := Nat.mod_eq_of_lt (by norm_num at h2; exact h2)
  rw [h3]
  refine ⟨by norm_num at h2; exact h2, ?_⟩
  intro j
  rw [Nat.testBit_or, Nat.one_shiftLeft, Nat.testBit_two_pow]
  congr 1
  by_cases h : j = k
  · simp [h]
  · simp only [h, decide_False]
    rw [decide_eq_false]
    exact fun e => h e.symm

theorem toggleBit_byte {b k : Nat} (hb : b < 256) (hk : k < 8) :
    (b ^^^ (1 <<< k)) % 256 < 256 ∧
    ∀ j, ((b ^^^ (1 <<< k)) % 256).testBit j = xor (b.testBit j) (decide (j = k)) := by
  have h1 : 1 <<< k < 2 ^ 8 := by
    rw [Nat.one_shiftLeft]
    exact Nat.pow_lt_pow_right (by norm_num) hk
  have h2 : b ^^^ (1 <<< k) < 2 ^ 8 := Nat.xor_lt_two_pow (by norm_num; exact hb) h1
  have h3 : (b ^^^ (1 <<< k)) % 256 = b ^^^ (1 <<< k) := Nat.mod_eq_of_lt (by norm_num at h2; exact h2)
  rw [h3]
  refine ⟨by norm_num at h2; exact h2, ?_⟩
  intro j
  rw [Nat.testBit_xor, Nat.one_shiftLeft, Nat.testBit_two_pow]
  congr 1
  by_cases h : j = k
  · simp [h]
  · simp only [h, decide_False]
    rw [decide_eq_false]
    exact fun e => h e.symm

theorem bitAt_set {bs : List Nat} {i : Nat} (v : Nat) (k : Nat) (hi : i < bs.length) :
    bitAt (bs.set i v) k = if k / 8 = i then v.testBit (k % 8) else bitAt bs k := by
  unfold bitAt
  rw [List.getD_eq_getElem?_getD, List.getD_eq_getElem?_getD, List.getElem?_set]
  by_cases h : k / 8 = i
  · subst h
    simp [hi]
  · rw [if_neg (fun e => h e.symm), if_neg h]

theorem bitAt_byte {bs : List Nat} {i : Nat} {b : Nat} (h : bs[i]? = some b) (t : Nat) (ht : t < 8) :
    bitAt bs (8 * i + t) = b.testBit t := by
  unfold bitAt
  have h1 : (8 * i + t) / 8 = i := by omega
  have h2 : (8 * i + t) % 8 = t := by omega
  rw [h1, h2, List.getD_eq_getElem?_getD, h]
  rfl

theorem bitAt_setBit {bs : List Nat} {f b : Nat} (hb : bs[f / 8]? = some b) (hlt : b < 256) (k : Nat) :
    bitAt (bs.set (f / 8) ((b ||| (1 <<< (f % 8))) % 256)) k = (bitAt bs k || decide (k = f)) := by
  have hi : f / 8 < bs.length := (List.getElem?_eq_some.mp hb).1
  rw [bitAt_set _ _ hi]
  by_cases h : k / 8 = f / 8
  · rw [if_pos h, (setBit_byte hlt (Nat.mod_lt _ (by norm_num))).2]
    unfold bitAt
    rw [h, List.getD_eq_getElem?_getD, hb]
    congr 1
    by_cases h2 : k = f
    · subst h2; simp
    · have : k % 8 ≠ f % 8 := by omega
      simp [h2, this]
  · rw [if_neg h]
    have : k ≠ f := fun e => h (by rw [e])
    simp [this]

theorem bitAt_toggleBit {bs : List Nat} {f b : Nat} (hb : bs[f / 8]? = some b) (hlt : b < 256)
    (k : Nat) :
    bitAt (bs.set (f / 8) ((b ^^^ (1 <<< (f % 8))) % 256)) k = xor (bitAt bs k) (decide (k = f)) := by
  have hi : f / 8 < bs.length := (List.getElem?_eq_some.mp hb).1
  rw [bitAt_set _ _ hi]
  by_cases h : k / 8 = f / 8
  · rw [if_pos h, (toggleBit_byte hlt (Nat.mod_lt _ (by norm_num))).2]
    unfold bitAt
    rw [h, List.getD_eq_getElem?_getD, hb]
    congr 1
    by_cases h2 : k = f
    · subst h2; simp
    · have : k % 8 ≠ f % 8 := by omega
      simp [h2, this]
  · rw [if_neg h]
    have : k ≠ f := fun e => h (by rw [e])
    simp [this]

theorem countP_range_set {p q : Nat → Bool} {f : Nat} (hq : ∀ k, k ≠ f → q k = p k)
    (hpf : p f = false) (hqf : q f = true) : ∀ n, f < n →
    (List.range n).countP q = (List.range n).countP p + 1 := by
  intro n
  induction n with
  | zero => intro h; omega
  | succ n ih =>
    intro h
    rw [List.range_succ, List.countP_append, List.countP_append]
    by_cases hfn : f = n
    · subst hfn
      have e : (List.range f).countP q = (List.range f).countP p := by
        apply List.countP_congr
        intro x hx
        rw [List.mem_range] at hx
        rw [hq x (by omega)]
      rw [e]
      simp [hpf, hqf]
    · rw [ih (by omega)]
      have : q n = p n := hq n (fun e => hfn e.symm)
      simp [List.countP_cons, this]
      omega

theorem countP_range_le (p : Nat → Bool) (n : Nat) : (List.range n).countP p ≤ n := by
  have := List.countP_le_length p (l := List.range n)
  simpa using this

theorem countP_range_full {p : Nat → Bool} {n : Nat} :
    (List.range n).countP p = n ↔ ∀ k, k < n → p k = true := by
  have h := List.countP_eq_length (p := p) (l := List.range n)
  rw [List.length_range] at h
  rw [h]
  constructor
  · intro h1 k hk
    exact h1 k (List.mem_range.mpr hk)
  · intro h1 k hk
    exact h1 k (List.mem_range.mp hk)

theorem slab.scan_spec (bs : List Nat) (hb : ∀ b ∈ bs, b < 256) : ∀ (n i : Nat),
    i + n = bs.length →
    (∀ r, slab.scan (bs.drop i) i = some r → ∃ m : Nat, r = (m : Int) ∧ 8 * i ≤ m ∧
      m < 8 * bs.length ∧ bitAt bs m = false ∧ ∀ j, 8 * i ≤ j → j < m → bitAt bs j = true) ∧
    (slab.scan (bs.drop i) i = none → ∀ j, 8 * i ≤ j → j < 8 * bs.length → bitAt bs j = true) := by
  intro n
  induction n with
  | zero =>
    intro i hi
    have : bs.drop i = [] := List.drop_of_length_le (by omega)
    rw [this]
    refine ⟨fun r h => ?_, fun _ j h1 h2 => by omega⟩
    simp [slab.scan] at h
  | succ n ih =>
    intro i hi
    have hlt : i < bs.length := by omega
    rw [List.drop_eq_getElem_cons hlt]
    have hget : bs[i]? = some bs[i] := List.getElem?_eq_getElem hlt
    have hbyte : bs[i] < 256 := hb _ (List.getElem_mem hlt)
    unfold slab.scan
    by_cases hff : bs[i] = 255
    · have hne : ¬ (bs[i] ≠ 255) := by simpa using hff
      rw [if_neg hne]
      obtain ⟨ih1, ih2⟩ := ih (i + 1) (by omega)
      have hbyteall : ∀ j, 8 * i ≤ j → j < 8 * (i + 1) → bitAt bs j = true := by
        intro j h1 h2
        have e : j = 8 * i + (j - 8 * i) := by omega
        rw [e, bitAt_byte hget _ (by omega), hff]
        have : j - 8 * i < 8 := by omega
        interval_cases (j - 8 * i) <;> rfl
      constructor
      · intro r hr
        obtain ⟨m, hm, h1, h2, h3, h4⟩ := ih1 r hr
        refine ⟨m, hm, by omega, h2, h3, ?_⟩
        intro j hj1 hj2
        by_cases hj : j < 8 * (i + 1)
        · exact hbyteall j hj1 hj
        · exact h4 j (by omega) hj2
      · intro hnone j hj1 hj2
        by_cases hj : j < 8 * (i + 1)
        · exact hbyteall j hj1 hj
        · exact ih2 hnone j (by omega) hj2
    · rw [if_pos hff]
      obtain ⟨h1, h2, h3⟩ := ntzEntry_spec _ hbyte hff
      constructor
      · intro r hr
        simp only [Option.some.injEq] at hr
        rw [ntzMatrix_getD _ hbyte] at hr
        refine ⟨8 * i + ntzEntry bs[i], ?_, by omega, by omega, ?_, ?_⟩
        · rw [← hr]; push_cast; ring
        · rw [bitAt_byte hget _ h1]; exact h2
        · intro j hj1 hj2
          have e : j = 8 * i + (j - 8 * i) := by omega
          rw [e, bitAt_byte hget _ (by omega)]
          exact h3 _ (by omega)
      · intro h
        cases h


/-! ## The slab: alloc and free on a slab whose counters agree with its bitmap -/

theorem slab.Exact.first_lt {s : slab} (hw : s.WF) (he : s.Exact) (h : s.inuse < s.total) :
    s.first < s.total := by
  by_contra hcon
  have hft : s.first = s.total := by
    have := he.first_le
    omega
  have hall : ∀ k, k < s.total.toNat → bitAt s.bufctl k = true := by
    intro k hk
    exact he.below k (by rw [hft]; omega)
  have := countP_range_full.mpr hall
  have h2 := he.inuse
  unfold countBits at h2
  rw [this] at h2
  have := hw.total
  omega

theorem slab.alloc_spec {s : slab} (hw : s.WF) (he : s.Exact) (h : s.inuse < s.total) :
    ∃ s1, s.alloc = some (s1, s.smem + s.first.toNat * s.objsize) ∧ s1.WF ∧ s1.Exact ∧
      (∀ k, s1.bit k = (s.bit k || decide (k = s.first.toNat))) ∧
      s.first < s.total ∧ s1.total = s.total ∧ s1.inuse = s.inuse + 1 ∧
      s1.objsize = s.objsize ∧ s1.smem = s.smem ∧ s1.emem = s.emem := by
  have hlt := he.first_lt hw h
  obtain ⟨f, hf⟩ := Int.eq_ofNat_of_zero_le he.first_nonneg
  have htot := hw.total
  have hfT : f < 8 * s.bufctl.length := by omega
  have hfn : f / 8 < s.bufctl.length := by omega
  have hchunk : s.chunk[f]? = some (s.smem + f * s.objsize) := by
    rw [hw.chunk, List.getElem?_map, List.getElem?_range (by omega)]
    rfl
  have hbyte : s.bufctl[f / 8]? = some s.bufctl[f / 8] := List.getElem?_eq_getElem hfn
  have hb256 : s.bufctl[f / 8] < 256 := hw.bytes _ (List.getElem_mem hfn)
  have e1 : (s.first / 8).toNat = f / 8 := by omega
  have e2 : (s.first % 8).toNat = f % 8 := by omega
  have e3 : s.first / 8 = ((f / 8 : Nat) : Int) := by omega
  have e4 : s.first.toNat = f := by omega
  -- the new bitmap
  generalize hnb : s.bufctl.set (f / 8) ((s.bufctl[f / 8] ||| (1 <<< (f % 8))) % 256) = nb
  have hnbl : nb.length = s.bufctl.length := by rw [← hnb]; simp
  have hbits : ∀ k, bitAt nb k = (bitAt s.bufctl k || decide (k = f)) := by
    intro k
    rw [← hnb]
    exact bitAt_setBit hbyte hb256 k
  have hnbytes : ∀ b ∈ nb, b < 256 := by
    intro b hbm
    rw [← hnb] at hbm
    rcases List.mem_or_eq_of_mem_set hbm with h1 | h1
    · exact hw.bytes b h1
    · rw [h1]
      exact (setBit_byte hb256 (Nat.mod_lt _ (by norm_num))).1
  have hfree : bitAt s.bufctl f = false := by
    have := he.free hlt
    rw [e4] at this
    exact this
  have hcount : countBits nb s.total.toNat = countBits s.bufctl s.total.toNat + 1 := by
    unfold countBits
    apply countP_range_set (f := f)
    · intro k hk
      rw [hbits k]
      simp [hk]
    · exact hfree
    · rw [hbits f]; simp
    · omega
  have hinuse := he.inuse
  have hwf : ∀ (fst : Int), slab.WF { s with bufctl := nb, inuse := s.inuse + 1, first := fst } := by
    intro fst
    exact ⟨by simp only [hnbl]; exact hw.total, by simp only [hnbl]; exact hw.pos, hnbytes,
      hw.chunk, hw.emem, hw.objsize⟩
  have halloc : ∃ fst, fst = (match (if s.total > s.inuse + 1 then
        slab.scan (nb.drop (f / 8)) (f / 8) else none) with
        | some g => g
        | none => (nb.length : Int) * 8) ∧
      s.alloc = some ({ s with bufctl := nb, inuse := s.inuse + 1, first := fst },
        s.smem + f * s.objsize) := by
    refine ⟨_, rfl, ?_⟩
    unfold slab.alloc
    rw [hf, index_of_getElem? hchunk]
    simp only
    rw [← hf, e3, index_of_getElem? hbyte]
    simp only
    rw [← e3, e1, e2, hnb]
    split <;> rfl
  obtain ⟨fst, hfst, halloc⟩ := halloc
  rw [e4]
  refine ⟨_, halloc, hwf _, ?_, ?_, hlt, rfl, rfl, rfl, rfl, rfl⟩
  · -- exactness
    obtain ⟨hs1, hs2⟩ := slab.scan_spec nb hnbytes (nb.length - f / 8) (f / 8) (by omega)
    by_cases hmore : s.total > s.inuse + 1
    · rw [if_pos hmore] at hfst
      rcases hsc : slab.scan (nb.drop (f / 8)) (f / 8) with _ | r
      · exfalso
        have hall : ∀ k, k < s.total.toNat → bitAt nb k = true := by
          intro k hk
          by_cases hk8 : 8 * (f / 8) ≤ k
          · exact hs2 hsc k hk8 (by omega)
          · rw [hbits k]
            have := he.below k (by omega)
            unfold slab.bit at this
            simp [this]
        have hc : countBits nb s.total.toNat = s.total.toNat := countP_range_full.mpr hall
        omega
      · obtain ⟨m, hm, hm1, hm2, hm3, hm4⟩ := hs1 r hsc
        rw [hsc] at hfst
        simp only at hfst
        subst hm
        subst hfst
        refine ⟨?_, ?_, ?_, ?_, ?_⟩
        · simp only; rw [hcount]; push_cast; omega
        · simp only; omega
        · simp only; omega
        · intro k hk
          simp only at hk
          show bitAt nb k = true
          by_cases hk8 : 8 * (f / 8) ≤ k
          · exact hm4 k hk8 (by omega)
          · rw [hbits k]
            have := he.below k (by omega)
            unfold slab.bit at this
            simp [this]
        · intro _
          show bitAt nb (m : Int).toNat = false
          simpa using hm3
    · rw [if_neg hmore] at hfst
      have hfst2 : fst = 8 * (nb.length : Int) := by
        rw [hfst]
        show (nb.length : Int) * 8 = 8 * (nb.length : Int)
        ring
      clear hfst
      subst hfst2
      have hfull : s.inuse + 1 = s.total := by omega
      have hall : ∀ k, k < s.total.toNat → bitAt nb k = true := by
        apply countP_range_full.mp
        show countBits nb s.total.toNat = s.total.toNat
        omega
      refine ⟨?_, ?_, ?_, ?_, ?_⟩
      · simp only; rw [hcount]; push_cast; omega
      · simp only; omega
      · simp only; omega
      · intro k hk
        simp only at hk
        exact hall k (by omega)
      · intro hh
        simp only at hh
        omega
  · intro k
    exact hbits k

theorem toI64_of_lt {k : Nat} (h : (k : Int) < 2 ^ 63) : toI64 (k : Int) = k := by
  unfold toI64
  omega

theorem slab.free_spec {s : slab} (hw : s.WF) (hi : s.InWord) (he : s.Exact) {k : Nat}
    (hk : k < s.total.toNat) (hbit : s.bit k = true) :
    ∃ s1, s.free (s.smem + k * s.objsize) = some (s1, true) ∧ s1.WF ∧ s1.InWord ∧ s1.Exact ∧
      (∀ j, s1.bit j = (s.bit j && decide (j ≠ k))) ∧
      s1.total = s.total ∧ s1.inuse = s.inuse - 1 ∧
      s1.objsize = s.objsize ∧ s1.smem = s.smem ∧ s1.emem = s.emem := by
  have htot := hw.total
  have hkn : k / 8 < s.bufctl.length := by omega
  have hbyte : s.bufctl[k / 8]? = some s.bufctl[k / 8] := List.getElem?_eq_getElem hkn
  have hb256 : s.bufctl[k / 8] < 256 := hw.bytes _ (List.getElem_mem hkn)
  have hmul : k * s.objsize ≤ (s.total.toNat - 1) * s.objsize :=
    Nat.mul_le_mul_right _ (by omega)
  have hemem := hw.emem
  have hword := hi.word
  have hint := hi.int
  have hsz := hw.objsize
  have h1 : ¬ (s.smem + k * s.objsize > s.emem) := by omega
  have h2 : (2 ^ 64 + (s.smem + k * s.objsize) - s.smem) % 2 ^ 64 = k * s.objsize := by omega
  have h3 : k * s.objsize / s.objsize = k := Nat.mul_div_cancel _ (by omega)
  have h4 : k * s.objsize % 2 ^ 64 = k * s.objsize := by omega
  have h5 : toI64 (k : Int) = k := toI64_of_lt (by omega)
  have e1 : ((k : Int) / 8).toNat = k / 8 := by omega
  have e2 : ((k : Int) % 8).toNat = k % 8 := by omega
  have e3 : (k : Int) / 8 = ((k / 8 : Nat) : Int) := by omega
  generalize hnb : s.bufctl.set (k / 8) ((s.bufctl[k / 8] ^^^ (1 <<< (k % 8))) % 256) = nb
  have hnbl : nb.length = s.bufctl.length := by rw [← hnb]; simp
  have hbits : ∀ j, bitAt nb j = (bitAt s.bufctl j && decide (j ≠ k)) := by
    intro j
    rw [← hnb, bitAt_toggleBit hbyte hb256 j]
    by_cases hjk : j = k
    · subst hjk
      unfold slab.bit at hbit
      simp [hbit]
    · simp [hjk]
  have hnbytes : ∀ b ∈ nb, b < 256 := by
    intro b hbm
    rw [← hnb] at hbm
    rcases List.mem_or_eq_of_mem_set hbm with h | h
    · exact hw.bytes b h
    · rw [h]
      exact (toggleBit_byte hb256 (Nat.mod_lt _ (by norm_num))).1
  have hcount : countBits s.bufctl s.total.toNat = countBits nb s.total.toNat + 1 := by
    unfold countBits
    apply countP_range_set (f := k)
    · intro j hj
      rw [hbits j]
      simp [hj]
    · rw [hbits k]; simp
    · exact hbit
    · exact hk
  have hfree : s.free (s.smem + k * s.objsize) = some ({ s with
      bufctl := nb, inuse := s.inuse - 1, first := if s.first > (k : Int) then (k : Int) else s.first },
      true) := by
    unfold slab.free
    rw [if_neg h1]
    simp only
    rw [if_neg (by omega : ¬ s.objsize = 0), h2, h3, h4]
    simp only [ne_eq, not_true_eq_false, if_false]
    rw [h5, e3, index_of_getElem? hbyte]
    simp only
    rw [← e3, e1, e2, hnb]
  have hinuse := he.inuse
  refine ⟨_, hfree, ?_, ?_, ?_, ?_, rfl, rfl, rfl, rfl, rfl⟩
  · exact ⟨by simp only [hnbl]; exact hw.total, by simp only [hnbl]; exact hw.pos, hnbytes,
      hw.chunk, hw.emem, hw.objsize⟩
  · exact ⟨hi.word, hi.int⟩
  · have hfn := he.first_nonneg
    have hfl := he.first_le
    refine ⟨?_, ?_, ?_, ?_, ?_⟩
    · simp only; omega
    · simp only; split <;> omega
    · simp only; split <;> omega
    · intro j hj
      simp only at hj
      show bitAt nb j = true
      rw [hbits j]
      have hjk : j ≠ k := by
        split at hj <;> omega
      have hjf : (j : Int) < s.first := by
        split at hj <;> omega
      have := he.below j hjf
      unfold slab.bit at this
      simp [this, hjk]
    · intro _
      simp only
      by_cases hgt : s.first > (k : Int)
      · rw [if_pos hgt]
        show bitAt nb (k : Int).toNat = false
        rw [Int.toNat_ofNat, hbits k]
        simp
      · rw [if_neg hgt]
        show bitAt nb s.first.toNat = false
        rw [hbits]
        have hlt : s.first < s.total := by omega
        have := he.free hlt
        unfold slab.bit at this
        simp [this]
  · intro j
    exact hbits j

theorem newSlab_spec {t : reflectType} {size : Int} {ctor : Bool} {base : Nat} {o : slab}
    {ev : List Event} (h : newSlab t size ctor base = some (o, ev)) (ht : 1 ≤ t.Size) :
    o.WF ∧ o.Exact ∧ (∀ k, o.bit k = false) := by
  obtain ⟨h1, h2, h3, h4, h5, h6, h7, h8, h9, h10, _⟩ := newSlab_eq_some h
  have hbits : ∀ k, bitAt o.bufctl k = false := by
    intro k
    unfold bitAt
    rw [h9, List.getD_eq_getElem?_getD]
    by_cases hk : k / 8 < (size / 8).toNat
    · rw [List.getElem?_replicate_of_lt hk]
      simp
    · rw [List.getElem?_eq_none (by simpa using hk)]
      simp
  refine ⟨⟨?_, ?_, ?_, ?_, ?_, ?_⟩, ⟨?_, ?_, ?_, ?_, ?_⟩, hbits⟩
  · rw [h3, h9, List.length_replicate]; omega
  · rw [h9, List.length_replicate]; omega
  · intro b hb
    rw [h9] at hb
    have := List.eq_of_mem_replicate hb
    omega
  · rw [h10, h3, h7, h6]
  · rw [h8, h3, h7, h6]
  · rw [h6]; exact ht
  · rw [h4]
    unfold countBits
    have : (List.range o.total.toNat).countP (bitAt o.bufctl) = 0 := by
      rw [List.countP_eq_zero]
      intro x _
      rw [hbits x]
      simp
    rw [this]
    rfl
  · rw [h5]
  · rw [h5, h3]; omega
  · intro k hk
    rw [h5] at hk
    omega
  · intro _
    exact hbits _


/-! ## Filling slabs by successive Allocs -/

theorem div_succ_cases (n L : Nat) (hL : 0 < L) :
    (n % L + 1 < L ∧ (n + 1) / L = n / L ∧ (n + 1) % L = n % L + 1) ∨
    (n % L + 1 = L ∧ (n + 1) / L = n / L + 1 ∧ (n + 1) % L = 0) := by
  have h1 := Nat.div_add_mod n L
  have h2 := Nat.mod_lt n hL
  by_cases h : n % L + 1 < L
  · left
    refine ⟨h, ?_⟩
    have := (Nat.div_mod_unique hL (a := n + 1) (d := n / L) (c := n % L + 1)).mpr ⟨by omega, h⟩
    exact this
  · right
    have he : n % L + 1 = L := by omega
    refine ⟨he, ?_⟩
    have := (Nat.div_mod_unique hL (a := n + 1) (d := n / L + 1) (c := 0)).mpr
      ⟨by rw [Nat.mul_add, Nat.mul_one]; omega, hL⟩
    exact this

theorem ceilDiv_eq (n L : Nat) (hL : 0 < L) :
    ceilDiv n L = n / L + (if n % L = 0 then 0 else 1) := by
  unfold ceilDiv
  have h1 := Nat.div_add_mod n L
  have h2 := Nat.mod_lt n hL
  by_cases h : n % L = 0
  · rw [if_pos h]
    have := (Nat.div_mod_unique hL (a := n + L - 1) (d := n / L) (c := L - 1)).mpr
      ⟨by omega, by omega⟩
    exact this.1
  · rw [if_neg h]
    have := (Nat.div_mod_unique hL (a := n + L - 1) (d := n / L + 1) (c := n % L - 1)).mpr
      ⟨by rw [Nat.mul_add, Nat.mul_one]; omega, by omega⟩
    exact this.1

theorem Cache.grow_one {c : Cache} {mem : Nat → Nat} {o : slab} {evo : List Event}
    (hg : c.grower c.ReadStats = 1)
    (hn : newSlab c.objType c.objLen c.ctor (mem 0) = some (o, evo)) :
    c.grow mem = some ({ c with empty := slabs.insert c.empty o }, 1,
      Event.grower c.ReadStats :: evo) := by
  unfold Cache.grow
  simp only [hg]
  have : (if (1 : Int) < 0 then (0 : Int) else 1).toNat = 1 := by decide
  simp only [this, Cache.growLoop, hn, List.append_nil]
  rfl

theorem newSlab_some (t : reflectType) {size : Int} (ctor : Bool) (base : Nat)
    (h1 : 0 < size) (h2 : size % 8 = 0) :
    ∃ o ev, newSlab t size ctor base = some (o, ev) := by
  unfold newSlab
  rw [if_neg (by omega)]
  exact ⟨_, _, rfl⟩

theorem Cache.refill_of_part {c : Cache} (mem : Nat → Nat) (h : c.part ≠ []) :
    c.refill mem = some (c, [], true) := by
  rcases Cache.refill_cases c mem with ⟨_, h1⟩ | ⟨hp, _⟩ | ⟨hp, _⟩ | ⟨hp, _⟩ | ⟨hp, _⟩
  · exact h1
  all_goals exact (h hp).elim

/-- Alloc on a cache whose first partial slab is in order: the object at the hint is handed
out. -/
theorem Cache.Alloc_part {c : Cache} (mem : Nat → Nat) {s : slab} {rest : List slab}
    (hp : c.part = s :: rest) (hw : s.WF) (he : s.Exact) (h : s.inuse < s.total) :
    ∃ s1, s.alloc = some (s1, s.smem + s.first.toNat * s.objsize) ∧ s1.WF ∧ s1.Exact ∧
      (∀ k, s1.bit k = (s.bit k || decide (k = s.first.toNat))) ∧
      s.first < s.total ∧ s1.total = s.total ∧ s1.inuse = s.inuse + 1 ∧
      s1.objsize = s.objsize ∧ s1.smem = s.smem ∧ s1.emem = s.emem ∧
      c.Alloc mem = some (
        (if s1.total = s1.inuse then
          { c with
            full := slabs.insert c.full s1
            part := rest
            inuseObjs := c.inuseObjs + 1
            allocs := c.allocs + 1 }
        else
          { c with
            part := s1 :: rest
            inuseObjs := c.inuseObjs + 1
            allocs := c.allocs + 1 }), some (s.smem + s.first.toNat * s.objsize), []) := by
  obtain ⟨s1, ha, h1, h2, h3, h4, h5, h6, h7, h8, h9⟩ := slab.alloc_spec hw he h
  refine ⟨s1, ha, h1, h2, h3, h4, h5, h6, h7, h8, h9, ?_⟩
  have hne : c.part ≠ [] := by rw [hp]; simp
  rw [Cache.Alloc_of_refill (Cache.refill_of_part mem hne) hp, ha]
  simp only
  split <;> rfl

theorem Cache.refill_grow_one {c : Cache} {mem : Nat → Nat} {o : slab} {evo : List Event}
    (hp : c.part = []) (he : c.empty = []) (hg : c.grower c.ReadStats = 1)
    (hn : newSlab c.objType c.objLen c.ctor (mem 0) = some (o, evo)) :
    c.refill mem = some ({ c with part := [o], empty := [] },
      Event.grower c.ReadStats :: evo, true) := by
  have hgrow := Cache.grow_one hg hn
  rcases Cache.refill_cases c mem with ⟨h1, _⟩ | ⟨_, o2, e2, h1, _⟩ | ⟨_, _, h1, _⟩ |
      ⟨_, _, cg, ev1, h1, _⟩ | ⟨_, _, cg, num, ev1, o2, e2, h1, _, h2, h3⟩
  · exact (h1 hp).elim
  · rw [he] at h1; cases h1
  · rw [hgrow] at h1; cases h1
  · rw [hgrow] at h1
    simp only [Option.some.injEq, Prod.mk.injEq] at h1
    omega
  · rw [hgrow] at h1
    simp only [Option.some.injEq, Prod.mk.injEq] at h1
    obtain ⟨rfl, rfl, rfl⟩ := h1
    simp only [he, slabs.insert_nil, List.cons.injEq] at h2
    obtain ⟨rfl, rfl⟩ := h2
    rw [h3]

theorem countP_isCtor_map (l : List Nat) : (l.map Event.ctor).countP Event.isCtor = l.length := by
  induction l with
  | nil => rfl
  | cons a l ih => simp [List.countP_cons, Event.isCtor, ih]

theorem countP_other_map (l : List Nat) :
    (l.map Event.ctor).countP Event.isGrower = 0 ∧ (l.map Event.ctor).countP Event.isReaper = 0 ∧
    (l.map Event.ctor).countP Event.isDtor = 0 := by
  induction l with
  | nil => exact ⟨rfl, rfl, rfl⟩
  | cons a l ih => simp [List.countP_cons, Event.isGrower, Event.isReaper, Event.isDtor, ih]

theorem Cache.Filled.step {c : Cache} {n : Nat} (hf : c.Filled n) (mem : Nat → Nat) :
    ∃ c1 o ev, c.Alloc mem = some (c1, some o, ev) ∧ c1.Filled (n + 1) ∧
      c1.objLen = c.objLen ∧
      ev.countP Event.isGrower = (if n % c.objLen.toNat = 0 then 1 else 0) ∧
      ev.countP Event.isCtor = (if n % c.objLen.toNat = 0 then c.objLen.toNat else 0) ∧
      ev.countP Event.isReaper = 0 ∧ ev.countP Event.isDtor = 0 := by
  have hL : 0 < c.objLen.toNat := by have := hf.len.1; omega
  have hL8 : 8 ≤ c.objLen := by have := hf.len; omega
  -- the slab Alloc takes the object from, and the state before the second half of Alloc
  have key : ∀ (c0 : Cache) (s : slab) (ev : List Event), c0.part = [s] → s.WF → s.Exact →
      s.inuse = ((n % c.objLen.toNat : Nat) : Int) → s.total = c.objLen →
      c0.full = c.full → c0.empty = [] → c0.objLen = c.objLen → c0.objType = c.objType →
      c0.grower = c.grower →
      c0.ctor = c.ctor → c0.inuseObjs = c.inuseObjs → c0.allocs = c.allocs →
      c0.frees = c.frees →
      (∀ c1 o, c0.Alloc mem = some (c1, some o, []) → c.Alloc mem = some (c1, some o, ev)) →
      ∃ c1 o, c.Alloc mem = some (c1, some o, ev) ∧ c1.Filled (n + 1) ∧ c1.objLen = c.objLen := by
    intro c0 s ev hp hw he hin htot hfull hempty hlen hty hgr hct hio hal hfr hlift
    have hlt : s.inuse < s.total := by
      have := Nat.mod_lt n hL
      omega
    obtain ⟨s1, _, hw1, he1, _, _, ht1, hi1, _, _, _, hA⟩ := Cache.Alloc_part mem hp hw he hlt
    refine ⟨_, _, hlift _ _ hA, ?_, ?_⟩
    · rcases div_succ_cases n c.objLen.toNat hL with ⟨h1, h2, h3⟩ | ⟨h1, h2, h3⟩
      · have hne : ¬ s1.total = s1.inuse := by omega
        rw [if_neg hne]
        refine ⟨by simp only [hlen]; exact hf.len, by simp only [hty]; exact hf.size,
          by simp only [hgr]; exact hf.grower,
          by simp only [hct]; exact hf.ctor, hempty, ?_, ?_, ?_, ?_, ?_, ?_⟩
        · simp only [hlen, hfull, h2]; exact hf.full
        · simp only [hlen]; intro h0; omega
        · simp only [hlen]
          intro _
          exact ⟨s1, rfl, hw1, he1, by omega, by omega⟩
        · simp only [hio]; have := hf.inuseObjs; push_cast; omega
        · simp only [hal]; have := hf.allocs; omega
        · simp only [hfr]; exact hf.frees
      · have hne : s1.total = s1.inuse := by omega
        rw [if_pos hne]
        refine ⟨by simp only [hlen]; exact hf.len, by simp only [hty]; exact hf.size,
          by simp only [hgr]; exact hf.grower,
          by simp only [hct]; exact hf.ctor, hempty, ?_, ?_, ?_, ?_, ?_, ?_⟩
        · simp only [hlen, hfull, h2, slabs.length_insert]
          have := hf.full
          omega
        · intro _; rfl
        · simp only [hlen]; intro h0; omega
        · simp only [hio]; have := hf.inuseObjs; push_cast; omega
        · simp only [hal]; have := hf.allocs; omega
        · simp only [hfr]; exact hf.frees
    · split <;> exact hlen
  by_cases h0 : n % c.objLen.toNat = 0
  · have hp := hf.part0 h0
    obtain ⟨o, evo, hn⟩ := newSlab_some c.objType c.ctor (mem 0) hf.len.1 hf.len.2
    have hspec := newSlab_eq_some hn
    have hr := Cache.refill_grow_one hp hf.empty (hf.grower _) hn
    obtain ⟨hwo, heo, _⟩ := newSlab_spec hn hf.size
    have hlift : ∀ c1 o1, Cache.Alloc { c with part := [o], empty := [] } mem = some (c1, some o1, []) →
        c.Alloc mem = some (c1, some o1, Event.grower c.ReadStats :: evo) := by
      intro c1 o1 h
      have hr0 := Cache.refill_of_part (c := { c with part := [o], empty := [] }) mem (by simp)
      rw [Cache.Alloc_of_refill hr0 rfl] at h
      rw [Cache.Alloc_of_refill hr rfl]
      rcases ha : o.alloc with _ | ⟨s1, obj⟩
      · rw [ha] at h; cases h
      · rw [ha] at h
        simp only at h ⊢
        split at h <;> rename_i hfull
        · rw [if_pos hfull]
          simp only [Option.some.injEq, Prod.mk.injEq, and_true] at h
          rw [← h.1, ← h.2]
        · rw [if_neg hfull]
          simp only [Option.some.injEq, Prod.mk.injEq, and_true] at h
          rw [← h.1, ← h.2]
    obtain ⟨c1, o1, hA, hF, hl⟩ := key { c with part := [o], empty := [] } o
      (Event.grower c.ReadStats :: evo) rfl hwo heo (by rw [hspec.2.2.2.1, h0]; rfl) hspec.2.2.1
      rfl rfl rfl rfl rfl rfl rfl rfl rfl hlift
    refine ⟨c1, o1, _, hA, hF, hl, ?_⟩
    have hev := hspec.2.2.2.2.2.2.2.2.2.2
    have hch := hspec.2.2.2.2.2.2.2.2.2.1
    rw [hf.ctor] at hev
    simp only [if_true] at hev
    rw [hev]
    have hlen : o.chunk.length = c.objLen.toNat := by rw [hch]; simp
    obtain ⟨g1, g2, g3⟩ := countP_other_map o.chunk
    rw [if_pos h0, if_pos h0]
    refine ⟨?_, ?_, ?_, ?_⟩
    · rw [List.countP_cons, g1]; rfl
    · rw [List.countP_cons, countP_isCtor_map, hlen]; rfl
    · rw [List.countP_cons, g2]; rfl
    · rw [List.countP_cons, g3]; rfl
  · obtain ⟨s, hp, hw, he, hin, htot⟩ := hf.part1 h0
    obtain ⟨c1, o, hA, hF, hl⟩ := key c s [] hp hw he hin htot rfl hf.empty rfl rfl rfl rfl rfl rfl rfl
      (fun c1 o h => h)
    refine ⟨c1, o, [], hA, hF, hl, ?_⟩
    simp [h0]

theorem ceilDiv_succ (n L : Nat) (hL : 0 < L) :
    ceilDiv (n + 1) L = ceilDiv n L + (if n % L = 0 then 1 else 0) := by
  rw [ceilDiv_eq _ _ hL, ceilDiv_eq _ _ hL]
  rcases div_succ_cases n L hL with ⟨h1, h2, h3⟩ | ⟨h1, h2, h3⟩
  · rw [h2, h3]
    generalize n % L = r at *
    split <;> split <;> omega
  · rw [h2, h3]
    generalize n % L = r at *
    split <;> split <;> omega

theorem Cache.Filled.run_allocs : ∀ (mems : List (Nat → Nat)) (c : Cache) (n : Nat), c.Filled n →
    ∃ c1 rs ev, c.run (mems.map Op.Alloc) = some (c1, rs, ev) ∧ c1.Filled (n + mems.length) ∧
      c1.objLen = c.objLen ∧ rs.length = mems.length ∧ (∀ r ∈ rs, ∃ o, r = Ret.obj (some o)) ∧
      ev.countP Event.isGrower + ceilDiv n c.objLen.toNat =
        ceilDiv (n + mems.length) c.objLen.toNat ∧
      ev.countP Event.isCtor + c.objLen.toNat * ceilDiv n c.objLen.toNat =
        c.objLen.toNat * ceilDiv (n + mems.length) c.objLen.toNat ∧
      ev.countP Event.isReaper = 0 ∧ ev.countP Event.isDtor = 0 := by
  intro mems
  induction mems with
  | nil =>
    intro c n hf
    exact ⟨c, [], [], rfl, hf, rfl, rfl, by simp, by simp, by simp, rfl, rfl⟩
  | cons mem mems ih =>
    intro c n hf
    have hL : 0 < c.objLen.toNat := by have := hf.len.1; omega
    obtain ⟨c1, o, ev, hA, hF, hl, g1, g2, g3, g4⟩ := hf.step mem
    obtain ⟨c2, rs, ev2, hR, hF2, hl2, hlen, hrs, k1, k2, k3, k4⟩ := ih c1 (n + 1) hF
    refine ⟨c2, Ret.obj (some o) :: rs, ev ++ ev2, ?_, ?_, ?_, ?_, ?_, ?_, ?_, ?_, ?_⟩
    · simp only [List.map_cons, Cache.run, Cache.step, hA, Option.map_some', hR]
    · have e : n + (mem :: mems).length = n + 1 + mems.length := by simp; omega
      rw [e]; exact hF2
    · rw [hl2, hl]
    · simp [hlen]
    · intro r hr
      rcases List.mem_cons.mp hr with rfl | hr
      · exact ⟨o, rfl⟩
      · exact hrs r hr
    · have e : n + (mem :: mems).length = n + 1 + mems.length := by simp; omega
      rw [e, List.countP_append, g1]
      rw [hl] at k1
      rw [ceilDiv_succ n _ hL] at k1
      omega
    · have e : n + (mem :: mems).length = n + 1 + mems.length := by simp; omega
      rw [e, List.countP_append, g2]
      rw [hl] at k2
      rw [ceilDiv_succ n _ hL] at k2
      by_cases h0 : n % c.objLen.toNat = 0
      · rw [if_pos h0] at k2 ⊢
        rw [Nat.mul_add, Nat.mul_one] at k2
        omega
      · rw [if_neg h0] at k2 ⊢
        rw [Nat.add_zero] at k2
        omega
    · rw [List.countP_append, g3, k3]
    · rw [List.countP_append, g4, k4]

theorem NewCache_fresh {obj : Option reflectType} {opts : CacheOptions} {c : Cache}
    (h : NewCache obj opts = some c) :
    c.full = [] ∧ c.part = [] ∧ c.empty = [] ∧ c.inuseObjs = 0 ∧ c.allocs = 0 ∧ c.frees = 0 ∧
    1 ≤ c.objType.Size ∧ c.ctor = opts.Constructor ∧ c.dtor = opts.Destructor ∧
    c.grower = opts.Grower.getD DefaultGrower ∧ c.reaper = opts.Reaper.getD DefaultReaper ∧
    c.objLen = (if opts.ObjLen = 0 then 256
      else if opts.ObjLen % 8 ≠ 0 then toI64 (opts.ObjLen + (8 - opts.ObjLen % 8))
      else opts.ObjLen) := by
  unfold NewCache at h
  split at h
  · cases h
  · split at h
    · cases h
    · rename_i hsz
      simp only [Option.some.injEq] at h
      subst h
      exact ⟨rfl, rfl, rfl, rfl, rfl, rfl, Nat.le_of_not_lt hsz, rfl, rfl, rfl, rfl, rfl⟩

theorem NewCache_objLen_mod {obj : Option reflectType} {opts : CacheOptions} {c : Cache}
    (h : NewCache obj opts = some c) : c.objLen % 8 = 0 := by
  have := (NewCache_fresh h).2.2.2.2.2.2.2.2.2.2.2
  rw [this]
  split
  · rfl
  · split
    · unfold toI64
      omega
    · omega

theorem Cache.Filled_new {obj : Option reflectType} {opts : CacheOptions} {c : Cache}
    (h : NewCache obj opts = some c) (hL : 0 < c.objLen) (hg : ∀ st, c.grower st = 1)
    (hc : c.ctor = true) : c.Filled 0 := by
  obtain ⟨h1, h2, h3, h4, h5, h6, h7, _⟩ := NewCache_fresh h
  refine ⟨⟨hL, NewCache_objLen_mod h⟩, h7, hg, hc, h3, ?_, fun _ => h2, ?_, ?_, h5, h6⟩
  · rw [h1]; simp
  · intro h0
    simp at h0
  · rw [h4]; rfl


theorem Cache.Filled.stats {c : Cache} {n : Nat} (hf : c.Filled n) :
    c.ReadStats.TotalSlabs = (ceilDiv n c.objLen.toNat : Nat) ∧
    c.ReadStats.InuseSlabs = (ceilDiv n c.objLen.toNat : Nat) ∧
    c.ReadStats.TotalObjs = c.objLen * (ceilDiv n c.objLen.toNat : Nat) ∧
    c.ReadStats.InuseObjs = (n : Int) ∧ c.ReadStats.Allocs = n ∧ c.ReadStats.Frees = 0 := by
  have hL : 0 < c.objLen.toNat := by have := hf.len.1; omega
  have hslabs : ((c.full.length : Int) + c.part.length + c.empty.length) =
      (ceilDiv n c.objLen.toNat : Nat) ∧
      ((c.full.length : Int) + c.part.length) = (ceilDiv n c.objLen.toNat : Nat) := by
    rw [ceilDiv_eq _ _ hL, hf.empty, hf.full]
    by_cases h0 : n % c.objLen.toNat = 0
    · rw [hf.part0 h0, if_pos h0]
      simp
    · obtain ⟨s, hp, _⟩ := hf.part1 h0
      rw [hp, if_neg h0]
      simp
  unfold Cache.ReadStats
  simp only
  refine ⟨hslabs.1, hslabs.2, ?_, hf.inuseObjs, hf.allocs, hf.frees⟩
  rw [hslabs.1]
  ring
theorem Cache.growLoop_some (mem : Nat → Nat) : ∀ (n i : Nat) (c : Cache), 0 < c.objLen →
    c.objLen % 8 = 0 → ∃ c1 ev, Cache.growLoop mem n i c = some (c1, ev) := by
  intro n
  induction n with
  | zero =>
    intro i c _ _
    exact ⟨c, [], rfl⟩
  | succ n ih =>
    intro i c h1 h2
    obtain ⟨o, evo, ho⟩ := newSlab_some c.objType c.ctor (mem i) h1 h2
    obtain ⟨c1, ev, h⟩ := ih (i + 1) { c with empty := slabs.insert c.empty o } h1 h2
    refine ⟨c1, evo ++ ev, ?_⟩
    unfold Cache.growLoop
    rw [ho]
    simp only
    rw [h]

theorem Cache.refill_grow {c : Cache} (mem : Nat → Nat) (hp : c.part = []) (he : c.empty = [])
    (hg : 1 ≤ c.grower c.ReadStats) (h1 : 0 < c.objLen) (h2 : c.objLen % 8 = 0) :
    ∃ o e ev i evo, c.refill mem = some ({ c with part := [o], empty := e }, ev, true) ∧
      newSlab c.objType c.objLen c.ctor (mem i) = some (o, evo) ∧
      (i : Int) < c.grower c.ReadStats := by
  obtain ⟨cl, evl, hl⟩ := Cache.growLoop_some mem
    (if c.grower c.ReadStats < 0 then 0 else c.grower c.ReadStats).toNat 0 c h1 h2
  have hgrow : ∃ cg num ev, c.grow mem = some (cg, num, ev) := by
    unfold Cache.grow
    simp only
    rw [hl]
    exact ⟨_, _, _, rfl⟩
  obtain ⟨cg0, num0, ev0, hgrow⟩ := hgrow
  rcases Cache.refill_cases c mem with ⟨h3, _⟩ | ⟨_, o2, e2, h3, _⟩ | ⟨_, _, h3, _⟩ |
      ⟨_, _, cg, ev1, h3, _⟩ | ⟨_, _, cg, num, ev1, o2, e2, h3, _, h4, h5⟩
  · exact (h3 hp).elim
  · rw [he] at h3; cases h3
  · rw [hgrow] at h3; cases h3
  · obtain ⟨_, hnum, _⟩ := Cache.grow_spec h3
    split at hnum <;> omega
  · obtain ⟨_, hnum, hcg, news, hnl, hperm, _, hnew, _⟩ := Cache.grow_spec h3
    have hmem : o2 ∈ news := by
      have : o2 ∈ cg.empty := by rw [h4]; exact List.mem_cons_self _ _
      rw [hperm.mem_iff, he, List.append_nil] at this
      exact this
    obtain ⟨k, hk⟩ := List.getElem?_of_mem hmem
    obtain ⟨evo, ho⟩ := hnew k o2 hk
    have hk2 : k < news.length := (List.getElem?_eq_some.mp hk).1
    refine ⟨o2, e2, ev1, k, evo, ?_, ho, ?_⟩
    · rw [h5, hcg]
    · rw [if_neg (by omega)] at hnum
      omega

theorem slab.first_eq {s : slab} (he : s.Exact) {i : Nat} (hi : (i : Int) < s.total)
    (hb : s.bit i = false) (hbelow : ∀ t, t < i → s.bit t = true) : s.first = (i : Int) := by
  have h0 := he.first_nonneg
  rcases lt_trichotomy s.first (i : Int) with h | h | h
  · have h1 := he.free (by omega)
    have h2 := hbelow s.first.toNat (by omega)
    rw [h1] at h2
    cases h2
  · exact h
  · have := he.below i h
    rw [hb] at this
    cases this

theorem slab.inuse_lt_of_bit {s : slab} (he : s.Exact) {i : Nat} (hi : (i : Int) < s.total)
    (hb : s.bit i = false) : s.inuse < s.total := by
  have h1 := he.inuse
  have h2 := countP_range_le (bitAt s.bufctl) s.total.toNat
  by_contra hcon
  have h3 : countBits s.bufctl s.total.toNat = s.total.toNat := by
    unfold countBits at h1 ⊢
    omega
  have := countP_range_full.mp h3 i (by omega)
  unfold slab.bit at hb
  rw [hb] at this
  cases this

/-- Alloc on a cache whose first partial slab is in order and whose lowest free slot is
`i`: the object of slot `i` is handed out. -/
theorem Cache.Alloc_at (c : Cache) (mem : Nat → Nat) {s : slab} {rest : List slab} (i : Nat)
    (hp : c.part = s :: rest) (hw : s.WF) (he : s.Exact) (hi : (i : Int) < s.total)
    (hb : s.bit i = false) (hbelow : ∀ t, t < i → s.bit t = true) :
    ∃ s1, s1.WF ∧ s1.Exact ∧ (∀ k, s1.bit k = (s.bit k || decide (k = i))) ∧
      s1.total = s.total ∧ s1.inuse = s.inuse + 1 ∧
      s1.objsize = s.objsize ∧ s1.smem = s.smem ∧ s1.emem = s.emem ∧
      c.Alloc mem = some (
        (if s1.total = s1.inuse then
          { c with
            full := slabs.insert c.full s1
            part := rest
            inuseObjs := c.inuseObjs + 1
            allocs := c.allocs + 1 }
        else
          { c with
            part := s1 :: rest
            inuseObjs := c.inuseObjs + 1
            allocs := c.allocs + 1 }), some (s.smem + i * s.objsize), []) := by
  have hf := slab.first_eq he hi hb hbelow
  obtain ⟨s1, _, h1, h2, h3, _, h5, h6, h7, h8, h9, hA⟩ :=
    Cache.Alloc_part mem hp hw he (slab.inuse_lt_of_bit he hi hb)
  rw [hf, Int.toNat_ofNat] at h3 hA
  exact ⟨s1, h1, h2, h3, h5, h6, h7, h8, h9, hA⟩

/-- Filling the first partial slab: when its used slots are exactly those below `m`, the
next `total - m` Allocs hand out the objects of slots `m`, `m + 1`, ... in order and move the
slab to the full list. -/
theorem Cache.fill_run : ∀ (mems : List (Nat → Nat)) (d : Nat), mems.length = d + 1 →
    ∀ (c : Cache) (s : slab) (rest : List slab) (m : Nat),
    c.part = s :: rest → s.WF → s.Exact → s.inuse = (m : Int) →
    (∀ k, k < s.total.toNat → s.bit k = decide (k < m)) → m + (d + 1) = s.total.toNat →
    ∃ cN sN ev, c.run (mems.map Op.Alloc) =
        some (cN, (List.range' m (d + 1)).map (fun t => Ret.obj (some (s.smem + t * s.objsize))), ev) ∧
      cN = { c with
             full := slabs.insert c.full sN
             part := rest
             inuseObjs := c.inuseObjs + ((d + 1 : Nat) : Int)
             allocs := c.allocs + (d + 1) } ∧
      sN.WF ∧ sN.Exact ∧ sN.inuse = sN.total ∧ (∀ k, k < sN.total.toNat → sN.bit k = true) ∧
      sN.total = s.total ∧ sN.objsize = s.objsize ∧ sN.smem = s.smem ∧ sN.emem = s.emem := by
  intro mems d
  induction d generalizing mems with
  | zero =>
    intro hlen c s rest m hp hw he hin hbits hm
    obtain ⟨mem, rfl⟩ : ∃ mem, mems = [mem] := by
      match mems, hlen with
      | [mem], _ => exact ⟨mem, rfl⟩
    have hmt : (m : Int) < s.total := by omega
    obtain ⟨s1, h1, h2, h3, h5, h6, h7, h8, h9, hA⟩ := Cache.Alloc_at c mem m hp hw he hmt
      (by rw [hbits m (by omega)]; simp)
      (fun t ht => by rw [hbits t (by omega)]; simp [ht])
    have hfull : s1.total = s1.inuse := by omega
    rw [if_pos hfull] at hA
    refine ⟨_, s1, [], ?_, rfl, h1, h2, hfull.symm, ?_, h5, h7, h8, h9⟩
    · simp only [List.map_cons, List.map_nil, Cache.run, Cache.step, hA, Option.map_some',
        List.range'_one, List.append_nil]
      simp
    · intro k hk
      rw [h3 k, hbits k (by omega)]
      by_cases hkm : k < m
      · simp [hkm]
      · have : k = m := by omega
        simp [this]
  | succ d ih =>
    intro hlen c s rest m hp hw he hin hbits hm
    obtain ⟨mem, mems2, rfl⟩ : ∃ mem mems2, mems = mem :: mems2 := by
      match mems, hlen with
      | mem :: mems2, _ => exact ⟨mem, mems2, rfl⟩
    have hlen2 : mems2.length = d + 1 := by simpa using hlen
    have hmt : (m : Int) < s.total := by omega
    obtain ⟨s1, h1, h2, h3, h5, h6, h7, h8, h9, hA⟩ := Cache.Alloc_at c mem m hp hw he hmt
      (by rw [hbits m (by omega)]; simp)
      (fun t ht => by rw [hbits t (by omega)]; simp [ht])
    have hfull : ¬ s1.total = s1.inuse := by omega
    rw [if_neg hfull] at hA
    have hbits1 : ∀ k, k < s1.total.toNat → s1.bit k = decide (k < m + 1) := by
      intro k hk
      rw [h3 k, hbits k (by omega)]
      by_cases hkm : k < m
      · have : k < m + 1 := by omega
        simp [hkm, this]
      · by_cases hke : k = m
        · simp [hke]
        · have : ¬ k < m + 1 := by omega
          simp [hkm, hke, this]
    obtain ⟨cN, sN, ev, hR, hc, g1, g2, g3, g4, g5, g6, g7, g8⟩ :=
      ih mems2 hlen2
        { c with part := s1 :: rest, inuseObjs := c.inuseObjs + 1, allocs := c.allocs + 1 }
        s1 rest (m + 1) rfl h1 h2 (by rw [h6, hin]; push_cast; ring) hbits1
        (by omega)
    refine ⟨cN, sN, [] ++ ev, ?_, ?_, g1, g2, g3, g4, by omega, by omega, by omega, by omega⟩
    · simp only [List.map_cons, Cache.run, Cache.step, hA, Option.map_some', hR]
      rw [List.range'_succ m (d + 1)]
      simp only [List.map_cons, h7, h8]
    · rw [hc]
      simp only [Cache.mk.injEq, true_and, and_true]
      constructor
      · push_cast; ring
      · omega


/-! ## Free: the path taken when the slab is found -/

theorem slabs.find_nil (a : Nat) : slabs.find [] a = -1 := rfl

theorem slabs.find_singleton {s : slab} {a : Nat} (h : s.smem ≤ a) : slabs.find [s] a = 0 := by
  have hs : slabs.Sorted [s] := by simp [slabs.Sorted]
  have h1 := (slabs.find_sorted hs a 0 s rfl).mp h
  have h2 := (slabs.find_spec [s] a).2.1
  simp only [List.length_singleton] at h2
  omega

theorem Cache.freePart_hit {c : Cache} {a n : Nat} {s s1 : slab}
    (hfind : slabs.find c.part a = (n : Int)) (hget : c.part[n]? = some s)
    (hfree : s.free a = some (s1, true)) (hne : s1.inuse ≠ 0) :
    c.freePart a = some (some (Cache.freed { c with part := c.part.set n s1 } [])) := by
  unfold Cache.freePart
  simp only
  rw [hfind, if_pos (by omega), index_of_getElem? hget]
  simp only
  rw [hfree]
  simp only
  rw [if_neg hne, Int.toNat_ofNat]

theorem Cache.freePart_miss_nil {c : Cache} (a : Nat) (h : c.part = []) :
    c.freePart a = some none := by
  unfold Cache.freePart
  simp only
  rw [h, slabs.find_nil]
  rfl

theorem Cache.freeFull_hit {c : Cache} {a n : Nat} {s s1 : slab}
    (hfind : slabs.find c.full a = (n : Int)) (hget : c.full[n]? = some s)
    (hfree : s.free a = some (s1, true)) (hne : s1.inuse ≠ 0) :
    c.freeFull a = some (some (Cache.freed
      { c with full := c.full.eraseIdx n, part := slabs.insert c.part s1 } [])) := by
  rcases Cache.freeFull_cases c a with ⟨_, h1⟩ | ⟨_, s2, h1, _, h2⟩ | ⟨n2, s2, s3, h1, h2, _, h3, h4⟩
  · have := h1 s (by rw [hfind]; exact index_of_getElem? hget)
    rw [this] at hfree
    simp at hfree
  · rw [hfind, index_of_getElem? hget] at h1
    simp only [Option.some.injEq] at h1
    subst h1
    rw [h2] at hfree
    cases hfree
  · rw [hfind] at h1
    have hn : n2 = n := by omega
    subst hn
    rw [hget] at h2
    simp only [Option.some.injEq] at h2
    subst h2
    rw [hfree] at h3
    simp only [Option.some.injEq, Prod.mk.injEq, and_true] at h3
    subst h3
    rcases h4 with ⟨_, h5⟩ | ⟨h5, _⟩
    · exact h5
    · exact (hne h5).elim

theorem Cache.free_of_part {c : Cache} {a : Nat} {r : Cache × Bool × List Event}
    (h : c.freePart a = some (some r)) : c.free a = some r := by
  rw [Cache.free_eq, h]

theorem Cache.free_of_full {c : Cache} {a : Nat} {r : Cache × Bool × List Event}
    (h1 : c.freePart a = some none) (h : c.freeFull a = some (some r)) : c.free a = some r := by
  rw [Cache.free_eq, h1]
  simp only
  rw [h]


/-! ## Round trip: free three objects of a full slab and allocate three -/

theorem Cache.run_cons {c c1 c2 : Cache} {op : Op} {ops : List Op} {r : Ret} {rs : List Ret}
    {ev ev2 : List Event} (h1 : c.step op = some (c1, r, ev))
    (h2 : c1.run ops = some (c2, rs, ev2)) :
    c.run (op :: ops) = some (c2, r :: rs, ev ++ ev2) := by
  simp only [Cache.run, h1, h2]

theorem Cache.step_Alloc {c c1 : Cache} {mem : Nat → Nat} {o : Option Nat} {ev : List Event}
    (h : c.Alloc mem = some (c1, o, ev)) : c.step (Op.Alloc mem) = some (c1, Ret.obj o, ev) := by
  simp only [Cache.step, h, Option.map_some']

/-- Freeing a used slot of the only full slab (while nothing is partial): the slab becomes
the only partial slab. -/
theorem Cache.free_full_single {c : Cache} {S : slab} (k : Nat) (hp : c.part = [])
    (hf : c.full = [S]) (hw : S.WF) (hi : S.InWord) (he : S.Exact) (hk : k < S.total.toNat)
    (hb : S.bit k = true) (hne : S.inuse ≠ 1) :
    ∃ c1 S1, c.free (S.smem + k * S.objsize) = some (c1, true, []) ∧ c1.part = [S1] ∧
      c1.full = [] ∧ S1.WF ∧ S1.InWord ∧ S1.Exact ∧
      (∀ j, S1.bit j = (S.bit j && decide (j ≠ k))) ∧ S1.total = S.total ∧
      S1.inuse = S.inuse - 1 ∧ S1.objsize = S.objsize ∧ S1.smem = S.smem := by
  obtain ⟨S1, hfree, h1, h2, h3, h4, h5, h6, h7, h8, _⟩ := slab.free_spec hw hi he hk hb
  have hfind : slabs.find c.full (S.smem + k * S.objsize) = ((0 : Nat) : Int) := by
    rw [hf]
    exact slabs.find_singleton (Nat.le_add_right _ _)
  have hget : c.full[0]? = some S := by rw [hf]; rfl
  have hfull := Cache.freeFull_hit hfind hget hfree (by omega)
  have := Cache.free_of_full (Cache.freePart_miss_nil _ hp) hfull
  refine ⟨_, S1, this, ?_, ?_, h1, h2, h3, h4, h5, h6, h7, h8⟩
  · simp only [Cache.freed, hp, slabs.insert_nil]
  · simp only [Cache.freed, hf, List.eraseIdx_cons_zero]

/-- Freeing a used slot of the only partial slab, which stays partial. -/
theorem Cache.free_part_single {c : Cache} {S : slab} (k : Nat)
    (hp : c.part = [S]) (hw : S.WF) (hi : S.InWord) (he : S.Exact) (hk : k < S.total.toNat)
    (hb : S.bit k = true) (hne : S.inuse ≠ 1) :
    ∃ c1 S1, c.free (S.smem + k * S.objsize) = some (c1, true, []) ∧ c1.part = [S1] ∧
      c1.full = c.full ∧ S1.WF ∧ S1.InWord ∧ S1.Exact ∧
      (∀ j, S1.bit j = (S.bit j && decide (j ≠ k))) ∧ S1.total = S.total ∧
      S1.inuse = S.inuse - 1 ∧ S1.objsize = S.objsize ∧ S1.smem = S.smem := by
  obtain ⟨S1, hfree, h1, h2, h3, h4, h5, h6, h7, h8, _⟩ := slab.free_spec hw hi he hk hb
  have hfind : slabs.find c.part (S.smem + k * S.objsize) = ((0 : Nat) : Int) := by
    rw [hp]
    exact slabs.find_singleton (Nat.le_add_right _ _)
  have hget : c.part[0]? = some S := by rw [hp]; rfl
  have hpart := Cache.freePart_hit hfind hget hfree (by omega)
  have := Cache.free_of_part hpart
  refine ⟨_, S1, this, ?_, ?_, h1, h2, h3, h4, h5, h6, h7, h8⟩
  · simp only [Cache.freed, hp, List.set_cons_zero]
  · simp only [Cache.freed]

/-- The round trip on a cache whose only slab in use is full: three of its objects are
freed in any order and the next three Allocs return them by ascending slot. -/
theorem Cache.reuse_three {c : Cache} {S : slab} (hp : c.part = []) (hf : c.full = [S])
    (hw : S.WF) (hi : S.InWord) (he : S.Exact) (hin : S.inuse = S.total)
    (hall : ∀ t, t < S.total.toNat → S.bit t = true)
    {i j k : Nat} (hij : i < j) (hjk : j < k) (hk : k < S.total.toNat)
    {x y z : Nat} (hperm : [x, y, z].Perm [i, j, k]) (m1 m2 m3 : Nat → Nat) :
    ∃ c1 ev, c.run [Op.FreePtr (S.smem + x * S.objsize), Op.FreePtr (S.smem + y * S.objsize),
        Op.FreePtr (S.smem + z * S.objsize), Op.Alloc m1, Op.Alloc m2, Op.Alloc m3] =
      some (c1, [Ret.ok true, Ret.ok true, Ret.ok true, Ret.obj (some (S.smem + i * S.objsize)),
        Ret.obj (some (S.smem + j * S.objsize)), Ret.obj (some (S.smem + k * S.objsize))], ev) := by
  have hmem : ∀ t, (t = x ∨ t = y ∨ t = z) ↔ (t = i ∨ t = j ∨ t = k) := by
    intro t
    have := hperm.mem_iff (a := t)
    simpa using this
  have hnd : x ≠ y ∧ x ≠ z ∧ y ≠ z := by
    have h1 : [i, j, k].Nodup := by
      simp
      omega
    have := hperm.nodup_iff.mpr h1
    simp at this
    tauto
  have hx : x < S.total.toNat := by
    rcases (hmem x).mp (Or.inl rfl) with h | h | h <;> omega
  have hy : y < S.total.toNat := by
    rcases (hmem y).mp (Or.inr (Or.inl rfl)) with h | h | h <;> omega
  have hz : z < S.total.toNat := by
    rcases (hmem z).mp (Or.inr (Or.inr rfl)) with h | h | h <;> omega
  have htot := hw.total
  have hpos := hw.pos
  -- three frees
  obtain ⟨c1, S1, hF1, p1, f1, w1, i1, e1, b1, t1, n1, o1, s1⟩ :=
    Cache.free_full_single x hp hf hw hi he hx (hall x hx) (by omega)
  obtain ⟨c2, S2, hF2, p2, f2, w2, i2, e2, b2, t2, n2, o2, s2⟩ :=
    Cache.free_part_single y p1 w1 i1 e1 (by omega) (by rw [b1, hall y hy]; simp; exact fun h => hnd.1 h.symm)
      (by omega)
  obtain ⟨c3, S3, hF3, p3, f3, w3, i3, e3, b3, t3, n3, o3, s3⟩ :=
    Cache.free_part_single z p2 w2 i2 e2 (by omega)
      (by rw [b2, b1, hall z hz]; simp; exact ⟨fun h => hnd.2.1 h.symm, fun h => hnd.2.2 h.symm⟩)
      (by omega)
  have hb3 : ∀ t, t < S.total.toNat → S3.bit t = decide (t ≠ i ∧ t ≠ j ∧ t ≠ k) := by
    intro t ht
    rw [b3, b2, b1, hall t ht]
    have := hmem t
    by_cases h1 : t = x <;> by_cases h2 : t = y <;> by_cases h3 : t = z <;>
      simp [h1, h2, h3] at this ⊢ <;> omega
  -- three allocs
  obtain ⟨S4, w4, e4, b4, t4, n4, o4, s4, _, hA4⟩ := Cache.Alloc_at c3 m1 i p3 w3 e3 (by omega)
    (by rw [hb3 i (by omega)]; simp)
    (fun t ht => by rw [hb3 t (by omega)]; simp; omega)
  rw [if_neg (by omega)] at hA4
  obtain ⟨S5, w5, e5, b5, t5, n5, o5, s5, _, hA5⟩ := Cache.Alloc_at
    { c3 with part := [S4], inuseObjs := c3.inuseObjs + 1, allocs := c3.allocs + 1 } m2 j
    rfl w4 e4 (by omega)
    (by rw [b4, hb3 j (by omega)]; simp; omega)
    (fun t ht => by rw [b4, hb3 t (by omega)]; simp; omega)
  rw [if_neg (by omega)] at hA5
  obtain ⟨S6, w6, e6, b6, t6, n6, o6, s6, _, hA6⟩ := Cache.Alloc_at
    { c3 with part := [S5], inuseObjs := c3.inuseObjs + 1 + 1, allocs := c3.allocs + 1 + 1 } m3 k
    rfl w5 e5 (by omega)
    (by rw [b5, b4, hb3 k (by omega)]; simp; omega)
    (fun t ht => by rw [b5, b4, hb3 t (by omega)]; simp; omega)
  rw [if_pos (by omega)] at hA6
  rw [s1, o1] at hF2
  rw [s2, s1, o2, o1] at hF3
  rw [s3, s2, s1, o3, o2, o1] at hA4
  rw [s4, s3, s2, s1, o4, o3, o2, o1] at hA5
  rw [s5, s4, s3, s2, s1, o5, o4, o3, o2, o1] at hA6
  have st1 : c.step (Op.FreePtr (S.smem + x * S.objsize)) = some (c1, Ret.ok true, []) := by
    simp only [Cache.step, Cache.FreePtr, hF1, Option.map_some']
  have st2 : c1.step (Op.FreePtr (S.smem + y * S.objsize)) = some (c2, Ret.ok true, []) := by
    simp only [Cache.step, Cache.FreePtr, hF2, Option.map_some']
  have st3 : c2.step (Op.FreePtr (S.smem + z * S.objsize)) = some (c3, Ret.ok true, []) := by
    simp only [Cache.step, Cache.FreePtr, hF3, Option.map_some']
  have st4 := Cache.step_Alloc hA4
  have st5 := Cache.step_Alloc hA5
  have st6 := Cache.step_Alloc hA6
  exact ⟨_, _, Cache.run_cons st1 (Cache.run_cons st2 (Cache.run_cons st3 (Cache.run_cons st4
    (Cache.run_cons st5 (Cache.run_cons st6 rfl)))))⟩

theorem Cache.Alloc_lift {c c1 : Cache} {mem : Nat → Nat} {ev : List Event}
    (h : c.refill mem = some (c1, ev, true)) :
    c.Alloc mem = (c1.Alloc mem).map (fun r => (r.1, r.2.1, ev)) := by
  have hne := Cache.refill_part_ne_nil h
  obtain ⟨s, rest, hsr⟩ := List.exists_cons_of_ne_nil hne
  rw [Cache.Alloc_of_refill h hsr, Cache.Alloc_of_refill (Cache.refill_of_part mem hne) hsr]
  rcases s.alloc with _ | ⟨s1, obj⟩
  · rfl
  · simp only
    split <;> rfl

theorem Cache.roundtrip {obj : Option reflectType} {opts : CacheOptions} {c0 : Cache}
    (hnew : NewCache obj opts = some c0) (hL : 0 < c0.objLen) (hint : c0.objLen < 2 ^ 63)
    (hg : ∀ st, 1 ≤ c0.grower st) (mems : List (Nat → Nat))
    (hlen : mems.length = c0.objLen.toNat)
    (hmem : ∀ mem ∈ mems, ∀ t : Nat, (t : Int) < c0.grower c0.ReadStats →
      mem t + c0.objLen.toNat * c0.objType.Size ≤ 2 ^ 64) :
    ∃ (base : Nat) (cN : Cache) (evN : List Event),
      c0.run (mems.map Op.Alloc) = some (cN, (List.range c0.objLen.toNat).map
        (fun m => Ret.obj (some (base + m * c0.objType.Size))), evN) ∧
      ∀ i j k, i < j → j < k → k < c0.objLen.toNat → ∀ x y z, [x, y, z].Perm [i, j, k] →
        ∀ m1 m2 m3 : Nat → Nat, ∃ c1 ev,
          cN.run [Op.FreePtr (base + x * c0.objType.Size), Op.FreePtr (base + y * c0.objType.Size),
            Op.FreePtr (base + z * c0.objType.Size), Op.Alloc m1, Op.Alloc m2, Op.Alloc m3] =
          some (c1, [Ret.ok true, Ret.ok true, Ret.ok true,
            Ret.obj (some (base + i * c0.objType.Size)), Ret.obj (some (base + j * c0.objType.Size)),
            Ret.obj (some (base + k * c0.objType.Size))], ev) := by
  obtain ⟨f1, f2, f3, _, _, _, f7, _⟩ := NewCache_fresh hnew
  have hmod := NewCache_objLen_mod hnew
  have hN8 : 8 ≤ c0.objLen.toNat := by omega
  obtain ⟨mem, mems2, rfl⟩ : ∃ mem mems2, mems = mem :: mems2 := by
    match mems, hlen with
    | mem :: mems2, _ => exact ⟨mem, mems2, rfl⟩
    | [], h => simp at h; omega
  have hlen2 : mems2.length = (c0.objLen.toNat - 2) + 1 := by
    simp at hlen; omega
  -- the first Alloc grows the cache and takes the lowest new slab
  obtain ⟨o, e, ev, i, evo, hr, hn, hig⟩ := Cache.refill_grow mem f2 f3 (hg _) hL hmod
  obtain ⟨wo, eo, bo⟩ := newSlab_spec hn f7
  obtain ⟨_, _, q3, q4, _, q6, q7, q8, _⟩ := newSlab_eq_some hn
  have hio : o.InWord := by
    refine ⟨?_, by omega⟩
    rw [q8, q6]
    have h1 := hmem mem (List.mem_cons_self _ _) i hig
    have h2 : (c0.objLen.toNat - 1) * c0.objType.Size + c0.objType.Size =
        c0.objLen.toNat * c0.objType.Size := by
      have : c0.objLen.toNat = (c0.objLen.toNat - 1) + 1 := by omega
      conv_rhs => rw [this, Nat.add_mul, Nat.one_mul]
    omega
  obtain ⟨s1, w1, e1, b1, t1, n1, o1, sm1, em1, hA1⟩ := Cache.Alloc_at
    { c0 with part := [o], empty := e } mem 0 rfl wo eo (by omega) (bo 0) (fun t ht => by omega)
  rw [if_neg (by omega)] at hA1
  have hA0 := Cache.Alloc_lift hr
  rw [hA1] at hA0
  simp only [Option.map_some'] at hA0
  -- the remaining Allocs fill that slab
  have hb1 : ∀ k, k < s1.total.toNat → s1.bit k = decide (k < 1) := by
    intro k _
    rw [b1 k, bo k]
    by_cases hk : k = 0
    · simp [hk]
    · have : ¬ k < 1 := by omega
      simp [hk, this]
  obtain ⟨cN, sN, evN, hR, hc, wN, eN, inN, allN, tN, oN, smN, emN⟩ := Cache.fill_run mems2
    (c0.objLen.toNat - 2) hlen2
    { c0 with part := [s1], empty := e, inuseObjs := c0.inuseObjs + 1, allocs := c0.allocs + 1 }
    s1 [] 1 rfl w1 e1 (by omega) hb1 (by omega)
  have hiN : sN.InWord := ⟨by rw [emN, oN, em1, o1]; exact hio.word, by rw [tN, t1]; exact hio.int⟩
  have hpN : cN.part = [] := by rw [hc]
  have hfN : cN.full = [sN] := by rw [hc]; simp only [f1, slabs.insert_nil]
  refine ⟨o.smem, cN, ev ++ evN, ?_, ?_⟩
  · have hrun := Cache.run_cons (Cache.step_Alloc hA0) hR
    rw [List.map_cons, hrun]
    have hrange : List.range c0.objLen.toNat = 0 :: List.range' 1 ((c0.objLen.toNat - 2) + 1) := by
      have : c0.objLen.toNat = ((c0.objLen.toNat - 2) + 1) + 1 := by omega
      conv_lhs => rw [this, List.range_eq_range', List.range'_succ]
    rw [hrange, List.map_cons, sm1, o1, q6]
  · intro i j k hij hjk hk x y z hperm m1 m2 m3
    have := Cache.reuse_three hpN hfN wN hiN eN inN allN hij hjk (by omega) hperm m1 m2 m3
    rw [smN, oN, sm1, o1, q6] at this
    exact this


/-! ## Live objects: the slabs agree with the objects handed out -/

theorem slab.Disjoint.symm {s t : slab} (h : s.Disjoint t) : t.Disjoint s := Or.symm h

theorem slab.WF.addr_le {s : slab} (hw : s.WF) {k : Nat} (hk : k < s.total.toNat) :
    s.smem ≤ s.smem + k * s.objsize ∧ s.smem + k * s.objsize ≤ s.emem := by
  have h1 : k * s.objsize ≤ (s.total.toNat - 1) * s.objsize :=
    Nat.mul_le_mul_right _ (by omega)
  have h2 := hw.emem
  omega

theorem slab.Owns.range {s : slab} (hw : s.WF) {a : Nat} (h : s.Owns a) :
    s.smem ≤ a ∧ a ≤ s.emem := by
  obtain ⟨k, hk, _, rfl⟩ := h
  exact hw.addr_le hk

theorem slab.WF.smem_le_emem {s : slab} (hw : s.WF) : s.smem ≤ s.emem := by
  have := hw.emem
  omega

theorem slab.Exact.bit_of_inuse_zero {s : slab} (he : s.Exact) (h : s.inuse = 0) (k : Nat)
    (hk : k < s.total.toNat) : s.bit k = false := by
  have h1 := he.inuse
  rw [h] at h1
  have h2 : countBits s.bufctl s.total.toNat = 0 := by omega
  unfold countBits at h2
  rw [List.countP_eq_zero] at h2
  have := h2 k (List.mem_range.mpr hk)
  unfold slab.bit
  simpa using this

theorem SlabsOK.perm {l l2 : List slab} {live : List Nat} (h : SlabsOK l live) (hp : l.Perm l2) :
    SlabsOK l2 live := by
  refine ⟨fun s hs => h.good s (hp.mem_iff.mpr hs), ?_, ?_⟩
  · exact (hp.pairwise_iff (fun h => slab.Disjoint.symm h)).mp h.disj
  · intro a
    rw [h.own a]
    constructor
    · rintro ⟨s, hs, ho⟩
      exact ⟨s, hp.mem_iff.mp hs, ho⟩
    · rintro ⟨s, hs, ho⟩
      exact ⟨s, hp.mem_iff.mpr hs, ho⟩

/-- A slab of the collection is determined by an address of its range. -/
theorem SlabsOK.unique {l : List slab} {live : List Nat} (h : SlabsOK l live) {s t : slab}
    (hs : s ∈ l) (ht : t ∈ l) {a : Nat} (h1 : s.smem ≤ a ∧ a ≤ s.emem)
    (h2 : t.smem ≤ a ∧ a ≤ t.emem) : s = t := by
  by_contra hne
  have := h.disj.forall (fun _ _ h => slab.Disjoint.symm h) hs ht hne
  unfold slab.Disjoint at this
  omega

theorem SlabsOK.alloc {s s1 : slab} {rest : List slab} {live : List Nat} {obj : Nat}
    (h : SlabsOK (s :: rest) live) (hlt : s.inuse < s.total) (ha : s.alloc = some (s1, obj)) :
    SlabsOK (s1 :: rest) (obj :: live) ∧ ¬ s.Owns obj := by
  obtain ⟨hw, he, hi⟩ := h.good s (List.mem_cons_self _ _)
  obtain ⟨s2, ha2, w1, e1, b1, hfl, t1, n1, o1, m1, em1⟩ := slab.alloc_spec hw he hlt
  rw [ha] at ha2
  simp only [Option.some.injEq, Prod.mk.injEq] at ha2
  obtain ⟨rfl, rfl⟩ := ha2
  have hd := List.pairwise_cons.mp h.disj
  have hfirst : s.first.toNat < s.total.toNat := by
    have := he.first_nonneg
    omega
  have hfree : s.bit s.first.toNat = false := he.free hfl
  have hsz := hw.objsize
  have hnot : ¬ s.Owns (s.smem + s.first.toNat * s.objsize) := by
    rintro ⟨k, hk, hb, hk2⟩
    have : s.first.toNat = k := by
      have h3 : s.first.toNat * s.objsize = k * s.objsize := by omega
      exact Nat.eq_of_mul_eq_mul_right (by omega) h3
    rw [← this, hfree] at hb
    cases hb
  refine ⟨⟨?_, ?_, ?_⟩, hnot⟩
  · intro x hx
    rcases List.mem_cons.mp hx with rfl | hx
    · exact ⟨w1, e1, ⟨by rw [em1, o1]; exact hi.word, by rw [t1]; exact hi.int⟩⟩
    · exact h.good x (List.mem_cons_of_mem _ hx)
  · rw [List.pairwise_cons]
    refine ⟨?_, hd.2⟩
    intro t ht
    have := hd.1 t ht
    unfold slab.Disjoint at this ⊢
    rw [em1, m1]
    exact this
  · intro a
    rw [List.mem_cons, h.own a]
    constructor
    · rintro (rfl | ⟨t, ht, k, hk, hb, rfl⟩)
      · refine ⟨s1, List.mem_cons_self _ _, s.first.toNat, by rw [t1]; exact hfirst, ?_, ?_⟩
        · rw [b1]; simp
        · rw [m1, o1]
      · rcases List.mem_cons.mp ht with rfl | ht
        · refine ⟨s1, List.mem_cons_self _ _, k, by rw [t1]; exact hk, ?_, ?_⟩
          · rw [b1, hb]; simp
          · rw [m1, o1]
        · exact ⟨t, List.mem_cons_of_mem _ ht, k, hk, hb, rfl⟩
    · rintro ⟨t, ht, k, hk, hb, rfl⟩
      rcases List.mem_cons.mp ht with rfl | ht
      · rw [b1] at hb
        by_cases hkf : k = s.first.toNat
        · left
          rw [hkf, m1, o1]
        · right
          refine ⟨s, List.mem_cons_self _ _, k, by rw [← t1]; exact hk, ?_, by rw [m1, o1]⟩
          simpa [hkf] using hb
      · right
        exact ⟨t, List.mem_cons_of_mem _ ht, k, hk, hb, rfl⟩

/-- The slab that passes the checks of `slab.free` for a live address is its owner, and
the free clears exactly the bit of the object. -/
theorem SlabsOK.free {s s1 : slab} {rest : List slab} {live : List Nat} {a : Nat}
    (h : SlabsOK (s :: rest) live) (hl : a ∈ live) (hle : s.smem ≤ a)
    (hf : s.free a = some (s1, true)) :
    SlabsOK (s1 :: rest) (live.filter (fun b => decide (b ≠ a))) ∧
    ∃ k, k < s.total.toNat ∧ s.bit k = true ∧ a = s.smem + k * s.objsize ∧
      s1.bit k = false ∧ (∀ j, j ≠ k → s1.bit j = s.bit j) ∧ s1.inuse = s.inuse - 1 ∧
      s1.total = s.total := by
  obtain ⟨hw, he, hi⟩ := h.good s (List.mem_cons_self _ _)
  have hem := (slab.free_frame hf).2.2.2.2.2.2.2.1
  obtain ⟨t, ht, hown⟩ := (h.own a).mp hl
  have hts : t = s := by
    have hwt := (h.good t ht).1
    exact (h.unique ht (List.mem_cons_self _ _) (hown.range hwt) ⟨hle, hem⟩)
  subst hts
  obtain ⟨k, hk, hb, rfl⟩ := hown
  obtain ⟨s2, hf2, w1, i1, e1, b1, t1, n1, o1, m1, em1⟩ := slab.free_spec hw hi he hk hb
  rw [hf] at hf2
  simp only [Option.some.injEq, Prod.mk.injEq, and_true] at hf2
  subst hf2
  have hd := List.pairwise_cons.mp h.disj
  have hsz := hw.objsize
  refine ⟨⟨?_, ?_, ?_⟩, k, hk, hb, rfl, by rw [b1]; simp, ?_, n1, t1⟩
  · intro x hx
    rcases List.mem_cons.mp hx with rfl | hx
    · exact ⟨w1, e1, i1⟩
    · exact h.good x (List.mem_cons_of_mem _ hx)
  · rw [List.pairwise_cons]
    refine ⟨?_, hd.2⟩
    intro u hu
    have := hd.1 u hu
    unfold slab.Disjoint at this ⊢
    rw [em1, m1]
    exact this
  · intro b
    rw [List.mem_filter, h.own b]
    constructor
    · rintro ⟨⟨u, hu, j, hj, hbj, rfl⟩, hne⟩
      have hne2 : u.smem + j * u.objsize ≠ t.smem + k * t.objsize := by simpa using hne
      rcases List.mem_cons.mp hu with rfl | hu
      · refine ⟨s1, List.mem_cons_self _ _, j, by rw [t1]; exact hj, ?_, by rw [m1, o1]⟩
        rw [b1, hbj]
        have : j ≠ k := fun e => hne2 (by rw [e])
        simp [this]
      · exact ⟨u, List.mem_cons_of_mem _ hu, j, hj, hbj, rfl⟩
    · rintro ⟨u, hu, j, hj, hbj, rfl⟩
      rcases List.mem_cons.mp hu with rfl | hu
      · rw [b1] at hbj
        have hbj2 : t.bit j = true ∧ j ≠ k := by simpa using hbj
        refine ⟨⟨t, List.mem_cons_self _ _, j, by rw [← t1]; exact hj, hbj2.1, by rw [m1, o1]⟩, ?_⟩
        simp only [ne_eq, decide_not, Bool.not_eq_eq_eq_not, Bool.not_true, decide_eq_false_iff_not]
        rw [m1, o1]
        intro e
        have h3 : j * t.objsize = k * t.objsize := by omega
        exact hbj2.2 (Nat.eq_of_mul_eq_mul_right (by omega) h3)
      · refine ⟨⟨u, List.mem_cons_of_mem _ hu, j, hj, hbj, rfl⟩, ?_⟩
        simp only [ne_eq, decide_not, Bool.not_eq_eq_eq_not, Bool.not_true, decide_eq_false_iff_not]
        intro e
        have hwu := (h.good u (List.mem_cons_of_mem _ hu)).1
        have r1 := hwu.addr_le hj
        have r2 := hw.addr_le hk
        have := hd.1 u hu
        unfold slab.Disjoint at this
        omega
  · intro j hj
    rw [b1]
    simp [hj]

theorem SlabsOK.drop {l d : List slab} {live : List Nat} (h : SlabsOK (l ++ d) live)
    (hd : ∀ x ∈ d, x.inuse = 0) : SlabsOK l live := by
  refine ⟨fun s hs => h.good s (List.mem_append_left _ hs), (List.pairwise_append.mp h.disj).1, ?_⟩
  intro a
  rw [h.own a]
  constructor
  · rintro ⟨s, hs, k, hk, hb, rfl⟩
    rcases List.mem_append.mp hs with h1 | h1
    · exact ⟨s, h1, k, hk, hb, rfl⟩
    · have he := (h.good s hs).2.1
      rw [he.bit_of_inuse_zero (hd s h1) k hk] at hb
      cases hb
  · rintro ⟨s, hs, ho⟩
    exact ⟨s, List.mem_append_left _ hs, ho⟩

theorem SlabsOK.grow {l news : List slab} {live : List Nat} (h : SlabsOK l live)
    (hg : ∀ x ∈ news, (x.WF ∧ x.Exact ∧ x.InWord) ∧ ∀ k, x.bit k = false)
    (hp : news.Pairwise slab.Disjoint) (hx : ∀ x ∈ news, ∀ y ∈ l, x.Disjoint y) :
    SlabsOK (news ++ l) live := by
  refine ⟨?_, List.pairwise_append.mpr ⟨hp, h.disj, hx⟩, ?_⟩
  · intro s hs
    rcases List.mem_append.mp hs with h1 | h1
    · exact (hg s h1).1
    · exact h.good s h1
  · intro a
    rw [h.own a]
    constructor
    · rintro ⟨s, hs, ho⟩
      exact ⟨s, List.mem_append_right _ hs, ho⟩
    · rintro ⟨s, hs, k, hk, hb, rfl⟩
      rcases List.mem_append.mp hs with h1 | h1
      · rw [(hg s h1).2 k] at hb
        cases hb
      · exact ⟨s, h1, k, hk, hb, rfl⟩

theorem perm3_left {α : Type} {a : α} {l1 r1 : List α} (l2 l3 : List α) (h : l1.Perm (a :: r1)) :
    (l1 ++ l2 ++ l3).Perm (a :: (r1 ++ l2 ++ l3)) := by
  have := (h.append_right l2).append_right l3
  simpa using this

theorem perm3_mid {α : Type} {a : α} {l2 r2 : List α} (l1 l3 : List α) (h : l2.Perm (a :: r2)) :
    (l1 ++ l2 ++ l3).Perm (a :: (l1 ++ r2 ++ l3)) := by
  have h1 : (l1 ++ l2).Perm (a :: (l1 ++ r2)) :=
    ((List.Perm.append_left l1 h).trans List.perm_middle)
  have := h1.append_right l3
  simpa using this

theorem perm3_right {α : Type} {a : α} {l3 r3 : List α} (l1 l2 : List α) (h : l3.Perm (a :: r3)) :
    (l1 ++ l2 ++ l3).Perm (a :: (l1 ++ l2 ++ r3)) :=
  (List.Perm.append_left (l1 ++ l2) h).trans List.perm_middle

/-- What a successful Alloc does to the collection of slabs: one slab `s` of the partial or
empty list (of the cache `cX` after growing, if it grows) is replaced by the result of
`s.alloc`. -/
theorem Cache.Alloc_perm {c c1 : Cache} {mem : Nat → Nat} {obj : Nat} {ev : List Event}
    (h : c.Alloc mem = some (c1, some obj, ev)) :
    ∃ cX, (cX = c ∨ (c.part = [] ∧ c.empty = [] ∧ ∃ num evg, c.grow mem = some (cX, num, evg))) ∧
      ∃ s s1 R, s.alloc = some (s1, obj) ∧ cX.slabs.Perm (s :: R) ∧ c1.slabs.Perm (s1 :: R) ∧
        (s ∈ cX.part ∨ s ∈ cX.empty) ∧ c1.objLen = cX.objLen := by
  have take : ∀ (cy : Cache) (evy : List Event) (s : slab) (rest : List slab),
      c.refill mem = some (cy, evy, true) → cy.part = s :: rest →
      ∃ s1, s.alloc = some (s1, obj) ∧ c1.slabs.Perm (s1 :: (cy.full ++ rest ++ cy.empty)) ∧
        c1.objLen = cy.objLen := by
    intro cy evy s rest hr hp
    rw [Cache.Alloc_of_refill hr hp] at h
    rcases ha : s.alloc with _ | ⟨s1, o⟩
    · rw [ha] at h; cases h
    · rw [ha] at h
      simp only at h
      split at h <;>
      · simp only [Option.some.injEq, Prod.mk.injEq] at h
        obtain ⟨rfl, rfl, _⟩ := h
        refine ⟨s1, rfl, ?_, rfl⟩
        first
        | exact perm3_left _ _ (slabs.insert_perm _ _)
        | exact perm3_mid _ _ (List.Perm.refl _)
  rcases Cache.refill_cases c mem with ⟨hp, h1⟩ | ⟨hp, o, e, he, h1⟩ | ⟨_, _, _, h1⟩ |
      ⟨_, _, cg, ev1, hg, h1⟩ | ⟨hp, he0, cg, num, ev1, o, e, hg, _, he, h1⟩
  · obtain ⟨s, rest, hsr⟩ := List.exists_cons_of_ne_nil hp
    obtain ⟨s1, ha, hperm, hl⟩ := take c [] s rest h1 hsr
    refine ⟨c, Or.inl rfl, s, s1, c.full ++ rest ++ c.empty, ha, ?_, hperm, ?_, hl⟩
    · unfold Cache.slabs
      rw [hsr]
      exact perm3_mid _ _ (List.Perm.refl _)
    · left; rw [hsr]; exact List.mem_cons_self _ _
  · obtain ⟨s1, ha, hperm, hl⟩ := take _ [] o [] h1 rfl
    refine ⟨c, Or.inl rfl, o, s1, c.full ++ [] ++ e, ha, ?_, hperm, ?_, hl⟩
    · unfold Cache.slabs
      rw [hp, he]
      exact perm3_right _ _ (List.Perm.refl _)
    · right; rw [he]; exact List.mem_cons_self _ _
  · rw [Cache.Alloc_of_refill_none h1] at h
    cases h
  · rw [Cache.Alloc_of_refill_false h1] at h
    simp at h
  · obtain ⟨s1, ha, hperm, hl⟩ := take _ ev1 o [] h1 rfl
    have hcg := (Cache.grow_spec hg).2.2.1
    have hpg : cg.part = [] := by rw [hcg]; exact hp
    refine ⟨cg, Or.inr ⟨hp, he0, num, ev1, hg⟩, o, s1, cg.full ++ [] ++ e, ha, ?_, hperm, ?_, hl⟩
    · unfold Cache.slabs
      rw [hpg, he]
      exact perm3_right _ _ (List.Perm.refl _)
    · right; rw [he]; exact List.mem_cons_self _ _

/-- The slabs of a cache after `reap`, together with the slabs it destroyed, are the slabs
before. -/
theorem Cache.reap_perm {c c1 : Cache} {num : Int} {ev : List Event}
    (h : c.reap = some (c1, num, ev)) :
    ∃ d, c.slabs = c1.slabs ++ d ∧ (∀ x ∈ d, x ∈ c.empty) ∧ c1.objLen = c.objLen ∧
      c1.inuseObjs = c.inuseObjs ∧ c1.frees = c.frees ∧ c1.allocs = c.allocs := by
  obtain ⟨k, num1, _, hr, _⟩ := Cache.reap_spec c
  rw [hr] at h
  simp only [Option.some.injEq, Prod.mk.injEq] at h
  obtain ⟨rfl, _, _⟩ := h
  refine ⟨c.empty.drop (c.empty.length - k), ?_, fun x hx => List.mem_of_mem_drop hx,
    rfl, rfl, rfl, rfl⟩
  unfold Cache.slabs
  simp only [List.append_assoc, List.take_append_drop]

/-- What a successful free does to the collection of slabs: one slab `s` of the partial or
full list is replaced by the result of `s.free`, and `reap` may then destroy slabs `d` of
the empty list. -/
theorem Cache.free_perm {c c1 : Cache} {a : Nat} {ev : List Event}
    (h : c.free a = some (c1, true, ev)) :
    ∃ s s1 R d, s.smem ≤ a ∧ s.free a = some (s1, true) ∧ (s ∈ c.part ∨ s ∈ c.full) ∧
      c.slabs.Perm (s :: R) ∧ (s1 :: R).Perm (c1.slabs ++ d) ∧
      (d = [] ∨ s1.inuse = 0) ∧ (∀ x ∈ d, x = s1 ∨ x ∈ c.empty) ∧
      c1.inuseObjs = c.inuseObjs - 1 ∧ c1.frees = c.frees + 1 ∧ c1.allocs = c.allocs ∧
      c1.objLen = c.objLen := by
  rw [Cache.free_eq] at h
  rcases Cache.freePart_cases c a with ⟨h1, _⟩ | ⟨h1, _⟩ | ⟨n, s, s1, _, hget, hle, hf, hcase⟩
  · rw [h1] at h
    simp only at h
    rcases Cache.freeFull_cases c a with ⟨h2, _⟩ | ⟨h2, _⟩ | ⟨n, s, s1, _, hget, hle, hf, hcase⟩
    · rw [h2] at h
      simp at h
    · rw [h2] at h; cases h
    · have hmem : s ∈ c.full := mem_of_getElem?_eq hget
      rcases hcase with ⟨hne, h3⟩ | ⟨hz, c2, num, ev2, hr, h3⟩
      · rw [h3] at h
        simp only [Cache.freed, Option.some.injEq, Prod.mk.injEq, true_and] at h
        obtain ⟨rfl, _⟩ := h
        refine ⟨s, s1, c.full.eraseIdx n ++ c.part ++ c.empty, [], hle, hf, Or.inr hmem,
          perm3_left _ _ (eraseIdx_perm hget), ?_, Or.inl rfl, (fun x hx => by simp at hx),
          rfl, rfl, rfl, rfl⟩
        rw [List.append_nil]
        exact (perm3_mid _ _ (slabs.insert_perm _ _)).symm
      · rw [h3] at h
        simp only [Cache.freed, Option.some.injEq, Prod.mk.injEq, true_and] at h
        obtain ⟨rfl, _⟩ := h
        obtain ⟨d, hd1, hd2, q1, q2, q3, q4⟩ := Cache.reap_perm hr
        refine ⟨s, s1, c.full.eraseIdx n ++ c.part ++ c.empty, d, hle, hf, Or.inr hmem,
          perm3_left _ _ (eraseIdx_perm hget), ?_, Or.inr hz, ?_, ?_, ?_, ?_, ?_⟩
        · have : (c2.slabs ++ d) = c.full.eraseIdx n ++ c.part ++ slabs.insert c.empty s1 := by
            rw [← hd1]; rfl
          show (s1 :: (c.full.eraseIdx n ++ c.part ++ c.empty)).Perm (c2.slabs ++ d)
          rw [this]
          exact (perm3_right _ _ (slabs.insert_perm _ _)).symm
        · intro x hx
          exact slabs.mem_insert.mp (hd2 x hx)
        · simp only [q2]
        · simp only [q3]
        · simp only [q4]
        · simp only [q1]
  · rw [h1] at h; cases h
  · have hmem : s ∈ c.part := mem_of_getElem?_eq hget
    rcases hcase with ⟨hne, h3⟩ | ⟨hz, c2, num, ev2, hr, h3⟩
    · rw [h3] at h
      simp only [Cache.freed, Option.some.injEq, Prod.mk.injEq, true_and] at h
      obtain ⟨rfl, _⟩ := h
      refine ⟨s, s1, c.full ++ c.part.eraseIdx n ++ c.empty, [], hle, hf, Or.inl hmem,
        perm3_mid _ _ (eraseIdx_perm hget), ?_, Or.inl rfl, (fun x hx => by simp at hx),
        rfl, rfl, rfl, rfl⟩
      rw [List.append_nil]
      exact (perm3_mid _ _ (set_perm hget s1)).symm
    · rw [h3] at h
      simp only [Cache.freed, Option.some.injEq, Prod.mk.injEq, true_and] at h
      obtain ⟨rfl, _⟩ := h
      obtain ⟨d, hd1, hd2, q1, q2, q3, q4⟩ := Cache.reap_perm hr
      refine ⟨s, s1, c.full ++ c.part.eraseIdx n ++ c.empty, d, hle, hf, Or.inl hmem,
        perm3_mid _ _ (eraseIdx_perm hget), ?_, Or.inr hz, ?_, ?_, ?_, ?_, ?_⟩
      · have : (c2.slabs ++ d) = c.full ++ c.part.eraseIdx n ++ slabs.insert c.empty s1 := by
          rw [← hd1]; rfl
        show (s1 :: (c.full ++ c.part.eraseIdx n ++ c.empty)).Perm (c2.slabs ++ d)
        rw [this]
        exact (perm3_right _ _ (slabs.insert_perm _ _)).symm
      · intro x hx
        exact slabs.mem_insert.mp (hd2 x hx)
      · simp only [q2]
      · simp only [q3]
      · simp only [q4]
      · simp only [q1]

theorem Cache.LInv_grow {c cg : Cache} {live : List Nat} {mem : Nat → Nat} {num : Int}
    {ev : List Event} (hi : c.LInv live) (hfr : c.Fresh mem) (hp : c.part = [])
    (he : c.empty = []) (h : c.grow mem = some (cg, num, ev)) : cg.LInv live := by
  obtain ⟨_, hnum, hcg, news, hl, hperm, _, hnew, _⟩ := Cache.grow_spec h
  have hfresh := hfr hp he
  have hidx : ∀ k, k < news.length → (k : Int) < c.grower c.ReadStats := by
    intro k hk
    split at hnum <;> omega
  have hspec : ∀ k x, news[k]? = some x → (x.WF ∧ x.Exact ∧ x.InWord) ∧ (∀ j, x.bit j = false) ∧
      x.smem = mem k ∧ x.emem = mem k + (c.objLen.toNat - 1) * c.objType.Size := by
    intro k x hk
    obtain ⟨evo, ho⟩ := hnew k x hk
    obtain ⟨w, e, b⟩ := newSlab_spec ho hi.inv.size
    obtain ⟨q1, _, q3, _, _, q6, q7, q8, _⟩ := newSlab_eq_some ho
    have hklt := (List.getElem?_eq_some.mp hk).1
    have hw := (hfresh k (hidx k hklt)).1
    refine ⟨⟨w, e, ⟨?_, by rw [q3]; exact hi.int⟩⟩, b, q7, q8⟩
    rw [q8, q6]
    have h2 : (c.objLen.toNat - 1) * c.objType.Size + c.objType.Size =
        c.objLen.toNat * c.objType.Size := by
      have : c.objLen.toNat = (c.objLen.toNat - 1) + 1 := by omega
      conv_rhs => rw [this, Nat.add_mul, Nat.one_mul]
    omega
  have hslabs : (news ++ c.slabs).Perm cg.slabs := by
    have e1 : cg.slabs = c.full ++ c.part ++ cg.empty := by
      unfold Cache.slabs
      rw [hcg]
    rw [e1]
    unfold Cache.slabs
    have h1 : (c.full ++ c.part ++ cg.empty).Perm (c.full ++ c.part ++ (news ++ c.empty)) :=
      List.Perm.append_left _ hperm
    refine List.Perm.trans ?_ h1.symm
    rw [hp, he]
    simp only [List.append_nil]
    exact List.perm_append_comm
  refine ⟨Cache.Inv_grow hi.inv h, SlabsOK.perm (SlabsOK.grow hi.ok ?_ ?_ ?_) hslabs, ?_⟩
  · intro x hx
    obtain ⟨k, hk⟩ := List.getElem?_of_mem hx
    exact ⟨(hspec k x hk).1, (hspec k x hk).2.1⟩
  · rw [List.pairwise_iff_getElem]
    intro i j hi2 hj hij
    obtain ⟨_, _, si, ei⟩ := hspec i _ (List.getElem?_eq_getElem hi2)
    obtain ⟨_, _, sj, ej⟩ := hspec j _ (List.getElem?_eq_getElem hj)
    have := (hfresh j (hidx j hj)).2.2 i hij
    unfold slab.Disjoint
    rw [si, ei, sj, ej]
    exact this
  · intro x hx y hy
    obtain ⟨k, hk⟩ := List.getElem?_of_mem hx
    obtain ⟨_, _, sx, ex⟩ := hspec k x hk
    have hklt := (List.getElem?_eq_some.mp hk).1
    have := (hfresh k (hidx k hklt)).2.1 y hy
    unfold slab.Disjoint
    rw [sx, ex]
    exact this
  · rw [hcg]
    exact hi.int

theorem Cache.LInv_Alloc {c c1 : Cache} {live : List Nat} {mem : Nat → Nat} {r : Option Nat}
    {ev : List Event} (hi : c.LInv live) (hfr : c.Fresh mem)
    (h : c.Alloc mem = some (c1, r, ev)) : c1.LInv (r.toList ++ live) := by
  cases r with
  | none =>
    have := ((Cache.Alloc_nil_iff c mem).2 c1 ev h).1
    rw [this]
    exact hi
  | some obj =>
    obtain ⟨cX, hcX, s, s1, R, ha, hp1, hp2, hmem, hl⟩ := Cache.Alloc_perm h
    have hiX : cX.LInv live := by
      rcases hcX with rfl | ⟨hp, he, num, evg, hg⟩
      · exact hi
      · exact Cache.LInv_grow hi hfr hp he hg
    have hlt : s.inuse < s.total := by
      rcases hmem with hm | hm
      · exact (hiX.inv.part s hm).2
      · have h1 := hiX.inv.empty s hm
        have h2 := hiX.inv.total s (Cache.mem_slabs.mpr (Or.inr (Or.inr hm)))
        omega
    have hok := ((hiX.ok.perm hp1).alloc hlt ha).1
    exact ⟨Cache.Inv_Alloc hi.inv h, hok.perm hp2.symm, by rw [hl]; exact hiX.int⟩

theorem Cache.LInv_free {c c1 : Cache} {live : List Nat} {a : Nat} {ev : List Event}
    (hi : c.LInv live) (hl : a ∈ live) (h : c.free a = some (c1, true, ev)) :
    c1.LInv (live.filter (fun x => decide (x ≠ a))) := by
  obtain ⟨s, s1, R, d, hle, hf, _, hp1, hp2, hd1, hd2, _, _, _, q4⟩ := Cache.free_perm h
  have hok := ((hi.ok.perm hp1).free hl hle hf).1
  have hdz : ∀ x ∈ d, x.inuse = 0 := by
    intro x hx
    rcases hd1 with rfl | hz
    · simp at hx
    · rcases hd2 x hx with rfl | hx2
      · exact hz
      · exact hi.inv.empty x hx2
  exact ⟨Cache.Inv_free hi.inv h, (hok.perm hp2).drop hdz, by rw [q4]; exact hi.int⟩

theorem slab.free_beyond {s : slab} {a : Nat} (h : s.emem < a) : s.free a = some (s, false) := by
  unfold slab.free
  rw [if_pos h]

/-- A live object is owned by a slab of the partial or the full list, which frees it. -/
theorem Cache.LInv.owner {c : Cache} {live : List Nat} (hi : c.LInv live) {a : Nat}
    (hl : a ∈ live) :
    ∃ S, (S ∈ c.part ∨ S ∈ c.full) ∧ S ∈ c.slabs ∧ S.smem ≤ a ∧ a ≤ S.emem ∧
      ∃ S1, S.free a = some (S1, true) := by
  obtain ⟨S, hS, k, hk, hb, rfl⟩ := (hi.ok.own a).mp hl
  obtain ⟨hw, he, hiw⟩ := hi.ok.good S hS
  obtain ⟨S1, hf, _⟩ := slab.free_spec hw hiw he hk hb
  have hr := hw.addr_le hk
  refine ⟨S, ?_, hS, hr.1, hr.2, S1, hf⟩
  rcases Cache.mem_slabs.mp hS with h1 | h1 | h1
  · exact Or.inr h1
  · exact Or.inl h1
  · have := he.bit_of_inuse_zero (hi.inv.empty S h1) k hk
    rw [this] at hb
    cases hb

/-- The slab that `find` returns for an address of the owner `S` is `S` itself or is left
by `slab.free` untouched. -/
theorem Cache.LInv.found {c : Cache} {live : List Nat} (hi : c.LInv live) {a : Nat} {S P : slab}
    (hS : S ∈ c.slabs) (hr : S.smem ≤ a ∧ a ≤ S.emem) (hP : P ∈ c.slabs) (hPa : P.smem ≤ a) :
    P = S ∨ (P.free a = some (P, false) ∧ P.emem < S.smem) := by
  by_cases hPS : P = S
  · exact Or.inl hPS
  · right
    have := hi.ok.disj.forall (fun _ _ h => slab.Disjoint.symm h) hP hS hPS
    unfold slab.Disjoint at this
    have h1 : P.emem < S.smem := by omega
    exact ⟨slab.free_beyond (by omega), h1⟩

/-- When the owner is in the sorted list `l`, `find` returns it. -/
theorem Cache.LInv.find_owner {c : Cache} {live : List Nat} (hi : c.LInv live) {a : Nat}
    {S : slab} {l : List slab} (hl : ∀ x ∈ l, x ∈ c.slabs) (hs : slabs.Sorted l) (hS : S ∈ l)
    (hr : S.smem ≤ a ∧ a ≤ S.emem) : index l (slabs.find l a) = some S := by
  obtain ⟨n, hn⟩ := List.getElem?_of_mem hS
  have h1 := (slabs.find_sorted hs a n S hn).mp hr.1
  obtain ⟨P, hP, hPa⟩ := slabs.find_index l a (by omega)
  have hPm : P ∈ l := mem_of_getElem?_eq (index_eq_some hP).2.2
  rcases hi.found (hl S hS) hr (hl P hPm) hPa with h2 | ⟨_, h2⟩
  · rw [hP, h2]
  · exfalso
    have h3 := pairwise_getElem? hs hn (index_eq_some hP).2.2 (by
      have := (index_eq_some hP).1
      omega)
    have h4 := (hi.ok.good P (hl P hPm)).1.smem_le_emem
    omega

theorem Cache.free_live {c : Cache} {live : List Nat} (hi : c.LInv live) {a : Nat}
    (hl : a ∈ live) : ∃ c1 ev, c.free a = some (c1, true, ev) := by
  obtain ⟨S, hSl, hS, hr1, hr2, S1, hSf⟩ := hi.owner hl
  have hpart : ∀ x ∈ c.part, x ∈ c.slabs := fun x hx => Cache.mem_slabs.mpr (Or.inr (Or.inl hx))
  have hfull : ∀ x ∈ c.full, x ∈ c.slabs := fun x hx => Cache.mem_slabs.mpr (Or.inl hx)
  have hnone : ∀ P, P ∈ c.slabs → P.smem ≤ a → P.free a ≠ none := by
    intro P hP hPa hn
    rcases hi.found hS ⟨hr1, hr2⟩ hP hPa with h2 | ⟨h2, _⟩
    · rw [h2, hSf] at hn
      cases hn
    · rw [h2] at hn
      cases hn
  rw [Cache.free_eq]
  rcases Cache.freePart_cases c a with ⟨h1, h1f⟩ | ⟨_, s, hs, hle, hf⟩ | ⟨n, s, s1, _, _, _, _, hcase⟩
  · rw [h1]
    simp only
    have hSfull : S ∈ c.full := by
      rcases hSl with h | h
      · have := hi.find_owner hpart hi.inv.sorted.2.1 h ⟨hr1, hr2⟩
        have := h1f S this
        rw [hSf] at this
        simp at this
      · exact h
    rcases Cache.freeFull_cases c a with ⟨_, h2f⟩ | ⟨_, s, hs, hle, hf⟩ |
        ⟨n, s, s1, _, _, _, _, hcase⟩
    · have := hi.find_owner hfull hi.inv.sorted.1 hSfull ⟨hr1, hr2⟩
      have := h2f S this
      rw [hSf] at this
      simp at this
    · exact (hnone s (hfull s (mem_of_getElem?_eq (index_eq_some hs).2.2)) hle hf).elim
    · rcases hcase with ⟨_, h3⟩ | ⟨_, c2, num, ev2, _, h3⟩
      · rw [h3]
        exact ⟨_, _, rfl⟩
      · rw [h3]
        exact ⟨_, _, rfl⟩
  · exact (hnone s (hpart s (mem_of_getElem?_eq (index_eq_some hs).2.2)) hle hf).elim
  · rcases hcase with ⟨_, h3⟩ | ⟨_, c2, num, ev2, _, h3⟩
    · rw [h3]
      exact ⟨_, _, rfl⟩
    · rw [h3]
      exact ⟨_, _, rfl⟩

theorem NewCache_int {obj : Option reflectType} {opts : CacheOptions} {c : Cache}
    (h : NewCache obj opts = some c) (h2 : opts.ObjLen < 2 ^ 63) :
    c.objLen < 2 ^ 63 := by
  have := (NewCache_fresh h).2.2.2.2.2.2.2.2.2.2.2
  rw [this]
  split
  · norm_num
  · split
    · unfold toI64
      omega
    · exact h2

theorem LiveReachable.linv {c : Cache} {live : List Nat} (h : LiveReachable c live) :
    c.LInv live := by
  induction h with
  | new obj opts c hnew _ h2 =>
    obtain ⟨f1, f2, f3, _⟩ := NewCache_fresh hnew
    refine ⟨Cache.Inv_new hnew, ?_, NewCache_int hnew h2⟩
    have : c.slabs = [] := by
      unfold Cache.slabs
      rw [f1, f2, f3]
      rfl
    rw [this]
    exact ⟨fun s hs => by simp at hs, List.Pairwise.nil, fun a => by simp⟩
  | alloc c live mem c1 r ev _ hfr ha ih => exact Cache.LInv_Alloc ih hfr ha
  | free c live a c1 b ev _ hl hf ih =>
    obtain ⟨c2, ev2, h2⟩ := Cache.free_live ih hl
    rw [hf] at h2
    simp only [Option.some.injEq, Prod.mk.injEq] at h2
    obtain ⟨_, rfl, _⟩ := h2
    exact Cache.LInv_free ih hl hf

/-- Freeing a live object: the call returns true, the counters move by one, and the bit of
the object is cleared in its slab while the other bits stay. -/
theorem Cache.free_live_spec {c : Cache} {live : List Nat} (hi : c.LInv live) {a : Nat}
    (hl : a ∈ live) :
    ∃ c1 ev, c.free a = some (c1, true, ev) ∧
      c1.ReadStats.InuseObjs = c.ReadStats.InuseObjs - 1 ∧
      c1.ReadStats.Frees = c.ReadStats.Frees + 1 ∧ c1.ReadStats.Allocs = c.ReadStats.Allocs ∧
      ∃ s, (s ∈ c.part ∨ s ∈ c.full) ∧ ∃ k, k < s.total.toNat ∧ a = s.smem + k * s.objsize ∧
        s.bit k = true ∧ ∃ s1, s.free a = some (s1, true) ∧ s1.bit k = false ∧
          (∀ j, j ≠ k → s1.bit j = s.bit j) ∧ ∀ t ∈ c1.slabs, t = s1 ∨ t ∈ c.slabs := by
  obtain ⟨c1, ev, h⟩ := Cache.free_live hi hl
  obtain ⟨s, s1, R, d, hle, hf, hmem, hp1, hp2, _, _, q1, q2, q3, _⟩ := Cache.free_perm h
  obtain ⟨_, k, hk, hb, ha, hb1, hb2, _⟩ := (hi.ok.perm hp1).free hl hle hf
  refine ⟨c1, ev, h, q1, q2, q3, s, hmem, k, hk, ha, hb, s1, hf, hb1, hb2, ?_⟩
  intro t ht
  have h1 : t ∈ s1 :: R := hp2.mem_iff.mpr (List.mem_append_left _ ht)
  rcases List.mem_cons.mp h1 with h2 | h2
  · exact Or.inl h2
  · exact Or.inr (hp1.mem_iff.mpr (List.mem_cons_of_mem _ h2))

theorem demoCache_fresh : demoCache.Fresh demoMem := by
  intro _ _ i hi
  have h1 : demoCache.grower demoCache.ReadStats = 1 := rfl
  have hi0 : i = 0 := by omega
  subst hi0
  refine ⟨by decide, ?_, ?_⟩
  · intro s hs
    simp [Cache.slabs, demoCache] at hs
  · intro j hj
    omega

theorem demoCache_live :
    LiveReachable (demoCache.after [Op.Alloc demoMem, Op.Alloc demoMem]) [4112, 4096] := by
  have h0 : LiveReachable demoCache [] :=
    LiveReachable.new (some { Size := 16 })
      { ObjLen := 8, Grower := none, Reaper := none, Constructor := true, Destructor := true }
      demoCache rfl (by decide) (by decide)
  have h1 : LiveReachable (demoCache.after [Op.Alloc demoMem]) [4096] :=
    LiveReachable.alloc demoCache [] demoMem _ (some 4096) _ h0 demoCache_fresh rfl
  have hf : (demoCache.after [Op.Alloc demoMem]).Fresh demoMem := by
    intro hp
    exact absurd hp (by decide)
  exact LiveReachable.alloc _ [4096] demoMem _ (some 4112) _ h1 hf rfl


/-! ## Callbacks of Alloc, the fixed fields and the shape of slabs -/

theorem Cache.totalSlabs_eq (c : Cache) :
    c.ReadStats.TotalSlabs = ((c.full.length + c.part.length + c.empty.length : Nat) : Int) := by
  simp [Cache.ReadStats]

theorem Cache.Alloc_from {c c1 : Cache} {mem : Nat → Nat} {ev : List Event} {s : slab}
    {rest : List slab} (h : c.refill mem = some (c1, ev, true)) (hp : c1.part = s :: rest) :
    (s.alloc = none → c.Alloc mem = none) ∧
    ∀ s1 obj, s.alloc = some (s1, obj) →
      ∃ c2, c.Alloc mem = some (c2, some obj, ev) ∧ c2.empty = c1.empty ∧
        c2.ReadStats.TotalSlabs = c1.ReadStats.TotalSlabs ∧
        ((c2.part = s1 :: rest ∧ c2.full = c1.full) ∨
          (c2.part = rest ∧ c2.full = slabs.insert c1.full s1)) := by
  rw [Cache.Alloc_of_refill h hp]
  constructor
  · intro hn
    rw [hn]
  · intro s1 obj ha
    rw [ha]
    simp only
    split
    · refine ⟨_, rfl, rfl, ?_, Or.inr ⟨rfl, rfl⟩⟩
      rw [Cache.totalSlabs_eq, Cache.totalSlabs_eq]
      simp only [slabs.length_insert, hp, List.length_cons]
      omega
    · refine ⟨_, rfl, rfl, ?_, Or.inl ⟨rfl, rfl⟩⟩
      rw [Cache.totalSlabs_eq, Cache.totalSlabs_eq]
      simp only [hp, List.length_cons]

theorem countP_isGrower_ctorEvents (ctor : Bool) (news : List slab) :
    (news.flatMap (ctorEvents ctor)).countP Event.isGrower = 0 := by
  rw [List.countP_eq_zero]
  intro e he
  rw [List.mem_flatMap] at he
  obtain ⟨o, _, ho⟩ := he
  unfold ctorEvents at ho
  split at ho
  · rw [List.mem_map] at ho
    obtain ⟨a, _, rfl⟩ := ho
    simp [Event.isGrower]
  · cases ho

/-- The callbacks of an Alloc that returns: none unless the cache has neither a partial nor
an empty slab; then the grower, followed by the constructor calls of the new slabs. -/
theorem Cache.Alloc_events {c c1 : Cache} {mem : Nat → Nat} {r : Option Nat} {ev : List Event}
    (h : c.Alloc mem = some (c1, r, ev)) :
    (¬ (c.part = [] ∧ c.empty = []) ∧ ev = [] ∧
      c1.ReadStats.TotalSlabs = c.ReadStats.TotalSlabs) ∨
    (c.part = [] ∧ c.empty = [] ∧ ∃ news : List slab,
      (news.length : Int) = (if c.grower c.ReadStats < 0 then 0 else c.grower c.ReadStats) ∧
      (∀ k o, news[k]? = some o →
        ∃ evo, newSlab c.objType c.objLen c.ctor (mem k) = some (o, evo)) ∧
      ev = Event.grower c.ReadStats :: news.flatMap (ctorEvents c.ctor) ∧
      c1.ReadStats.TotalSlabs = c.ReadStats.TotalSlabs + news.length) := by
  rcases Cache.refill_cases c mem with ⟨hp, hr⟩ | ⟨hp, o, e, he, hr⟩ | ⟨_, _, _, hr⟩ |
    ⟨hp, he, cg, evg, hg, hr⟩ | ⟨hp, he, cg, num, evg, o, e, hg, hnum, hcg, hr⟩
  · left
    obtain ⟨s, rest, hsr⟩ := List.exists_cons_of_ne_nil hp
    obtain ⟨h1, h2⟩ := Cache.Alloc_from hr hsr
    rcases ha : s.alloc with _ | ⟨s1, obj⟩
    · rw [h1 ha] at h
      cases h
    · obtain ⟨c2, hA, _, ht, _⟩ := h2 s1 obj ha
      rw [hA] at h
      simp only [Option.some.injEq, Prod.mk.injEq] at h
      obtain ⟨rfl, _, rfl⟩ := h
      exact ⟨fun hh => hp hh.1, rfl, ht⟩
  · left
    obtain ⟨h1, h2⟩ := Cache.Alloc_from hr (Eq.refl [o])
    rcases ha : o.alloc with _ | ⟨s1, obj⟩
    · rw [h1 ha] at h
      cases h
    · obtain ⟨c2, hA, _, ht, _⟩ := h2 s1 obj ha
      rw [hA] at h
      simp only [Option.some.injEq, Prod.mk.injEq] at h
      obtain ⟨rfl, _, rfl⟩ := h
      refine ⟨fun hh => ?_, rfl, ?_⟩
      · rw [hh.2] at he
        cases he
      · rw [ht, Cache.totalSlabs_eq, Cache.totalSlabs_eq]
        simp only [he, hp, List.length_cons, List.length_nil]
        omega
  · rw [Cache.Alloc_of_refill_none hr] at h
    cases h
  · right
    rw [Cache.Alloc_of_refill_false hr] at h
    simp only [Option.some.injEq, Prod.mk.injEq] at h
    obtain ⟨rfl, _, rfl⟩ := h
    obtain ⟨_, hn, hc, news, hl, hperm, _, hnew, hev⟩ := Cache.grow_spec hg
    refine ⟨hp, he, news, ?_, hnew, hev, ?_⟩
    · rw [hl]
      exact hn
    · rw [Cache.totalSlabs_eq, Cache.totalSlabs_eq, hc]
      simp only
      rw [hperm.length_eq]
      simp only [List.length_append]
      push_cast
      omega
  · right
    obtain ⟨_, hn, hc, news, hl, hperm, _, hnew, hev⟩ := Cache.grow_spec hg
    obtain ⟨h1, h2⟩ := Cache.Alloc_from hr (Eq.refl [o])
    rcases ha : o.alloc with _ | ⟨s1, obj⟩
    · rw [h1 ha] at h
      cases h
    · obtain ⟨c2, hA, _, ht, _⟩ := h2 s1 obj ha
      rw [hA] at h
      simp only [Option.some.injEq, Prod.mk.injEq] at h
      obtain ⟨rfl, _, rfl⟩ := h
      refine ⟨hp, he, news, ?_, hnew, hev, ?_⟩
      · rw [hl]
        exact hn
      · rw [ht, Cache.totalSlabs_eq, Cache.totalSlabs_eq]
        have hlen := hperm.length_eq
        rw [hcg] at hlen
        have hf : cg.full = c.full := by rw [hc]
        simp only [hf, hp, he, List.length_cons, List.length_nil, List.length_append] at hlen ⊢
        push_cast
        omega


theorem Cache.SameConfig.rfl (c : Cache) : c.SameConfig c := ⟨Eq.refl _, Eq.refl _, Eq.refl _, Eq.refl _, Eq.refl _, Eq.refl _⟩

theorem Cache.SameConfig.trans {a b c : Cache} (h1 : a.SameConfig b) (h2 : b.SameConfig c) :
    a.SameConfig c := by
  obtain ⟨a1, a2, a3, a4, a5, a6⟩ := h1
  obtain ⟨b1, b2, b3, b4, b5, b6⟩ := h2
  exact ⟨b1.trans a1, b2.trans a2, b3.trans a3, b4.trans a4, b5.trans a5, b6.trans a6⟩

theorem Cache.grow_config {c cg : Cache} {mem : Nat → Nat} {num : Int} {ev : List Event}
    (h : c.grow mem = some (cg, num, ev)) : c.SameConfig cg := by
  obtain ⟨_, _, hc, _⟩ := Cache.grow_spec h
  rw [hc]
  exact Cache.SameConfig.rfl c

theorem Cache.reap_config {c c1 : Cache} {num : Int} {ev : List Event}
    (h : c.reap = some (c1, num, ev)) : c.SameConfig c1 := by
  obtain ⟨k, n, _, hr, _⟩ := Cache.reap_spec c
  rw [hr] at h
  simp only [Option.some.injEq, Prod.mk.injEq] at h
  rw [← h.1]
  exact Cache.SameConfig.rfl c

theorem Cache.Alloc_config {c c1 : Cache} {mem : Nat → Nat} {r : Option Nat} {ev : List Event}
    (h : c.Alloc mem = some (c1, r, ev)) : c.SameConfig c1 := by
  have key : ∀ (cr : Cache) (evr : List Event) (s : slab) (rest : List slab),
      c.refill mem = some (cr, evr, true) → cr.part = s :: rest → c.SameConfig cr →
      c.SameConfig c1 := by
    intro cr evr s rest hr hp hcfg
    rw [Cache.Alloc_of_refill hr hp] at h
    rcases ha : s.alloc with _ | ⟨s1, obj⟩
    · rw [ha] at h
      cases h
    · rw [ha] at h
      simp only at h
      split at h <;>
      · simp only [Option.some.injEq, Prod.mk.injEq] at h
        rw [← h.1]
        exact hcfg
  rcases Cache.refill_cases c mem with ⟨hp, hr⟩ | ⟨hp, o, e, he, hr⟩ | ⟨_, _, _, hr⟩ |
    ⟨hp, he, cg, evg, hg, hr⟩ | ⟨hp, he, cg, num, evg, o, e, hg, hnum, hcg, hr⟩
  · obtain ⟨s, rest, hsr⟩ := List.exists_cons_of_ne_nil hp
    exact key _ _ s rest hr hsr (Cache.SameConfig.rfl c)
  · exact key _ _ o [] hr (Eq.refl _) (Cache.SameConfig.rfl c)
  · rw [Cache.Alloc_of_refill_none hr] at h
    cases h
  · rw [Cache.Alloc_of_refill_false hr] at h
    simp only [Option.some.injEq, Prod.mk.injEq] at h
    rw [← h.1]
    exact Cache.grow_config hg
  · have hcfg : c.SameConfig cg := Cache.grow_config hg
    exact key _ _ o [] hr (Eq.refl _) hcfg

theorem Cache.freed_config {c2 c1 : Cache} {ev e : List Event} {b : Bool}
    (h : c2.freed ev = (c1, b, e)) : c2.SameConfig c1 := by
  simp only [Cache.freed, Prod.mk.injEq] at h
  rw [← h.1]
  exact Cache.SameConfig.rfl c2

theorem Cache.free_config {c c1 : Cache} {a : Nat} {b : Bool} {ev : List Event}
    (h : c.free a = some (c1, b, ev)) : c.SameConfig c1 := by
  rw [Cache.free_eq] at h
  rcases Cache.freePart_cases c a with ⟨hp, _⟩ | ⟨hp, _⟩ |
    ⟨n, s, s1, _, _, _, _, ⟨_, hp⟩ | ⟨_, c2, num, ev2, hreap, hp⟩⟩
  · rw [hp] at h
    simp only at h
    rcases Cache.freeFull_cases c a with ⟨hf, _⟩ | ⟨hf, _⟩ |
      ⟨n, s, s1, _, _, _, _, ⟨_, hf⟩ | ⟨_, c2, num, ev2, hreap, hf⟩⟩
    · rw [hf] at h
      simp only [Option.some.injEq, Prod.mk.injEq] at h
      rw [← h.1]
      exact Cache.SameConfig.rfl c
    · rw [hf] at h
      cases h
    · rw [hf] at h
      simp only [Option.some.injEq] at h
      have h2 := Cache.freed_config h
      exact h2
    · rw [hf] at h
      simp only [Option.some.injEq] at h
      have h1 := Cache.reap_config hreap
      have h2 := h1.trans (Cache.freed_config h)
      exact h2
  · rw [hp] at h
    cases h
  · rw [hp] at h
    simp only [Option.some.injEq] at h
    have h2 := Cache.freed_config h
    exact h2
  · rw [hp] at h
    simp only [Option.some.injEq] at h
    have h1 := Cache.reap_config hreap
    have h2 := h1.trans (Cache.freed_config h)
    exact h2

theorem Cache.step_config {c c1 : Cache} {op : Op} {r : Ret} {ev : List Event}
    (h : c.step op = some (c1, r, ev)) : c.SameConfig c1 := by
  cases op with
  | Alloc mem =>
    simp only [Cache.step, Option.map_eq_some'] at h
    obtain ⟨⟨c2, o, e2⟩, hA, hx⟩ := h
    simp only [Prod.mk.injEq] at hx
    rw [← hx.1]
    exact Cache.Alloc_config hA
  | Free objp =>
    simp only [Cache.step, Option.map_eq_some'] at h
    obtain ⟨⟨c2, o, e2⟩, hA, hx⟩ := h
    simp only [Prod.mk.injEq] at hx
    rw [← hx.1]
    cases objp with
    | none =>
      simp only [Cache.Free, Option.some.injEq, Prod.mk.injEq] at hA
      rw [← hA.1]
      exact Cache.SameConfig.rfl c
    | some a => exact Cache.free_config hA
  | FreePtr a =>
    simp only [Cache.step, Option.map_eq_some'] at h
    obtain ⟨⟨c2, o, e2⟩, hA, hx⟩ := h
    simp only [Prod.mk.injEq] at hx
    rw [← hx.1]
    exact Cache.free_config hA
  | Destroy =>
    simp only [Cache.step, Option.map_eq_some'] at h
    obtain ⟨⟨c2, e2⟩, hA, hx⟩ := h
    simp only [Prod.mk.injEq] at hx
    rw [← hx.1]
    rw [Cache.Destroy_spec] at hA
    simp only [Option.some.injEq, Prod.mk.injEq] at hA
    rw [← hA.1]
    exact Cache.SameConfig.rfl c

theorem Cache.run_config : ∀ (ops : List Op) (c c1 : Cache) (rs : List Ret) (ev : List Event),
    c.run ops = some (c1, rs, ev) → c.SameConfig c1 := by
  intro ops
  induction ops with
  | nil =>
    intro c c1 rs ev h
    simp only [Cache.run, Option.some.injEq, Prod.mk.injEq] at h
    rw [← h.1]
    exact Cache.SameConfig.rfl c
  | cons op ops ih =>
    intro c c1 rs ev h
    simp only [Cache.run] at h
    rcases hs : c.step op with _ | ⟨c2, r, e2⟩
    · rw [hs] at h
      cases h
    · rw [hs] at h
      simp only at h
      rcases hr : c2.run ops with _ | ⟨c3, rs3, e3⟩
      · rw [hr] at h
        cases h
      · rw [hr] at h
        simp only [Option.some.injEq, Prod.mk.injEq] at h
        rw [← h.1]
        exact (Cache.step_config hs).trans (ih _ _ _ _ hr)


theorem slab.Shaped.alloc_keeps {L : Int} {s s1 : slab} {obj : Nat} (h : s.Shaped L)
    (ha : s.alloc = some (s1, obj)) : s1.Shaped L := by
  obtain ⟨h1, _, h3, h4, _, h6, _⟩ := slab.alloc_frame ha
  exact ⟨h1.trans h.1, by rw [h6, h4, h3]; exact h.2⟩

theorem slab.Shaped.free_keeps {L : Int} {s s1 : slab} {a : Nat} (h : s.Shaped L)
    (ha : s.free a = some (s1, true)) : s1.Shaped L := by
  obtain ⟨h1, _, h3, h4, _, h6, _⟩ := slab.free_frame ha
  exact ⟨h1.trans h.1, by rw [h6, h4, h3]; exact h.2⟩

theorem newSlab_shaped {t : reflectType} {size : Int} {ctor : Bool} {base : Nat} {o : slab}
    {ev : List Event} (h : newSlab t size ctor base = some (o, ev)) : o.Shaped size := by
  obtain ⟨_, _, h3, _, _, h6, h7, _, _, h10, _⟩ := newSlab_eq_some h
  exact ⟨h3, by rw [h10, h7, h6]⟩

theorem Cache.Shaped_grow {c cg : Cache} {mem : Nat → Nat} {num : Int} {ev : List Event}
    (hs : ∀ s ∈ c.slabs, s.Shaped c.objLen) (h : c.grow mem = some (cg, num, ev)) :
    ∀ s ∈ cg.slabs, s.Shaped cg.objLen := by
  obtain ⟨_, _, hc, news, _, hperm, _, hnew, _⟩ := Cache.grow_spec h
  have hL : cg.objLen = c.objLen := by rw [hc]
  have hf : cg.full = c.full := by rw [hc]
  have hp : cg.part = c.part := by rw [hc]
  intro s hs1
  rw [hL]
  rw [Cache.mem_slabs, hf, hp] at hs1
  rcases hs1 with h1 | h1 | h1
  · exact hs s (Cache.mem_slabs.mpr (Or.inl h1))
  · exact hs s (Cache.mem_slabs.mpr (Or.inr (Or.inl h1)))
  · have h2 := hperm.mem_iff.mp h1
    rcases List.mem_append.mp h2 with h3 | h3
    · obtain ⟨k, hk⟩ := List.getElem?_of_mem h3
      obtain ⟨evo, hn⟩ := hnew k s hk
      exact newSlab_shaped hn
    · exact hs s (Cache.mem_slabs.mpr (Or.inr (Or.inr h3)))

theorem Cache.Shaped_step {c c1 : Cache} {op : Op} {r : Ret} {ev : List Event}
    (hs : ∀ s ∈ c.slabs, s.Shaped c.objLen) (h : c.step op = some (c1, r, ev)) :
    ∀ s ∈ c1.slabs, s.Shaped c1.objLen := by
  have hfree : ∀ (a : Nat) (b : Bool) (e : List Event), c.free a = some (c1, b, e) →
      ∀ s ∈ c1.slabs, s.Shaped c1.objLen := by
    intro a b e hf
    cases b with
    | false =>
      obtain ⟨rfl, _⟩ := Cache.free_false_unchanged hf
      exact hs
    | true =>
      obtain ⟨s, s1, R, d, _, hsf, _, hp1, hp2, _, _, _, _, _, hL⟩ := Cache.free_perm hf
      intro t ht
      rw [hL]
      have ht2 : t ∈ s1 :: R := hp2.mem_iff.mpr (List.mem_append_left _ ht)
      rcases List.mem_cons.mp ht2 with rfl | ht3
      · exact (hs s (hp1.mem_iff.mpr (List.mem_cons_self _ _))).free_keeps hsf
      · exact hs t (hp1.mem_iff.mpr (List.mem_cons_of_mem _ ht3))
  cases op with
  | Alloc mem =>
    simp only [Cache.step, Option.map_eq_some'] at h
    obtain ⟨⟨c2, o, e2⟩, hA, hx⟩ := h
    simp only [Prod.mk.injEq] at hx
    obtain ⟨rfl, _, _⟩ := hx
    cases o with
    | none =>
      obtain ⟨rfl, _⟩ := (Cache.Alloc_nil_iff c mem).2 _ _ hA
      exact hs
    | some obj =>
      obtain ⟨cX, hX, s, s1, R, hsa, hp1, hp2, _, hL⟩ := Cache.Alloc_perm hA
      have hsX : ∀ s ∈ cX.slabs, s.Shaped cX.objLen := by
        rcases hX with rfl | ⟨_, _, num, evg, hg⟩
        · exact hs
        · exact Cache.Shaped_grow hs hg
      intro t ht
      rw [hL]
      have ht2 : t ∈ s1 :: R := hp2.mem_iff.mp ht
      rcases List.mem_cons.mp ht2 with rfl | ht3
      · exact (hsX s (hp1.mem_iff.mpr (List.mem_cons_self _ _))).alloc_keeps hsa
      · exact hsX t (hp1.mem_iff.mpr (List.mem_cons_of_mem _ ht3))
  | Free objp =>
    simp only [Cache.step, Option.map_eq_some'] at h
    obtain ⟨⟨c2, o, e2⟩, hA, hx⟩ := h
    simp only [Prod.mk.injEq] at hx
    obtain ⟨rfl, _, _⟩ := hx
    cases objp with
    | none =>
      simp only [Cache.Free, Option.some.injEq, Prod.mk.injEq] at hA
      obtain ⟨rfl, _, _⟩ := hA
      exact hs
    | some a => exact hfree a _ _ hA
  | FreePtr a =>
    simp only [Cache.step, Option.map_eq_some'] at h
    obtain ⟨⟨c2, o, e2⟩, hA, hx⟩ := h
    simp only [Prod.mk.injEq] at hx
    obtain ⟨rfl, _, _⟩ := hx
    exact hfree a _ _ hA
  | Destroy =>
    simp only [Cache.step, Option.map_eq_some'] at h
    obtain ⟨⟨c2, e2⟩, hA, hx⟩ := h
    simp only [Prod.mk.injEq] at hx
    obtain ⟨rfl, _, _⟩ := hx
    rw [Cache.Destroy_spec] at hA
    simp only [Option.some.injEq, Prod.mk.injEq] at hA
    rw [← hA.1]
    intro s hs1
    simp [Cache.slabs] at hs1

theorem Reachable.shaped {c : Cache} (h : Reachable c) : ∀ s ∈ c.slabs, s.Shaped c.objLen := by
  induction h with
  | new obj opts c hn =>
    obtain ⟨h1, h2, h3, _⟩ := NewCache_fresh hn
    intro s hs
    simp [Cache.slabs, h1, h2, h3] at hs
  | step c op c1 r ev _ hstep ih => exact Cache.Shaped_step ih hstep


theorem Cache.reap_one {c : Cache} (hr : c.reaper c.ReadStats = 1) (hne : c.empty ≠ []) :
    ∃ o front, c.empty = front ++ [o] ∧
      c.reap = some ({ c with empty := front }, 1, Event.reaper c.ReadStats :: o.destroy c.dtor) := by
  obtain ⟨k, num, _, hreap, hnum, hk⟩ := Cache.reap_spec c
  have hlen : 0 < c.empty.length := List.length_pos.mpr hne
  have hnum1 : num = 1 := by
    rw [hnum, hr]
    split <;> omega
  have hk1 : k = 1 := by rw [hk, hnum1]; rfl
  subst hk1
  subst hnum1
  obtain ⟨front, o, hfo⟩ := (List.eq_nil_or_concat c.empty).resolve_left hne
  rw [List.concat_eq_append] at hfo
  refine ⟨o, front, hfo, ?_⟩
  rw [hreap]
  have h1 : c.empty.take (c.empty.length - 1) = front := by
    rw [hfo]
    simp
  have h2 : c.empty.drop (c.empty.length - 1) = [o] := by
    rw [hfo]
    simp
  rw [h1, h2]
  simp


/-! ## Free under a reaper that returns 1 -/

theorem perm_reaped {F E front : List slab} {o s1 : slab}
    (h : (front ++ [o]).Perm (s1 :: E)) : (s1 :: (F ++ E)).Perm (o :: (F ++ front)) := by
  have h1 : (s1 :: (F ++ E)).Perm (F ++ s1 :: E) := List.perm_middle.symm
  have h2 : (F ++ s1 :: E).Perm (F ++ (front ++ [o])) := List.Perm.append_left F h.symm
  have h3 : (F ++ (front ++ [o])).Perm (F ++ (o :: front)) :=
    List.Perm.append_left F (List.perm_append_comm)
  exact (h1.trans (h2.trans h3)).trans List.perm_middle

/-- The part of a Free that empties a slab, under a reaper that returns 1: the slab `s1` has
been put into the empty list and the highest empty slab `o` is destroyed. -/
theorem Cache.reap_after_free (c2 : Cache) (s1 : slab) (E : List slab) {c3 : Cache} {num : Int}
    {ev : List Event} (hr : ∀ st, c2.reaper st = 1) (he : c2.empty = slabs.insert E s1)
    (h : c2.reap = some (c3, num, ev)) :
    ∃ o front, (front ++ [o]).Perm (s1 :: E) ∧ c3 = { c2 with empty := front } ∧
      ev = Event.reaper c2.ReadStats :: o.destroy c2.dtor := by
  have hne : c2.empty ≠ [] := by
    intro h0
    have := slabs.length_insert E s1
    rw [← he, h0] at this
    simp at this
  obtain ⟨o, front, hfo, hreap⟩ := Cache.reap_one (hr _) hne
  rw [hreap] at h
  simp only [Option.some.injEq, Prod.mk.injEq] at h
  obtain ⟨rfl, _, rfl⟩ := h
  refine ⟨o, front, ?_, rfl, rfl⟩
  rw [← hfo, he]
  exact slabs.insert_perm E s1

/-- A successful Free under a reaper that returns 1: the slab `s` that held the object
becomes `s1`; if `s1` is not empty no callback is made, otherwise exactly one empty slab `o`
leaves the cache, after one call of the reaper. -/
theorem Cache.free_reap_spec {c c1 : Cache} {a : Nat} {ev : List Event}
    (hr : ∀ st, c.reaper st = 1) (h : c.free a = some (c1, true, ev)) :
    ∃ s s1 R, (s ∈ c.part ∨ s ∈ c.full) ∧ s.free a = some (s1, true) ∧ c.slabs.Perm (s :: R) ∧
      (s1.inuse ≠ 0 → ev = [] ∧ c1.slabs.Perm (s1 :: R)) ∧
      (s1.inuse = 0 → ∃ o st, (o = s1 ∨ o ∈ c.empty) ∧ (s1 :: R).Perm (o :: c1.slabs) ∧
        ev = Event.reaper st :: o.destroy c.dtor) := by
  rw [Cache.free_eq] at h
  rcases Cache.freePart_cases c a with ⟨h1, _⟩ | ⟨h1, _⟩ | ⟨n, s, s1, _, hget, hle, hf, hcase⟩
  · rw [h1] at h
    simp only at h
    rcases Cache.freeFull_cases c a with ⟨h2, _⟩ | ⟨h2, _⟩ | ⟨n, s, s1, _, hget, hle, hf, hcase⟩
    · rw [h2] at h
      simp at h
    · rw [h2] at h; cases h
    · have hmem : s ∈ c.full := mem_of_getElem?_eq hget
      rcases hcase with ⟨hne, h3⟩ | ⟨hz, c2, num, ev2, hreap, h3⟩
      · rw [h3] at h
        simp only [Cache.freed, Option.some.injEq, Prod.mk.injEq, true_and] at h
        obtain ⟨rfl, rfl⟩ := h
        refine ⟨s, s1, c.full.eraseIdx n ++ c.part ++ c.empty, Or.inr hmem, hf,
          perm3_left _ _ (eraseIdx_perm hget), fun _ => ⟨rfl, ?_⟩, fun hz => absurd hz hne⟩
        exact perm3_mid _ _ (slabs.insert_perm _ _)
      · rw [h3] at h
        simp only [Cache.freed, Option.some.injEq, Prod.mk.injEq, true_and] at h
        obtain ⟨rfl, rfl⟩ := h
        obtain ⟨o, front, hperm, hc3, hev⟩ := Cache.reap_after_free
          { c with full := c.full.eraseIdx n, empty := slabs.insert c.empty s1 } s1 c.empty
          (fun st => hr st) rfl hreap
        refine ⟨s, s1, c.full.eraseIdx n ++ c.part ++ c.empty, Or.inr hmem, hf,
          perm3_left _ _ (eraseIdx_perm hget), fun hne => absurd hz hne, fun _ => ?_⟩
        refine ⟨o, _, ?_, ?_, hev⟩
        · have := hperm.mem_iff.mp (List.mem_append_right front (List.mem_singleton_self o))
          exact List.mem_cons.mp this
        · rw [hc3]
          exact perm_reaped hperm
  · rw [h1] at h; cases h
  · have hmem : s ∈ c.part := mem_of_getElem?_eq hget
    rcases hcase with ⟨hne, h3⟩ | ⟨hz, c2, num, ev2, hreap, h3⟩
    · rw [h3] at h
      simp only [Cache.freed, Option.some.injEq, Prod.mk.injEq, true_and] at h
      obtain ⟨rfl, rfl⟩ := h
      refine ⟨s, s1, c.full ++ c.part.eraseIdx n ++ c.empty, Or.inl hmem, hf,
        perm3_mid _ _ (eraseIdx_perm hget), fun _ => ⟨rfl, ?_⟩, fun hz => absurd hz hne⟩
      exact perm3_mid _ _ (set_perm hget s1)
    · rw [h3] at h
      simp only [Cache.freed, Option.some.injEq, Prod.mk.injEq, true_and] at h
      obtain ⟨rfl, rfl⟩ := h
      obtain ⟨o, front, hperm, hc3, hev⟩ := Cache.reap_after_free
        { c with part := c.part.eraseIdx n, empty := slabs.insert c.empty s1 } s1 c.empty
        (fun st => hr st) rfl hreap
      refine ⟨s, s1, c.full ++ c.part.eraseIdx n ++ c.empty, Or.inl hmem, hf,
        perm3_mid _ _ (eraseIdx_perm hget), fun hne => absurd hz hne, fun _ => ?_⟩
      refine ⟨o, _, ?_, ?_, hev⟩
      · have := hperm.mem_iff.mp (List.mem_append_right front (List.mem_singleton_self o))
        exact List.mem_cons.mp this
      · rw [hc3]
        exact perm_reaped hperm

theorem Cache.totalSlabs_slabs (c : Cache) : c.ReadStats.TotalSlabs = (c.slabs.length : Int) := by
  rw [Cache.totalSlabs_eq]
  simp only [Cache.slabs, List.length_append]

theorem reapCache_reachable : Reachable reapCache :=
  Reachable.new (some { Size := 16 })
    { ObjLen := 8, Grower := none, Reaper := some unitReaper, Constructor := true,
      Destructor := true } reapCache rfl

/-! ## Destroy, the default grower and NewCache -/

theorem Cache.eq_of_fresh {c0 c1 : Cache} (hcfg : c0.SameConfig c1)
    (h0 : c0.full = [] ∧ c0.part = [] ∧ c0.empty = [] ∧ c0.inuseObjs = 0 ∧ c0.allocs = 0 ∧
      c0.frees = 0)
    (h1 : c1.full = [] ∧ c1.part = [] ∧ c1.empty = [] ∧ c1.inuseObjs = 0 ∧ c1.allocs = 0 ∧
      c1.frees = 0) : c1 = c0 := by
  obtain ⟨a1, a2, a3, a4, a5, a6⟩ := hcfg
  obtain ⟨b1, b2, b3, b4, b5, b6⟩ := h0
  obtain ⟨d1, d2, d3, d4, d5, d6⟩ := h1
  cases c0
  cases c1
  simp only at a1 a2 a3 a4 a5 a6 b1 b2 b3 b4 b5 b6 d1 d2 d3 d4 d5 d6
  simp only [Cache.mk.injEq]
  exact ⟨d1.trans b1.symm, d2.trans b2.symm, d3.trans b3.symm, a1, a2, d4.trans b4.symm,
    d5.trans b5.symm, d6.trans b6.symm, a3, a4, a5, a6⟩

theorem flatMap_destroy_shaped {L : Int} {sz : Nat} (l : List slab)
    (h : ∀ s ∈ l, s.Shaped L ∧ s.objsize = sz) :
    l.flatMap (fun o => o.destroy true) =
      l.flatMap (fun s => (List.range L.toNat).map (fun i => Event.dtor (s.smem + i * sz))) := by
  induction l with
  | nil => rfl
  | cons x xs ih =>
    rw [List.flatMap_cons, List.flatMap_cons, ih (fun s hs => h s (List.mem_cons_of_mem _ hs))]
    obtain ⟨⟨_, hch⟩, hsz⟩ := h x (List.mem_cons_self _ _)
    simp only [slab.destroy, if_true]
    rw [hch, hsz, List.map_map]
    rfl

theorem DefaultGrower_nonneg (s : CacheStats) (h : 0 ≤ s.TotalSlabs) : 0 ≤ DefaultGrower s := by
  unfold DefaultGrower
  split
  · omega
  · split <;> omega

theorem NewCache_some (t : reflectType) (ht : 1 ≤ t.Size) (opts : CacheOptions) :
    ∃ c, NewCache (some t) opts = some c := by
  unfold NewCache
  simp only
  rw [if_neg (by omega)]
  exact ⟨_, rfl⟩

/-! ## Live states, the slab on its own and the sorted list -/

theorem LiveReachable.objLen_mod {c : Cache} {live : List Nat} (h : LiveReachable c live) :
    c.objLen % 8 = 0 := by
  induction h with
  | new obj opts c hn _ _ => exact NewCache_objLen_mod hn
  | alloc c live mem c1 r ev _ _ hA ih =>
    rw [(Cache.Alloc_config hA).2.1]
    exact ih
  | free c live a c1 b ev _ _ hf ih =>
    rw [(Cache.free_config hf).2.1]
    exact ih

/-- In a cache that satisfies the invariant of live states, Alloc does not panic. -/
theorem Cache.LInv.Alloc_total {c : Cache} {live : List Nat} (hi : c.LInv live)
    (h8 : c.objLen % 8 = 0) (hL : 0 < c.objLen) (mem : Nat → Nat) :
    ∃ c1 r ev, c.Alloc mem = some (c1, r, ev) := by
  have key : ∀ (cr : Cache) (evr : List Event) (s : slab) (rest : List slab),
      c.refill mem = some (cr, evr, true) → cr.part = s :: rest → s.WF → s.Exact →
      s.inuse < s.total → ∃ c1 r ev, c.Alloc mem = some (c1, r, ev) := by
    intro cr evr s rest hr hp hw he hlt
    obtain ⟨s1, ha, _⟩ := slab.alloc_spec hw he hlt
    obtain ⟨_, h2⟩ := Cache.Alloc_from hr hp
    obtain ⟨c2, hA, _⟩ := h2 s1 _ ha
    exact ⟨c2, _, _, hA⟩
  by_cases hp : c.part = []
  · rcases hemp : c.empty with _ | ⟨o, e⟩
    · by_cases hg : c.grower c.ReadStats ≤ 0
      · have hgz : c.grow mem = some (c, 0, [Event.grower c.ReadStats]) := Cache.grow_zero hg
        rcases Cache.refill_cases c mem with ⟨hp1, _⟩ | ⟨_, o, e, he1, _⟩ | ⟨_, _, hgn, _⟩ |
          ⟨_, _, cg, evg, _, hr⟩ | ⟨_, _, cg, num, evg, o, e, hg2, hnum, _, _⟩
        · exact absurd hp hp1
        · rw [hemp] at he1; cases he1
        · rw [hgz] at hgn; cases hgn
        · exact ⟨_, _, _, Cache.Alloc_of_refill_false hr⟩
        · rw [hgz] at hg2
          simp only [Option.some.injEq, Prod.mk.injEq] at hg2
          exact absurd hg2.2.1.symm hnum
      · obtain ⟨o, e, ev, i, evo, hr, hn, _⟩ :=
          Cache.refill_grow mem hp hemp (by omega) hL h8
        obtain ⟨hw, he, _⟩ := newSlab_spec hn hi.inv.size
        obtain ⟨_, _, ht, hin, _⟩ := newSlab_eq_some hn
        exact key _ _ o [] hr (Eq.refl _) hw he (by rw [hin, ht]; exact hL)
    · rcases Cache.refill_cases c mem with ⟨hp1, _⟩ | ⟨_, o2, e2, he1, hr⟩ | ⟨_, he1, _⟩ |
        ⟨_, he1, _⟩ | ⟨_, he1, _⟩
      · exact absurd hp hp1
      · have ho : o2 ∈ c.empty := by rw [he1]; exact List.mem_cons_self _ _
        have hos : o2 ∈ c.slabs := Cache.mem_slabs.mpr (Or.inr (Or.inr ho))
        obtain ⟨hw, he, _⟩ := hi.ok.good o2 hos
        have h0 := hi.inv.empty o2 ho
        have h1 := hi.inv.total o2 hos
        exact key _ _ o2 [] hr (Eq.refl _) hw he (by omega)
      · rw [hemp] at he1; cases he1
      · rw [hemp] at he1; cases he1
      · rw [hemp] at he1; cases he1
  · obtain ⟨s, rest, hsr⟩ := List.exists_cons_of_ne_nil hp
    have hs : s ∈ c.part := by rw [hsr]; exact List.mem_cons_self _ _
    have hss : s ∈ c.slabs := Cache.mem_slabs.mpr (Or.inr (Or.inl hs))
    obtain ⟨hw, he, _⟩ := hi.ok.good s hss
    exact key _ _ s rest (Cache.refill_of_part mem hp) hsr hw he (hi.inv.part s hs).2

/-- The object that Alloc hands out in a live state sits in a slot whose bit was clear, and
it is not among the live objects. -/
theorem Cache.LInv.Alloc_new {c c1 : Cache} {live : List Nat} {mem : Nat → Nat} {obj : Nat}
    {ev : List Event} (hi : c.LInv live) (hfr : c.Fresh mem)
    (h : c.Alloc mem = some (c1, some obj, ev)) :
    obj ∉ live ∧ ∃ s s1 : slab, s.alloc = some (s1, obj) ∧ s1 ∈ c1.slabs ∧ 0 ≤ s.first ∧
      s.first < s.total ∧ obj = s.smem + s.first.toNat * s.objsize ∧
      s.bit s.first.toNat = false ∧ s1.bit s.first.toNat = true := by
  obtain ⟨cX, hX, s, s1, R, hsa, hp1, hp2, hmem, _⟩ := Cache.Alloc_perm h
  have hiX : cX.LInv live := by
    rcases hX with rfl | ⟨hp, he, num, evg, hg⟩
    · exact hi
    · exact Cache.LInv_grow hi hfr hp he hg
  have hok : SlabsOK (s :: R) live := hiX.ok.perm hp1
  have hsX : s ∈ cX.slabs := hp1.mem_iff.mpr (List.mem_cons_self _ _)
  obtain ⟨hw, he, _⟩ := hok.good s (List.mem_cons_self _ _)
  have hlt : s.inuse < s.total := by
    rcases hmem with hm | hm
    · exact (hiX.inv.part s hm).2
    · have h0 := hiX.inv.empty s hm
      have h1 := hiX.inv.total s hsX
      omega
  obtain ⟨s1', ha, _, _, hbit, hfl, _⟩ := slab.alloc_spec hw he hlt
  rw [ha] at hsa
  simp only [Option.some.injEq, Prod.mk.injEq] at hsa
  obtain ⟨rfl, hobj⟩ := hsa
  have hf0 := he.first_nonneg
  have hk : s.first.toNat < s.total.toNat := by omega
  obtain ⟨hr1, hr2⟩ := hw.addr_le hk
  rw [hobj] at hr1 hr2
  have hnot := (SlabsOK.alloc hok hlt (by rw [ha, hobj])).2
  refine ⟨?_, s, s1', by rw [ha, hobj], hp2.mem_iff.mpr (List.mem_cons_self _ _), hf0, hfl,
    hobj.symm, he.free hfl, ?_⟩
  · intro hl
    obtain ⟨t, ht, hto⟩ := (hok.own obj).mp hl
    rcases List.mem_cons.mp ht with rfl | htR
    · exact hnot hto
    · have hd : s.Disjoint t := (List.pairwise_cons.mp hok.disj).1 t htR
      obtain ⟨q1, q2⟩ := hto.range (hok.good t ht).1
      unfold slab.Disjoint at hd
      omega
  · rw [hbit]
    simp

theorem slab.Reach.good {s : slab} (h : s.Reach) : s.WF ∧ s.Exact ∧ s.InWord := by
  induction h with
  | new t size ctor base o ev hn ht hsz hb =>
    obtain ⟨hw, he, _⟩ := newSlab_spec hn ht
    obtain ⟨h1, _, h3, _, _, h6, h7, h8, _⟩ := newSlab_eq_some hn
    refine ⟨hw, he, ?_, by rw [h3]; exact hsz⟩
    rw [h8, h6]
    have e : (size.toNat - 1) * t.Size + t.Size = size.toNat * t.Size := by
      have hpos : 1 ≤ size.toNat := by omega
      obtain ⟨m, hm⟩ : ∃ m, size.toNat = m + 1 := ⟨size.toNat - 1, by omega⟩
      rw [hm]
      simp only [Nat.add_sub_cancel]
      ring
    omega
  | alloc s s1 obj _ hlt ha ih =>
    obtain ⟨hw, he, hi⟩ := ih
    obtain ⟨s1', ha', hw1, he1, _, _, ht, _, hos, _, hem⟩ := slab.alloc_spec hw he hlt
    rw [ha] at ha'
    simp only [Option.some.injEq, Prod.mk.injEq] at ha'
    obtain ⟨rfl, _⟩ := ha'
    exact ⟨hw1, he1, by rw [hem, hos]; exact hi.word, by rw [ht]; exact hi.int⟩
  | free s s1 k b _ hk hbit hf ih =>
    obtain ⟨hw, he, hi⟩ := ih
    obtain ⟨s1', hf', hw1, hi1, he1, _⟩ := slab.free_spec hw hi he hk hbit
    rw [hf] at hf'
    simp only [Option.some.injEq, Prod.mk.injEq] at hf'
    obtain ⟨rfl, _⟩ := hf'
    exact ⟨hw1, he1, hi1⟩

theorem slab.Exact.first_of_full {s : slab} (hw : s.WF) (he : s.Exact) (h : s.inuse = s.total) :
    s.first = s.total := by
  by_contra hne
  have hlt : s.first < s.total := lt_of_le_of_ne he.first_le hne
  have hb := he.free hlt
  have h0 := he.first_nonneg
  have htot : 0 ≤ s.total := by have := hw.total; omega
  have hc : countBits s.bufctl s.total.toNat = s.total.toNat := by
    have := he.inuse
    rw [h] at this
    omega
  have hall := (countP_range_full (p := bitAt s.bufctl)).mp hc s.first.toNat (by omega)
  unfold slab.bit at hb
  rw [hall] at hb
  cases hb

theorem demoSlab_reach : slab.Reach demoSlab :=
  slab.Reach.new { Size := 16 } 8 true 4096 demoSlab _ rfl (by decide) (by decide) (by decide)

theorem slabs.above_congr {s t : List slab} (h : t.map slab.smem = s.map slab.smem) (p : Nat) :
    slabs.above t p = slabs.above s p := by
  funext i
  unfold slabs.above
  have hi : (t.map slab.smem)[i]? = (s.map slab.smem)[i]? := by rw [h]
  rw [List.getElem?_map, List.getElem?_map] at hi
  rcases ht : t[i]? with _ | x
  · rcases hs : s[i]? with _ | y
    · rfl
    · rw [ht, hs] at hi
      simp at hi
  · rcases hs : s[i]? with _ | y
    · rw [ht, hs] at hi
      simp at hi
    · rw [ht, hs] at hi
      simp only [Option.map_some', Option.some.injEq] at hi
      simp only [hi]

theorem slabs.find_congr {s t : List slab} (h : t.map slab.smem = s.map slab.smem) (p : Nat) :
    slabs.find t p = slabs.find s p := by
  unfold slabs.find
  have hl : t.length = s.length := by
    have := congrArg List.length h
    simpa using this
  rw [slabs.above_congr h, hl]

theorem eraseIdx_split {α : Type} : ∀ (l : List α) (n : Nat) (o : α), l[n]? = some o →
    l = (l.eraseIdx n).take n ++ o :: (l.eraseIdx n).drop n := by
  intro l
  induction l with
  | nil =>
    intro n o h
    simp at h
  | cons x xs ih =>
    intro n o h
    cases n with
    | zero =>
      simp only [List.getElem?_cons_zero, Option.some.injEq] at h
      subst h
      simp
    | succ n =>
      simp only [List.getElem?_cons_succ] at h
      simp only [List.eraseIdx_cons_succ, List.take_succ_cons, List.drop_succ_cons,
        List.cons_append, List.cons.injEq, true_and]
      exact ih n o h

theorem slabs.insert_sublist (s : List slab) (o : slab) : s.Sublist (slabs.insert s o) := by
  unfold slabs.insert
  simp only
  generalize (slabs.find s o.smem + 1).toNat = i
  have h : (s.take i ++ s.drop i).Sublist (s.take i ++ o :: s.drop i) :=
    List.Sublist.append_left (List.sublist_cons_self o _) _
  rw [List.take_append_drop] at h
  exact h

theorem slab.free_slot {s : slab} (hw : s.WF) (hint : s.total < 2 ^ 63) {k : Nat}
    (hk : k < s.total.toNat) (ha : s.smem + k * s.objsize < 2 ^ 64) :
    s.free (s.smem + k * s.objsize) = some ({ s with
      bufctl := s.bufctl.set (k / 8) ((s.bufctl.getD (k / 8) 0 ^^^ (1 <<< (k % 8))) % 256),
      inuse := s.inuse - 1,
      first := if s.first > (k : Int) then (k : Int) else s.first }, true) ∧
    ∀ j, bitAt (s.bufctl.set (k / 8) ((s.bufctl.getD (k / 8) 0 ^^^ (1 <<< (k % 8))) % 256)) j =
      xor (s.bit j) (decide (j = k)) := by
  have htot := hw.total
  have hkn : k / 8 < s.bufctl.length := by omega
  have hbyte : s.bufctl[k / 8]? = some s.bufctl[k / 8] := List.getElem?_eq_getElem hkn
  have hgetD : s.bufctl.getD (k / 8) 0 = s.bufctl[k / 8] := by
    rw [List.getD_eq_getElem?_getD, hbyte]
    rfl
  have hb256 : s.bufctl[k / 8] < 256 := hw.bytes _ (List.getElem_mem hkn)
  have hmul : k * s.objsize ≤ (s.total.toNat - 1) * s.objsize :=
    Nat.mul_le_mul_right _ (by omega)
  have hemem := hw.emem
  have hsz := hw.objsize
  have h1 : ¬ (s.smem + k * s.objsize > s.emem) := by omega
  have h2 : (2 ^ 64 + (s.smem + k * s.objsize) - s.smem) % 2 ^ 64 = k * s.objsize := by omega
  have h3 : k * s.objsize / s.objsize = k := Nat.mul_div_cancel _ (by omega)
  have h4 : k * s.objsize % 2 ^ 64 = k * s.objsize := by omega
  have h5 : toI64 (k : Int) = k := toI64_of_lt (by omega)
  have e1 : ((k : Int) / 8).toNat = k / 8 := by omega
  have e2 : ((k : Int) % 8).toNat = k % 8 := by omega
  have e3 : (k : Int) / 8 = ((k / 8 : Nat) : Int) := by omega
  rw [hgetD]
  constructor
  · unfold slab.free
    rw [if_neg h1]
    simp only
    rw [if_neg (by omega : ¬ s.objsize = 0), h2, h3, h4]
    simp only [ne_eq, not_true_eq_false, if_false]
    rw [h5, e3, index_of_getElem? hbyte]
    simp only
    rw [← e3, e1, e2]
  · intro j
    rw [bitAt_toggleBit hbyte hb256 j]
    rfl

theorem slab.free_below {s : slab} (hw : s.WF) (hword : s.emem + s.objsize ≤ 2 ^ 64)
    {a : Nat} (ha : a < s.smem) : s.free a = some (s, false) ∨ s.free a = none := by
  have hsz := hw.objsize
  have hemem := hw.emem
  have htot := hw.total
  have hpos := hw.pos
  have hle : s.smem ≤ s.emem := hw.smem_le_emem
  unfold slab.free
  rw [if_neg (by omega)]
  simp only
  rw [if_neg (by omega : ¬ s.objsize = 0)]
  have hl : (2 ^ 64 + a - s.smem) % 2 ^ 64 = 2 ^ 64 + a - s.smem := Nat.mod_eq_of_lt (by omega)
  rw [hl]
  generalize hL : 2 ^ 64 + a - s.smem = lptr
  have hlo : s.total.toNat * s.objsize ≤ lptr := by
    have e : (s.total.toNat - 1) * s.objsize + s.objsize = s.total.toNat * s.objsize := by
      obtain ⟨m, hm⟩ : ∃ m, s.total.toNat = m + 1 := ⟨s.total.toNat - 1, by omega⟩
      rw [hm]
      simp only [Nat.add_sub_cancel]
      ring
    omega
  have hhi : lptr < 2 ^ 64 := by omega
  have hq : s.total.toNat ≤ lptr / s.objsize := (Nat.le_div_iff_mul_le (by omega)).mpr hlo
  have hq2 : lptr / s.objsize < 2 ^ 64 := lt_of_le_of_lt (Nat.div_le_self _ _) hhi
  split
  · left; rfl
  · right
    have hidx : index s.bufctl (toI64 ((lptr / s.objsize : Nat) : Int) / 8) = none := by
      generalize lptr / s.objsize = q at hq hq2
      unfold index toI64
      split
      · rfl
      · rename_i hneg
        apply List.getElem?_eq_none
        omega
    rw [hidx]

theorem demoSlab_new : newSlab { Size := 16 } 8 false 4096 = some (demoSlab, []) := by decide

theorem demoSlab_WF : demoSlab.WF := (newSlab_spec demoSlab_new (by decide)).1

/-! ## The table of trailing zeros and the bitmaps of live states -/

theorem ntzMatrix_getElem? (b : Nat) (h : b < 256) : ntzMatrix[b]? = some (ntzEntry b) := by
  unfold ntzMatrix buildNtzMatrix
  rw [List.getElem?_map, List.getElem?_range h]
  rfl

set_option maxRecDepth 100000 in
theorem ntzEntry_le : ∀ b, b < 256 → ntzEntry b ≤ 8 := by
  decide

theorem LiveReachable.reachable {c : Cache} {live : List Nat} (h : LiveReachable c live) :
    Reachable c := by
  induction h with
  | new obj opts c hn _ _ => exact Reachable.new obj opts c hn
  | alloc c live mem c1 r ev _ _ hA ih =>
    exact Reachable.step c (Op.Alloc mem) c1 (Ret.obj r) ev ih (Cache.step_Alloc hA)
  | free c live a c1 b ev _ _ hf ih =>
    refine Reachable.step c (Op.FreePtr a) c1 (Ret.ok b) ev ih ?_
    simp only [Cache.step, Cache.FreePtr, hf, Option.map_some']

theorem bitAt_beyond {bs : List Nat} {k : Nat} (h : bs.length ≤ k / 8) : bitAt bs k = false := by
  unfold bitAt
  rw [List.getD_eq_getElem?_getD, List.getElem?_eq_none h]
  simp

theorem slab.WF.chunk_get {s : slab} (hw : s.WF) {k o : Nat} :
    s.chunk[k]? = some o ↔ k < s.total.toNat ∧ o = s.smem + k * s.objsize := by
  rw [hw.chunk, List.getElem?_map]
  by_cases hk : k < s.total.toNat
  · rw [List.getElem?_range hk]
    simp only [Option.map_some', Option.some.injEq]
    constructor
    · intro h
      exact ⟨hk, h.symm⟩
    · intro h
      exact h.2.symm
  · rw [List.getElem?_eq_none (by simpa using hk)]
    simp only [Option.map_none']
    constructor
    · intro h
      cases h
    · intro h
      exact absurd h.1 hk

/-- In a collection of slabs that agrees with the live objects, the bit of a slot is set
exactly when the object of the slot is live. -/
theorem SlabsOK.bit_iff {l : List slab} {live : List Nat} (h : SlabsOK l live) {s : slab}
    (hs : s ∈ l) {k : Nat} (hk : k < s.total.toNat) :
    s.bit k = true ↔ s.smem + k * s.objsize ∈ live := by
  obtain ⟨hw, _, _⟩ := h.good s hs
  constructor
  · intro hb
    exact (h.own _).mpr ⟨s, hs, k, hk, hb, rfl⟩
  · intro hl
    obtain ⟨t, ht, hto⟩ := (h.own _).mp hl
    have hts : t = s := h.unique ht hs (hto.range (h.good t ht).1) (hw.addr_le hk)
    subst hts
    obtain ⟨k2, _, hb2, heq⟩ := hto
    have hsz := hw.objsize
    have hkk : k = k2 := by
      have h1 : k * t.objsize = k2 * t.objsize := by omega
      exact Nat.eq_of_mul_eq_mul_right (by omega) h1
    rw [hkk]
    exact hb2

/-! ## The state after a free, and a negative ObjLen option -/

/-- The state after the free of a live object: the owning slab `s` is replaced by `s1`, in
which only the bit of the object is cleared; the slabs `d` that leave the cache are empty
ones destroyed by the reaper; and in the new cache the bits set are exactly those of the
other live objects. -/
theorem Cache.free_live_state {c : Cache} {live : List Nat} (hi : c.LInv live) {a : Nat}
    (hl : a ∈ live) :
    ∃ c1 ev, c.free a = some (c1, true, ev) ∧
      c1.ReadStats.InuseObjs = c.ReadStats.InuseObjs - 1 ∧
      c1.ReadStats.Frees = c.ReadStats.Frees + 1 ∧ c1.ReadStats.Allocs = c.ReadStats.Allocs ∧
      ∃ s, (s ∈ c.part ∨ s ∈ c.full) ∧ ∃ k, k < s.total.toNat ∧ a = s.smem + k * s.objsize ∧
        s.bit k = true ∧ ∃ s1, s.free a = some (s1, true) ∧ s1.bit k = false ∧
          (∀ j, j ≠ k → s1.bit j = s.bit j) ∧ (∀ t ∈ c1.slabs, t = s1 ∨ t ∈ c.slabs) ∧
          (∃ R d, c.slabs.Perm (s :: R) ∧ (s1 :: R).Perm (c1.slabs ++ d) ∧
            (d = [] ∨ s1.inuse = 0) ∧ ∀ x ∈ d, x.inuse = 0) ∧
          (s1.inuse ≠ 0 → s1 ∈ c1.slabs) ∧
          (∀ t ∈ c1.slabs, ∀ j o, t.chunk[j]? = some o →
            (t.bit j = true ↔ (o ∈ live ∧ o ≠ a))) := by
  obtain ⟨c1, ev, h⟩ := Cache.free_live hi hl
  obtain ⟨s, s1, R, d, hle, hf, hmem, hp1, hp2, hd1, hd2, q1, q2, q3, _⟩ := Cache.free_perm h
  obtain ⟨_, k, hk, hb, ha, hb1, hb2, _⟩ := (hi.ok.perm hp1).free hl hle hf
  have hi1 := Cache.LInv_free hi hl h
  have hdz : ∀ x ∈ d, x.inuse = 0 := by
    intro x hx
    rcases hd1 with rfl | hz
    · simp at hx
    · rcases hd2 x hx with rfl | hx2
      · exact hz
      · exact hi.inv.empty x hx2
  refine ⟨c1, ev, h, q1, q2, q3, s, hmem, k, hk, ha, hb, s1, hf, hb1, hb2, ?_,
    ⟨R, d, hp1, hp2, hd1, hdz⟩, ?_, ?_⟩
  · intro t ht
    have h1 : t ∈ s1 :: R := hp2.mem_iff.mpr (List.mem_append_left _ ht)
    rcases List.mem_cons.mp h1 with h2 | h2
    · exact Or.inl h2
    · exact Or.inr (hp1.mem_iff.mpr (List.mem_cons_of_mem _ h2))
  · intro hne
    rcases hd1 with rfl | hz
    · have := hp2.mem_iff.mp (List.mem_cons_self s1 R)
      simpa using this
    · exact absurd hz hne
  · intro t ht j o ho
    obtain ⟨hw, _, _⟩ := hi1.ok.good t ht
    obtain ⟨hj, rfl⟩ := hw.chunk_get.mp ho
    rw [hi1.ok.bit_iff ht hj, List.mem_filter]
    simp

/-- With the ObjLen option -3 the rounding gives 0 objects per slab, and the first Alloc
panics: `newSlab` returns nil for a size below 1 and `insert` dereferences it. -/
theorem NewCache_negative_objLen :
    ∃ c, NewCache (some { Size := 16 }) ⟨-3, none, none, false, false⟩ = some c ∧
      c.ObjectLen = 0 ∧ c.Alloc demoMem = none :=
  ⟨_, rfl, rfl, rfl⟩


/-! # The claims -/

/-- C1. Conservation: in every cache state reachable from NewCache by calls of Alloc, Free,
FreePtr (with any address) and Destroy, inuseObjs equals allocs minus frees, and inuseObjs
equals the sum of inuse over the slabs of the full, partial and empty lists. -/
theorem conservation (c : Cache) (h : Reachable c) :
    c.inuseObjs = (c.allocs : Int) - (c.frees : Int) ∧
    c.inuseObjs = sumInuse c.full + sumInuse c.part + sumInuse c.empty :=
  ⟨h.inv.cons, h.inv.sum⟩

/-- Witness of C1: the cache after two Allocs and the Free of the first object. -/
theorem conservation_witness :
    (demoCache.after [Op.Alloc demoMem, Op.Alloc demoMem, Op.FreePtr 4096]).inuseObjs =
      (((demoCache.after [Op.Alloc demoMem, Op.Alloc demoMem, Op.FreePtr 4096]).allocs : Nat) : Int) -
      (((demoCache.after [Op.Alloc demoMem, Op.Alloc demoMem, Op.FreePtr 4096]).frees : Nat) : Int) ∧
    (demoCache.after [Op.Alloc demoMem, Op.Alloc demoMem, Op.FreePtr 4096]).inuseObjs =
      sumInuse (demoCache.after [Op.Alloc demoMem, Op.Alloc demoMem, Op.FreePtr 4096]).full +
      sumInuse (demoCache.after [Op.Alloc demoMem, Op.Alloc demoMem, Op.FreePtr 4096]).part +
      sumInuse (demoCache.after [Op.Alloc demoMem, Op.Alloc demoMem, Op.FreePtr 4096]).empty :=
  conservation _ (demoCache_reachable.after _)

/-- C2. Partition invariant: in every reachable cache state every slab of the full list has
inuse = total, every slab of the empty list has inuse = 0, and every slab of the partial
list has 0 < inuse < total. -/
theorem partition_invariant (c : Cache) (h : Reachable c) :
    (∀ s ∈ c.full, s.inuse = s.total) ∧ (∀ s ∈ c.empty, s.inuse = 0) ∧
    (∀ s ∈ c.part, 0 < s.inuse ∧ s.inuse < s.total) :=
  ⟨h.inv.full, h.inv.empty, h.inv.part⟩

/-- Witness of C2: the cache after nine Allocs (one full slab, one partial slab, no empty
slab left by the default grower). -/
theorem partition_invariant_witness :
    (∀ s ∈ (demoCache.after (List.replicate 9 (Op.Alloc demoMem))).full, s.inuse = s.total) ∧
    (∀ s ∈ (demoCache.after (List.replicate 9 (Op.Alloc demoMem))).empty, s.inuse = 0) ∧
    (∀ s ∈ (demoCache.after (List.replicate 9 (Op.Alloc demoMem))).part,
      0 < s.inuse ∧ s.inuse < s.total) :=
  partition_invariant _ (demoCache_reachable.after _)

/-- C3, evaluated on the code: after two Allocs, freeing the first object twice in
succession returns true both times. -/
theorem double_free_accepted :
    (demoCache.run [Op.Alloc demoMem, Op.Alloc demoMem, Op.FreePtr 4096, Op.FreePtr 4096]).map
      (fun r => r.2.1) =
    some [Ret.obj (some 4096), Ret.obj (some 4112), Ret.ok true, Ret.ok true] := by
  decide

/-- C4, evaluated on the code: after eight Allocs fill a slab and its first object is freed
twice, the next Alloc returns that object and the Alloc after it panics (index 8 of an
eight-element chunk). -/
theorem alloc_panics_after_double_free :
    (demoCache.run (List.replicate 8 (Op.Alloc demoMem) ++
      [Op.FreePtr 4096, Op.FreePtr 4096, Op.Alloc demoMem])).map (fun r => r.2.1) =
    some [Ret.obj (some 4096), Ret.obj (some 4112), Ret.obj (some 4128), Ret.obj (some 4144),
      Ret.obj (some 4160), Ret.obj (some 4176), Ret.obj (some 4192), Ret.obj (some 4208),
      Ret.ok true, Ret.ok true, Ret.obj (some 4096)] ∧
    (demoCache.run (List.replicate 8 (Op.Alloc demoMem) ++
      [Op.FreePtr 4096, Op.FreePtr 4096, Op.Alloc demoMem, Op.Alloc demoMem])).isNone = true := by
  decide

/-- C5. A failed free is atomic: for a cache whose lists are sorted by base address and any
address, if `free` returns false then the cache is unchanged (lists, slabs and counters) and
no callback has been made. -/
theorem failed_free_atomic (c : Cache) (a : Nat)
    (_hs : slabs.Sorted c.full ∧ slabs.Sorted c.part ∧ slabs.Sorted c.empty)
    (c1 : Cache) (ev : List Event) (h : c.free a = some (c1, false, ev)) :
    c1 = c ∧ ev = [] :=
  Cache.free_false_unchanged h

/-- Witness of C5: a misaligned address inside the partial slab of the cache after two
Allocs. -/
theorem failed_free_atomic_witness :
    (slabs.Sorted (demoCache.after [Op.Alloc demoMem, Op.Alloc demoMem]).full ∧
      slabs.Sorted (demoCache.after [Op.Alloc demoMem, Op.Alloc demoMem]).part ∧
      slabs.Sorted (demoCache.after [Op.Alloc demoMem, Op.Alloc demoMem]).empty) ∧
    (demoCache.after [Op.Alloc demoMem, Op.Alloc demoMem]).free 4100 =
      some (demoCache.after [Op.Alloc demoMem, Op.Alloc demoMem], false, []) ∧
    (demoCache.after [Op.Alloc demoMem, Op.Alloc demoMem] =
      demoCache.after [Op.Alloc demoMem, Op.Alloc demoMem] ∧ ([] : List Event) = []) :=
  ⟨(demoCache_reachable.after _).inv.sorted, rfl,
    failed_free_atomic _ 4100 (demoCache_reachable.after _).inv.sorted _ _ rfl⟩

/-- C6. A foreign or misaligned address is rejected: in every reachable cache state, for every
address `a` (a machine word) such that no slab `s` of the partial or full list has
`s.smem ≤ a ≤ s.emem` with `a - s.smem` a multiple of the object size, `free` (hence Free and
FreePtr) returns false, and the cache is unchanged. -/
theorem foreign_free_rejected (c : Cache) (h : Reachable c) (a : Nat) (ha : a < 2 ^ 64)
    (hno : ∀ s ∈ c.part ++ c.full,
      ¬ (s.smem ≤ a ∧ a ≤ s.emem ∧ (a - s.smem) % s.objsize = 0)) :
    c.free a = some (c, false, []) ∧ c.Free (some a) = some (c, false, []) ∧
    c.FreePtr a = some (c, false, []) :=
  ⟨Cache.free_foreign h.inv ha hno, Cache.free_foreign h.inv ha hno,
    Cache.free_foreign h.inv ha hno⟩

/-- Witness of C6: address 0 on the cache after two Allocs. -/
theorem foreign_free_rejected_witness :
    (demoCache.after [Op.Alloc demoMem, Op.Alloc demoMem]).free 0 =
      some (demoCache.after [Op.Alloc demoMem, Op.Alloc demoMem], false, []) ∧
    (demoCache.after [Op.Alloc demoMem, Op.Alloc demoMem]).Free (some 0) =
      some (demoCache.after [Op.Alloc demoMem, Op.Alloc demoMem], false, []) ∧
    (demoCache.after [Op.Alloc demoMem, Op.Alloc demoMem]).FreePtr 0 =
      some (demoCache.after [Op.Alloc demoMem, Op.Alloc demoMem], false, []) :=
  foreign_free_rejected _ (demoCache_reachable.after _) 0 (by norm_num) (by decide)

/-- C7. Freeing a live object succeeds: in every state reached from a fresh cache by Alloc
calls and by Free calls on live objects (slab address ranges pairwise disjoint), for every
object returned by Alloc and not freed since, `free` of its address (hence Free and FreePtr)
returns true, InuseObjs decreases by 1, Frees increases by 1 and Allocs is unchanged. The
slab `s` of the partial or full list that owns the object becomes `s1`, in which the bit of
the slot of the object is 0 and every other bit is as in `s`; the slabs of the new cache are
those of the old one with `s1` in place of `s`, less the slabs `d` the reaper destroyed
(none unless `s1` is empty, and only empty ones); and in the new cache the bit of a slot is
set exactly when its object is one of the other live objects. -/
theorem free_live_object (c : Cache) (live : List Nat) (h : LiveReachable c live) (a : Nat)
    (ha : a ∈ live) :
    ∃ c1 ev, c.free a = some (c1, true, ev) ∧ c.Free (some a) = some (c1, true, ev) ∧
      c.FreePtr a = some (c1, true, ev) ∧
      c1.ReadStats.InuseObjs = c.ReadStats.InuseObjs - 1 ∧
      c1.ReadStats.Frees = c.ReadStats.Frees + 1 ∧ c1.ReadStats.Allocs = c.ReadStats.Allocs ∧
      ∃ s, (s ∈ c.part ∨ s ∈ c.full) ∧ ∃ k, k < s.total.toNat ∧ a = s.smem + k * s.objsize ∧
        s.bit k = true ∧ ∃ s1, s.free a = some (s1, true) ∧ s1.bit k = false ∧
          (∀ j, j ≠ k → s1.bit j = s.bit j) ∧ (∀ t ∈ c1.slabs, t = s1 ∨ t ∈ c.slabs) ∧
          (∃ R d, c.slabs.Perm (s :: R) ∧ (s1 :: R).Perm (c1.slabs ++ d) ∧
            (d = [] ∨ s1.inuse = 0) ∧ ∀ x ∈ d, x.inuse = 0) ∧
          (s1.inuse ≠ 0 → s1 ∈ c1.slabs) ∧
          (∀ t ∈ c1.slabs, ∀ j o, t.chunk[j]? = some o →
            (t.bit j = true ↔ (o ∈ live ∧ o ≠ a))) := by
  obtain ⟨c1, ev, h1, h2⟩ := Cache.free_live_state h.linv ha
  exact ⟨c1, ev, h1, h1, h1, h2⟩

/-- Witness of C7: the first of two objects allocated from the sample cache. -/
theorem free_live_object_witness :
    ∃ c1 ev, (demoCache.after [Op.Alloc demoMem, Op.Alloc demoMem]).free 4096 =
        some (c1, true, ev) ∧
      (demoCache.after [Op.Alloc demoMem, Op.Alloc demoMem]).Free (some 4096) =
        some (c1, true, ev) ∧
      (demoCache.after [Op.Alloc demoMem, Op.Alloc demoMem]).FreePtr 4096 = some (c1, true, ev) ∧
      c1.ReadStats.InuseObjs =
        (demoCache.after [Op.Alloc demoMem, Op.Alloc demoMem]).ReadStats.InuseObjs - 1 ∧
      c1.ReadStats.Frees =
        (demoCache.after [Op.Alloc demoMem, Op.Alloc demoMem]).ReadStats.Frees + 1 ∧
      c1.ReadStats.Allocs = (demoCache.after [Op.Alloc demoMem, Op.Alloc demoMem]).ReadStats.Allocs ∧
      ∃ s, (s ∈ (demoCache.after [Op.Alloc demoMem, Op.Alloc demoMem]).part ∨
          s ∈ (demoCache.after [Op.Alloc demoMem, Op.Alloc demoMem]).full) ∧
        ∃ k, k < s.total.toNat ∧ 4096 = s.smem + k * s.objsize ∧
        s.bit k = true ∧ ∃ s1, s.free 4096 = some (s1, true) ∧ s1.bit k = false ∧
          (∀ j, j ≠ k → s1.bit j = s.bit j) ∧
          (∀ t ∈ c1.slabs,
            t = s1 ∨ t ∈ (demoCache.after [Op.Alloc demoMem, Op.Alloc demoMem]).slabs) ∧
          (∃ R d, (demoCache.after [Op.Alloc demoMem, Op.Alloc demoMem]).slabs.Perm (s :: R) ∧
            (s1 :: R).Perm (c1.slabs ++ d) ∧ (d = [] ∨ s1.inuse = 0) ∧ ∀ x ∈ d, x.inuse = 0) ∧
          (s1.inuse ≠ 0 → s1 ∈ c1.slabs) ∧
          (∀ t ∈ c1.slabs, ∀ j o, t.chunk[j]? = some o →
            (t.bit j = true ↔ (o ∈ [4112, 4096] ∧ o ≠ 4096))) :=
  free_live_object _ [4112, 4096] demoCache_live 4096 (by decide)

/-- C8. Round-trip reuse: for a fresh cache with `N` objects per slab whose grower returns
at least 1 (the object arrays of the slabs it creates lying in the address space), `N`
Allocs return the objects `o m = base + m * size` for `m < N`; then for all slots
`i < j < k`, freeing `o i`, `o j`, `o k` by address in any order `x, y, z` returns true each
time, and the next three Allocs return `o i`, then `o j`, then `o k`. -/
theorem roundtrip_reuse (obj : Option reflectType) (opts : CacheOptions) (c0 : Cache)
    (hnew : NewCache obj opts = some c0) (hL : 0 < c0.objLen) (hint : c0.objLen < 2 ^ 63)
    (hg : ∀ st, 1 ≤ c0.grower st) (mems : List (Nat → Nat))
    (hlen : mems.length = c0.objLen.toNat)
    (hmem : ∀ mem ∈ mems, ∀ t : Nat, (t : Int) < c0.grower c0.ReadStats →
      mem t + c0.objLen.toNat * c0.objType.Size ≤ 2 ^ 64) :
    ∃ (base : Nat) (cN : Cache) (evN : List Event),
      c0.run (mems.map Op.Alloc) = some (cN, (List.range c0.objLen.toNat).map
        (fun m => Ret.obj (some (base + m * c0.objType.Size))), evN) ∧
      ∀ i j k, i < j → j < k → k < c0.objLen.toNat → ∀ x y z, [x, y, z].Perm [i, j, k] →
        ∀ m1 m2 m3 : Nat → Nat, ∃ c1 ev,
          cN.run [Op.FreePtr (base + x * c0.objType.Size), Op.FreePtr (base + y * c0.objType.Size),
            Op.FreePtr (base + z * c0.objType.Size), Op.Alloc m1, Op.Alloc m2, Op.Alloc m3] =
          some (c1, [Ret.ok true, Ret.ok true, Ret.ok true,
            Ret.obj (some (base + i * c0.objType.Size)), Ret.obj (some (base + j * c0.objType.Size)),
            Ret.obj (some (base + k * c0.objType.Size))], ev) :=
  Cache.roundtrip hnew hL hint hg mems hlen hmem

/-- Witness of C8: a cache of 8 objects of 16 bytes per slab. -/
theorem roundtrip_reuse_witness :
    ∃ (base : Nat) (cN : Cache) (evN : List Event),
      unitCache.run ((List.replicate 8 demoMem).map Op.Alloc) =
        some (cN, (List.range unitCache.objLen.toNat).map
          (fun m => Ret.obj (some (base + m * unitCache.objType.Size))), evN) ∧
      ∀ i j k, i < j → j < k → k < unitCache.objLen.toNat → ∀ x y z, [x, y, z].Perm [i, j, k] →
        ∀ m1 m2 m3 : Nat → Nat, ∃ c1 ev,
          cN.run [Op.FreePtr (base + x * unitCache.objType.Size),
            Op.FreePtr (base + y * unitCache.objType.Size),
            Op.FreePtr (base + z * unitCache.objType.Size), Op.Alloc m1, Op.Alloc m2, Op.Alloc m3] =
          some (c1, [Ret.ok true, Ret.ok true, Ret.ok true,
            Ret.obj (some (base + i * unitCache.objType.Size)),
            Ret.obj (some (base + j * unitCache.objType.Size)),
            Ret.obj (some (base + k * unitCache.objType.Size))], ev) :=
  roundtrip_reuse (some { Size := 16 })
    { ObjLen := 8, Grower := some unitGrower, Reaper := none, Constructor := true,
      Destructor := true } unitCache rfl (by decide) (by decide) (fun _ => le_refl _)
    (List.replicate 8 demoMem) rfl
    (fun mem hm t ht => by
      have hmm : mem = demoMem := List.eq_of_mem_replicate hm
      have ht0 : t = 0 := by
        have : unitCache.grower unitCache.ReadStats = 1 := rfl
        omega
      subst hmm
      subst ht0
      decide)

/-- C9. Allocation exhaustion: for every cache state, Alloc returns nil exactly when the
partial list and the empty list are both empty and the grower returns a value `≤ 0`; and
then the cache is unchanged and the only callback made is the call of the grower. -/
theorem alloc_exhaustion (c : Cache) (mem : Nat → Nat) :
    ((∃ c1 ev, c.Alloc mem = some (c1, none, ev)) ↔
      (c.part = [] ∧ c.empty = [] ∧ c.grower c.ReadStats ≤ 0)) ∧
    (∀ c1 ev, c.Alloc mem = some (c1, none, ev) → c1 = c ∧ ev = [Event.grower c.ReadStats]) :=
  Cache.Alloc_nil_iff c mem

/-- C10. Allocation accounting with a grow-by-one policy: for a fresh cache with `L` objects
per slab whose grower always returns 1 (and whose constructor is set), `k ≥ 1` consecutive
Allocs with no Free all return an object, after which TotalSlabs = InuseSlabs = ceil(k/L),
TotalObjs = L * ceil(k/L), InuseObjs = Allocs = k, Frees = 0, the grower has been called
ceil(k/L) times, the constructor L * ceil(k/L) times, the reaper and the destructor never. -/
theorem alloc_accounting (obj : Option reflectType) (opts : CacheOptions) (c0 : Cache)
    (hnew : NewCache obj opts = some c0) (hL : 0 < c0.objLen) (hg : ∀ st, c0.grower st = 1)
    (hc : c0.ctor = true) (mems : List (Nat → Nat)) (_hk : 1 ≤ mems.length) :
    ∃ c1 rs ev, c0.run (mems.map Op.Alloc) = some (c1, rs, ev) ∧
      rs.length = mems.length ∧ (∀ r ∈ rs, ∃ o, r = Ret.obj (some o)) ∧
      c1.ReadStats.TotalSlabs = (ceilDiv mems.length c0.objLen.toNat : Nat) ∧
      c1.ReadStats.InuseSlabs = (ceilDiv mems.length c0.objLen.toNat : Nat) ∧
      c1.ReadStats.TotalObjs = c0.objLen * (ceilDiv mems.length c0.objLen.toNat : Nat) ∧
      c1.ReadStats.InuseObjs = (mems.length : Int) ∧ c1.ReadStats.Allocs = mems.length ∧
      c1.ReadStats.Frees = 0 ∧
      ev.countP Event.isGrower = ceilDiv mems.length c0.objLen.toNat ∧
      ev.countP Event.isCtor = c0.objLen.toNat * ceilDiv mems.length c0.objLen.toNat ∧
      ev.countP Event.isReaper = 0 ∧ ev.countP Event.isDtor = 0 := by
  have hL0 : 0 < c0.objLen.toNat := by omega
  obtain ⟨c1, rs, ev, hR, hF, hl, hlen, hrs, k1, k2, k3, k4⟩ :=
    Cache.Filled.run_allocs mems c0 0 (Cache.Filled_new hnew hL hg hc)
  have hz : ceilDiv 0 c0.objLen.toNat = 0 := by
    rw [ceilDiv_eq _ _ hL0]
    simp
  rw [hz, Nat.zero_add] at k1 k2
  rw [Nat.zero_add] at hF
  obtain ⟨s1, s2, s3, s4, s5, s6⟩ := hF.stats
  rw [hl] at s1 s2 s3
  exact ⟨c1, rs, ev, hR, hlen, hrs, s1, s2, s3, s4, s5, s6, by omega, by omega, k3, k4⟩

/-- Witness of C10: nine Allocs on a cache with 8 objects per slab. -/
theorem alloc_accounting_witness :
    ∃ c1 rs ev, unitCache.run ((List.replicate 9 demoMem).map Op.Alloc) = some (c1, rs, ev) ∧
      rs.length = (List.replicate 9 demoMem).length ∧ (∀ r ∈ rs, ∃ o, r = Ret.obj (some o)) ∧
      c1.ReadStats.TotalSlabs =
        (ceilDiv (List.replicate 9 demoMem).length unitCache.objLen.toNat : Nat) ∧
      c1.ReadStats.InuseSlabs =
        (ceilDiv (List.replicate 9 demoMem).length unitCache.objLen.toNat : Nat) ∧
      c1.ReadStats.TotalObjs =
        unitCache.objLen * (ceilDiv (List.replicate 9 demoMem).length unitCache.objLen.toNat : Nat) ∧
      c1.ReadStats.InuseObjs = ((List.replicate 9 demoMem).length : Int) ∧
      c1.ReadStats.Allocs = (List.replicate 9 demoMem).length ∧
      c1.ReadStats.Frees = 0 ∧
      ev.countP Event.isGrower = ceilDiv (List.replicate 9 demoMem).length unitCache.objLen.toNat ∧
      ev.countP Event.isCtor =
        unitCache.objLen.toNat * ceilDiv (List.replicate 9 demoMem).length unitCache.objLen.toNat ∧
      ev.countP Event.isReaper = 0 ∧ ev.countP Event.isDtor = 0 :=
  alloc_accounting (some { Size := 16 })
    { ObjLen := 8, Grower := some unitGrower, Reaper := none, Constructor := true,
      Destructor := true } unitCache rfl (by decide) (fun _ => rfl) rfl
    (List.replicate 9 demoMem) (by decide)

/-- C11. The grower is consulted only on exhaustion: an Alloc that returns has called the
grower (once, before any other callback) if the partial and the empty list were both empty,
and has made no callback at all otherwise; when the partial list is not empty the object is
the one that `alloc` of its first slab gives and the empty list is unchanged; when the
partial list is empty and the empty list is not, the object is the one that `alloc` of the
first empty slab gives (the lowest-address one when the list is sorted), which leaves the
empty list; in both cases TotalSlabs is unchanged and no constructor call is made. -/
theorem grower_only_on_exhaustion (c : Cache) (mem : Nat → Nat) :
    (∀ c1 r ev, c.Alloc mem = some (c1, r, ev) →
      ((c.part = [] ∧ c.empty = []) →
        ∃ evc, ev = Event.grower c.ReadStats :: evc ∧ evc.countP Event.isGrower = 0) ∧
      (¬ (c.part = [] ∧ c.empty = []) → ev = [])) ∧
    (∀ s rest, c.part = s :: rest →
      (s.alloc = none → c.Alloc mem = none) ∧
      ∀ s1 obj, s.alloc = some (s1, obj) → ∃ c1, c.Alloc mem = some (c1, some obj, []) ∧
        c1.empty = c.empty ∧ c1.ReadStats.TotalSlabs = c.ReadStats.TotalSlabs) ∧
    (c.part = [] → ∀ s rest, c.empty = s :: rest →
      (slabs.Sorted c.empty → ∀ t ∈ c.empty, s.smem ≤ t.smem) ∧
      (s.alloc = none → c.Alloc mem = none) ∧
      ∀ s1 obj, s.alloc = some (s1, obj) → ∃ c1, c.Alloc mem = some (c1, some obj, []) ∧
        c1.empty = rest ∧ c1.ReadStats.TotalSlabs = c.ReadStats.TotalSlabs) := by
  refine ⟨?_, ?_, ?_⟩
  · intro c1 r ev h
    rcases Cache.Alloc_events h with ⟨hne, hev, _⟩ | ⟨hp, he, news, _, _, hev, _⟩
    · exact ⟨fun hh => absurd hh hne, fun _ => hev⟩
    · exact ⟨fun _ => ⟨_, hev, countP_isGrower_ctorEvents _ _⟩, fun hh => absurd ⟨hp, he⟩ hh⟩
  · intro s rest hp
    have hr : c.refill mem = some (c, [], true) :=
      Cache.refill_of_part mem (by rw [hp]; exact List.cons_ne_nil _ _)
    obtain ⟨h1, h2⟩ := Cache.Alloc_from hr hp
    refine ⟨h1, fun s1 obj ha => ?_⟩
    obtain ⟨c2, hA, he, ht, _⟩ := h2 s1 obj ha
    exact ⟨c2, hA, he, ht⟩
  · intro hp s rest he
    have hr : c.refill mem = some ({ c with part := [s], empty := rest }, [], true) := by
      rcases Cache.refill_cases c mem with ⟨hp1, _⟩ | ⟨_, o, e, he1, hr⟩ | ⟨_, he1, _⟩ |
        ⟨_, he1, _⟩ | ⟨_, he1, _⟩
      · exact absurd hp hp1
      · rw [he] at he1
        simp only [List.cons.injEq] at he1
        obtain ⟨rfl, rfl⟩ := he1
        exact hr
      · rw [he] at he1; cases he1
      · rw [he] at he1; cases he1
      · rw [he] at he1; cases he1
    have hA := Cache.Alloc_from hr (Eq.refl [s])
    obtain ⟨h1, h2⟩ := hA
    refine ⟨?_, h1, fun s1 obj ha => ?_⟩
    · intro hs t ht
      rw [he] at hs ht
      rcases List.mem_cons.mp ht with rfl | ht1
      · exact le_refl _
      · exact (List.pairwise_cons.mp hs).1 t ht1
    · obtain ⟨c2, hA2, he2, ht, _⟩ := h2 s1 obj ha
      refine ⟨c2, hA2, he2, ?_⟩
      rw [ht, Cache.totalSlabs_eq, Cache.totalSlabs_eq, hp, he]
      simp only [List.length_cons, List.length_nil]
      omega

/-- C12. Reap on empties: in a reachable cache whose reaper returns 1, a successful free of
an address (by Free or FreePtr) is the free of a slab `s` of the partial or full list, giving
`s1`. If `s1` is not empty, no callback is made and TotalSlabs is unchanged. If `s1` is empty,
exactly one slab `o` leaves the cache; it has no object in use and `objLen` slots, TotalSlabs
decreases by 1, the reaper is called once, and then, when a destructor is set, the destructor
once per object of `o` in slot order. -/
theorem reap_on_empties (c : Cache) (h : Reachable c) (hr : ∀ st, c.reaper st = 1) (a : Nat)
    (c1 : Cache) (ev : List Event) (hf : c.free a = some (c1, true, ev)) :
    ∃ s s1, (s ∈ c.part ∨ s ∈ c.full) ∧ s.free a = some (s1, true) ∧
      (s1.inuse ≠ 0 → ev = [] ∧ c1.ReadStats.TotalSlabs = c.ReadStats.TotalSlabs) ∧
      (s1.inuse = 0 → ∃ o st R, c.slabs.Perm (s :: R) ∧ (s1 :: R).Perm (o :: c1.slabs) ∧
        o.inuse = 0 ∧ o.total = c.objLen ∧
        c1.ReadStats.TotalSlabs = c.ReadStats.TotalSlabs - 1 ∧
        ev = Event.reaper st :: o.destroy c.dtor ∧
        (c.dtor = true → o.destroy c.dtor =
          (List.range c.objLen.toNat).map (fun i => Event.dtor (o.smem + i * c.objType.Size)))) := by
  obtain ⟨s, s1, R, hmem, hsf, hp, hnz, hz⟩ := Cache.free_reap_spec hr hf
  have hs : s ∈ c.slabs := by
    rcases hmem with hm | hm
    · exact Cache.mem_slabs.mpr (Or.inr (Or.inl hm))
    · exact Cache.mem_slabs.mpr (Or.inl hm)
  refine ⟨s, s1, hmem, hsf, ?_, ?_⟩
  · intro hne
    obtain ⟨h1, h2⟩ := hnz hne
    refine ⟨h1, ?_⟩
    rw [Cache.totalSlabs_slabs, Cache.totalSlabs_slabs, h2.length_eq, hp.length_eq]
    simp
  · intro h0
    obtain ⟨o, st, ho, hp2, hev⟩ := hz h0
    have hfr := slab.free_frame hsf
    have hshape : o.Shaped c.objLen ∧ o.objsize = c.objType.Size ∧ o.inuse = 0 := by
      rcases ho with rfl | ho
      · exact ⟨(h.shaped s hs).free_keeps hsf, hfr.2.2.1.trans (h.inv.objsize s hs), h0⟩
      · have hoe : o ∈ c.slabs := Cache.mem_slabs.mpr (Or.inr (Or.inr ho))
        exact ⟨h.shaped o hoe, h.inv.objsize o hoe, h.inv.empty o ho⟩
    obtain ⟨⟨ht, hch⟩, hsz, hin⟩ := hshape
    refine ⟨o, st, R, hp, hp2, hin, ht, ?_, hev, ?_⟩
    · rw [Cache.totalSlabs_slabs, Cache.totalSlabs_slabs, hp.length_eq]
      have := hp2.length_eq
      simp only [List.length_cons] at this ⊢
      omega
    · intro hd
      rw [hd]
      simp only [slab.destroy, if_true]
      rw [hch, hsz, List.map_map]
      rfl

/-- Witness of C12: the only object of the sample cache is freed. -/
theorem reap_on_empties_witness :
    ∃ s s1, (s ∈ (reapCache.after [Op.Alloc demoMem]).part ∨
        s ∈ (reapCache.after [Op.Alloc demoMem]).full) ∧ s.free 4096 = some (s1, true) ∧
      (s1.inuse ≠ 0 →
        (Event.reaper (⟨1, 0, 8, 1, 1, 0, 128, 16⟩ : CacheStats) ::
          (List.range 8).map (fun i => Event.dtor (4096 + i * 16))) = [] ∧
        (reapCache.after [Op.Alloc demoMem, Op.FreePtr 4096]).ReadStats.TotalSlabs =
          (reapCache.after [Op.Alloc demoMem]).ReadStats.TotalSlabs) ∧
      (s1.inuse = 0 → ∃ o st R, (reapCache.after [Op.Alloc demoMem]).slabs.Perm (s :: R) ∧
        (s1 :: R).Perm (o :: (reapCache.after [Op.Alloc demoMem, Op.FreePtr 4096]).slabs) ∧
        o.inuse = 0 ∧ o.total = (reapCache.after [Op.Alloc demoMem]).objLen ∧
        (reapCache.after [Op.Alloc demoMem, Op.FreePtr 4096]).ReadStats.TotalSlabs =
          (reapCache.after [Op.Alloc demoMem]).ReadStats.TotalSlabs - 1 ∧
        (Event.reaper (⟨1, 0, 8, 1, 1, 0, 128, 16⟩ : CacheStats) ::
          (List.range 8).map (fun i => Event.dtor (4096 + i * 16))) =
          Event.reaper st :: o.destroy (reapCache.after [Op.Alloc demoMem]).dtor ∧
        ((reapCache.after [Op.Alloc demoMem]).dtor = true →
          o.destroy (reapCache.after [Op.Alloc demoMem]).dtor =
          (List.range (reapCache.after [Op.Alloc demoMem]).objLen.toNat).map
            (fun i => Event.dtor (o.smem + i * (reapCache.after [Op.Alloc demoMem]).objType.Size)))) :=
  reap_on_empties (reapCache.after [Op.Alloc demoMem]) (reapCache_reachable.after _)
    (fun _ => rfl) 4096
    (reapCache.after [Op.Alloc demoMem, Op.FreePtr 4096]) _ rfl

/-- C13. Destroy resets: for every cache state Destroy returns, leaving the three lists
empty and inuseObjs, allocs and frees 0, so that ReadStats reports 0 in every field; the
object type, objLen and callbacks are unchanged, and the state is the one NewCache produced
if the cache was reached from it by any calls; the destructor (when set) has been called
once for every entry of `chunk` of every slab, the full list first, then the partial and the
empty list, each from its last slab to its first, which in a reachable cache is once for
each of the objLen slots of every slab. -/
theorem destroy_resets (c : Cache) :
    ∃ c1 ev, c.Destroy = some (c1, ev) ∧
      c1.full = [] ∧ c1.part = [] ∧ c1.empty = [] ∧ c1.inuseObjs = 0 ∧ c1.allocs = 0 ∧
      c1.frees = 0 ∧ c1.ReadStats = (⟨0, 0, 0, 0, 0, 0, 0, 0⟩ : CacheStats) ∧
      c.SameConfig c1 ∧
      (∀ obj opts c0 ops rs ev0, NewCache obj opts = some c0 → c0.run ops = some (c, rs, ev0) →
        c1 = c0) ∧
      (c.dtor = false → ev = []) ∧
      (c.dtor = true → ev = (c.full.reverse ++ c.part.reverse ++ c.empty.reverse).flatMap
        (fun s => s.chunk.map Event.dtor)) ∧
      (c.dtor = true → Reachable c →
        ev = (c.full.reverse ++ c.part.reverse ++ c.empty.reverse).flatMap
          (fun s => (List.range c.objLen.toNat).map
            (fun i => Event.dtor (s.smem + i * c.objType.Size)))) := by
  refine ⟨_, _, Cache.Destroy_spec c, rfl, rfl, rfl, rfl, rfl, rfl, ?_, Cache.SameConfig.rfl c,
    ?_, ?_, ?_, ?_⟩
  · simp [Cache.ReadStats, toU64]
  · intro obj opts c0 ops rs ev0 hnew hrun
    have hcfg := Cache.run_config ops c0 c rs ev0 hrun
    obtain ⟨f1, f2, f3, f4, f5, f6, _⟩ := NewCache_fresh hnew
    exact Cache.eq_of_fresh hcfg ⟨f1, f2, f3, f4, f5, f6⟩ ⟨rfl, rfl, rfl, rfl, rfl, rfl⟩
  · intro hd
    rw [hd]
    simp [slab.destroy]
  · intro hd
    rw [hd]
    simp only [List.flatMap_append, slab.destroy, if_true]
  · intro hd hR
    rw [hd, ← List.flatMap_append, ← List.flatMap_append]
    apply flatMap_destroy_shaped
    intro s hs
    have hs1 : s ∈ c.slabs := by
      simp only [List.mem_append, List.mem_reverse] at hs
      exact Cache.mem_slabs.mpr (by tauto)
    exact ⟨hR.shaped s hs1, hR.inv.objsize s hs1⟩

/-- C14. The default growth policy: on a snapshot with `t ≥ 0` slabs DefaultGrower returns 1
when `t = 0`, `t` when `1 ≤ t ≤ 31`, and the integer quotient of `t` by 4 when `t ≥ 32`; an
Alloc of a cache with this grower that finds neither a partial nor an empty slab adds that
many slabs; and in the sample run with 32 objects per slab, which starts from no slab and
exhausts the cache at the 1st, 33rd and 65th Alloc, the cache owns 1, 2 and 4 slabs and
32, 64 and 128 objects have been constructed. -/
theorem default_growth :
    (∀ s : CacheStats, 0 ≤ s.TotalSlabs →
      (s.TotalSlabs = 0 → DefaultGrower s = 1) ∧
      (1 ≤ s.TotalSlabs → s.TotalSlabs ≤ 31 → DefaultGrower s = s.TotalSlabs) ∧
      (32 ≤ s.TotalSlabs →
        4 * DefaultGrower s ≤ s.TotalSlabs ∧ s.TotalSlabs < 4 * DefaultGrower s + 4)) ∧
    (∀ (c : Cache) (mem : Nat → Nat) (c1 : Cache) (r : Option Nat) (ev : List Event),
      c.grower = DefaultGrower → c.part = [] → c.empty = [] → c.Alloc mem = some (c1, r, ev) →
      c1.ReadStats.TotalSlabs = c.ReadStats.TotalSlabs + DefaultGrower c.ReadStats) ∧
    growSummary (growCache.run (growOps 1)) = some (true, 1, 32, 32) ∧
    growSummary (growCache.run (growOps 32)) = some (true, 1, 32, 32) ∧
    growSummary (growCache.run (growOps 33)) = some (true, 2, 64, 64) ∧
    growSummary (growCache.run (growOps 64)) = some (true, 2, 64, 64) ∧
    growSummary (growCache.run (growOps 65)) = some (true, 4, 128, 128) := by
  refine ⟨?_, ?_, by decide, by decide, by decide, by decide, by decide⟩
  · intro s h0
    unfold DefaultGrower
    refine ⟨fun h => by rw [if_pos h], fun h1 h2 => ?_, fun h1 => ?_⟩
    · rw [if_neg (by omega), if_pos (by omega)]
    · rw [if_neg (by omega), if_neg (by omega)]
      omega
  · intro c mem c1 r ev hg hp he hA
    rcases Cache.Alloc_events hA with ⟨hne, _⟩ | ⟨_, _, news, hl, _, _, ht⟩
    · exact absurd ⟨hp, he⟩ hne
    · have h0 : 0 ≤ c.ReadStats.TotalSlabs := by
        rw [Cache.totalSlabs_eq]
        omega
      have hn := DefaultGrower_nonneg c.ReadStats h0
      rw [hg, if_neg (by omega)] at hl
      rw [ht, hl]

/-- C15, evaluated on the code: with the ObjLen option 2^63 - 1 the addition that rounds
up wraps, and the cache has ObjectLen -2^63, which is below the option. -/
theorem objLen_wrapped :
    ∃ c, NewCache (some { Size := 16 }) ⟨2 ^ 63 - 1, none, none, false, false⟩ = some c ∧
      c.ObjectLen = -(2 ^ 63) ∧ c.ObjectLen < 2 ^ 63 - 1 :=
  ⟨_, rfl, by decide, by decide⟩

/-- C15, amended. For a sample object of size at least 1 and an ObjLen option `n ≥ 0` that
is a Go int, NewCache returns a cache whose ObjectLen is 256 when `n = 0`, and when `n ≠ 0`
and `n ≤ 2^63 - 8` the smallest multiple of 8 that is at least `n` (`n` itself when it is a
multiple of 8), a positive number; above `2^63 - 8` the rounding wraps to `-2^63`; ObjectLen
is always a non-zero multiple of 8, and no sequence of Alloc, Free, FreePtr and Destroy
calls changes it. -/
theorem objLen_normalised (t : reflectType) (ht : 1 ≤ t.Size) (opts : CacheOptions)
    (hn : 0 ≤ opts.ObjLen ∧ opts.ObjLen < 2 ^ 63) :
    ∃ c, NewCache (some t) opts = some c ∧
      (opts.ObjLen = 0 → c.ObjectLen = 256) ∧
      (opts.ObjLen ≠ 0 → opts.ObjLen ≤ 2 ^ 63 - 8 →
        c.ObjectLen % 8 = 0 ∧ opts.ObjLen ≤ c.ObjectLen ∧
        ∀ m : Int, m % 8 = 0 → opts.ObjLen ≤ m → c.ObjectLen ≤ m) ∧
      (opts.ObjLen ≠ 0 → opts.ObjLen % 8 = 0 → c.ObjectLen = opts.ObjLen) ∧
      (opts.ObjLen ≤ 2 ^ 63 - 8 → 0 < c.ObjectLen) ∧
      (2 ^ 63 - 8 < opts.ObjLen → c.ObjectLen = -(2 ^ 63)) ∧
      c.ObjectLen % 8 = 0 ∧ c.ObjectLen ≠ 0 ∧
      ∀ ops c1 rs ev, c.run ops = some (c1, rs, ev) → c1.ObjectLen = c.ObjectLen := by
  obtain ⟨c, hc⟩ := NewCache_some t ht opts
  have hmod := NewCache_objLen_mod hc
  obtain ⟨_, _, _, _, _, _, _, _, _, _, _, hlen⟩ := NewCache_fresh hc
  have hw : ∀ x : Int, -(2 ^ 63) ≤ x → x < 2 ^ 63 → toI64 x = x := by
    intro x h1 h2
    unfold toI64
    omega
  have hw2 : toI64 (2 ^ 63) = -(2 ^ 63) := by decide
  have hval : (opts.ObjLen = 0 ∧ c.objLen = 256) ∨
      (opts.ObjLen ≠ 0 ∧ opts.ObjLen % 8 = 0 ∧ c.objLen = opts.ObjLen) ∨
      (opts.ObjLen % 8 ≠ 0 ∧ opts.ObjLen ≤ 2 ^ 63 - 8 ∧
        c.objLen = opts.ObjLen + (8 - opts.ObjLen % 8)) ∨
      (opts.ObjLen % 8 ≠ 0 ∧ 2 ^ 63 - 8 < opts.ObjLen ∧ c.objLen = -(2 ^ 63)) := by
    rw [hlen]
    by_cases h0 : opts.ObjLen = 0
    · left
      exact ⟨h0, by rw [if_pos h0]⟩
    · rw [if_neg h0]
      by_cases h8 : opts.ObjLen % 8 = 0
      · right; left
        exact ⟨h0, h8, by rw [if_neg (by omega)]⟩
      · rw [if_pos h8]
        by_cases hbig : opts.ObjLen ≤ 2 ^ 63 - 8
        · right; right; left
          exact ⟨h8, hbig, hw _ (by omega) (by omega)⟩
        · right; right; right
          have e : opts.ObjLen + (8 - opts.ObjLen % 8) = 2 ^ 63 := by omega
          exact ⟨h8, by omega, by rw [e, hw2]⟩
  refine ⟨c, hc, ?_, ?_, ?_, ?_, ?_, hmod, ?_, ?_⟩ <;> unfold Cache.ObjectLen
  · intro h0
    rcases hval with ⟨_, h⟩ | ⟨h, _⟩ | ⟨h, _⟩ | ⟨h, _⟩ <;> omega
  · intro h0 hle
    rcases hval with ⟨h, _⟩ | ⟨_, h8, h⟩ | ⟨h8, _, h⟩ | ⟨_, h, _⟩
    · omega
    · exact ⟨by omega, by omega, fun m _ hle2 => by omega⟩
    · exact ⟨by omega, by omega, fun m hm hle2 => by omega⟩
    · omega
  · intro h0 h8
    rcases hval with ⟨h, _⟩ | ⟨_, _, h⟩ | ⟨h, _⟩ | ⟨h, _⟩ <;> omega
  · intro hle
    rcases hval with ⟨_, h⟩ | ⟨_, _, h⟩ | ⟨_, _, h⟩ | ⟨_, h, _⟩ <;> omega
  · intro hgt
    rcases hval with ⟨h, _⟩ | ⟨_, h8, _⟩ | ⟨_, h, _⟩ | ⟨_, _, h⟩
    · omega
    · omega
    · omega
    · exact h
  · rcases hval with ⟨_, h⟩ | ⟨_, _, h⟩ | ⟨_, _, h⟩ | ⟨_, _, h⟩ <;> omega
  · intro ops c1 rs ev hrun
    exact (Cache.run_config ops c c1 rs ev hrun).2.1

/-- Witness of C15: the ObjLen option 10 gives 16 objects per slab. -/
theorem objLen_normalised_witness :
    ∃ c, NewCache (some { Size := 16 }) ⟨10, none, none, false, false⟩ = some c ∧
      ((10 : Int) = 0 → c.ObjectLen = 256) ∧
      ((10 : Int) ≠ 0 → (10 : Int) ≤ 2 ^ 63 - 8 →
        c.ObjectLen % 8 = 0 ∧ (10 : Int) ≤ c.ObjectLen ∧
        ∀ m : Int, m % 8 = 0 → (10 : Int) ≤ m → c.ObjectLen ≤ m) ∧
      ((10 : Int) ≠ 0 → (10 : Int) % 8 = 0 → c.ObjectLen = (10 : Int)) ∧
      ((10 : Int) ≤ 2 ^ 63 - 8 → 0 < c.ObjectLen) ∧
      (2 ^ 63 - 8 < (10 : Int) → c.ObjectLen = -(2 ^ 63)) ∧
      c.ObjectLen % 8 = 0 ∧ c.ObjectLen ≠ 0 ∧
      ∀ ops c1 rs ev, c.run ops = some (c1, rs, ev) → c1.ObjectLen = c.ObjectLen :=
  objLen_normalised { Size := 16 } (by decide) ⟨10, none, none, false, false⟩
    ⟨by decide, by decide⟩

/-- C16. No object is handed out twice: in every state reached from a fresh cache by Alloc
calls (new slabs being placed in free memory) and by Free calls on live objects, an object
returned by Alloc is not among the live objects, and it is the object of the slot `first`
of a slab, whose bit is 0 before the call and 1 after it; moreover Alloc does not panic in
such a state when objLen is positive. -/
theorem no_double_handout (c : Cache) (live : List Nat) (h : LiveReachable c live)
    (mem : Nat → Nat) (hfr : c.Fresh mem) :
    (∀ c1 obj ev, c.Alloc mem = some (c1, some obj, ev) →
      obj ∉ live ∧ ∃ s s1 : slab, s.alloc = some (s1, obj) ∧ s1 ∈ c1.slabs ∧ 0 ≤ s.first ∧
        s.first < s.total ∧ obj = s.smem + s.first.toNat * s.objsize ∧
        s.bit s.first.toNat = false ∧ s1.bit s.first.toNat = true) ∧
    (0 < c.objLen → ∃ c1 r ev, c.Alloc mem = some (c1, r, ev)) :=
  ⟨fun _ _ _ hA => h.linv.Alloc_new hfr hA, fun hL => h.linv.Alloc_total h.objLen_mod hL mem⟩

/-- Witness of C16: the third Alloc of the sample cache. -/
theorem no_double_handout_witness :
    (∀ c1 obj ev, (demoCache.after [Op.Alloc demoMem, Op.Alloc demoMem]).Alloc demoMem =
        some (c1, some obj, ev) →
      obj ∉ [4112, 4096] ∧ ∃ s s1 : slab, s.alloc = some (s1, obj) ∧ s1 ∈ c1.slabs ∧
        0 ≤ s.first ∧ s.first < s.total ∧ obj = s.smem + s.first.toNat * s.objsize ∧
        s.bit s.first.toNat = false ∧ s1.bit s.first.toNat = true) ∧
    (0 < (demoCache.after [Op.Alloc demoMem, Op.Alloc demoMem]).objLen →
      ∃ c1 r ev, (demoCache.after [Op.Alloc demoMem, Op.Alloc demoMem]).Alloc demoMem =
        some (c1, r, ev)) :=
  no_double_handout (demoCache.after [Op.Alloc demoMem, Op.Alloc demoMem]) [4112, 4096]
    demoCache_live demoMem (fun hp => absurd hp (by decide))

/-- C17. The free-slot hint is exact: in every slab reached from `newSlab` by `alloc` calls
made while `inuse < total` and by `free` calls on slots whose bit is 1, if `inuse < total`
then `first` is the index of the lowest slot whose bit is 0, it is below `total`, and
`alloc` returns the object of that slot; and if `inuse = total` then `first = total`. -/
theorem hint_exact (s : slab) (h : s.Reach) :
    0 ≤ s.inuse ∧ s.inuse ≤ s.total ∧
    (s.inuse < s.total →
      0 ≤ s.first ∧ s.first < s.total ∧ s.bit s.first.toNat = false ∧
      (∀ k : Nat, (k : Int) < s.first → s.bit k = true) ∧
      ∃ s1, s.alloc = some (s1, s.smem + s.first.toNat * s.objsize) ∧
        index s.chunk s.first = some (s.smem + s.first.toNat * s.objsize)) ∧
    (s.inuse = s.total → s.first = s.total) := by
  obtain ⟨hw, he, _⟩ := h.good
  refine ⟨?_, ?_, ?_, fun h1 => he.first_of_full hw h1⟩
  · rw [he.inuse]
    omega
  · rw [he.inuse]
    have := countP_range_le (bitAt s.bufctl) s.total.toNat
    unfold countBits
    have htot : 0 ≤ s.total := by have := hw.total; omega
    omega
  · intro hlt
    have hfl := he.first_lt hw hlt
    obtain ⟨s1, ha, _⟩ := slab.alloc_spec hw he hlt
    exact ⟨he.first_nonneg, hfl, he.free hfl, he.below, s1, ha, (slab.alloc_frame ha).2.2.2.2.2.2.2⟩

/-- Witness of C17: the sample slab after two `alloc` calls and the `free` of slot 0. -/
theorem hint_exact_witness :
    0 ≤ demoSlabUsed.inuse ∧ demoSlabUsed.inuse ≤ demoSlabUsed.total ∧
    (demoSlabUsed.inuse < demoSlabUsed.total →
      0 ≤ demoSlabUsed.first ∧ demoSlabUsed.first < demoSlabUsed.total ∧
      demoSlabUsed.bit demoSlabUsed.first.toNat = false ∧
      (∀ k : Nat, (k : Int) < demoSlabUsed.first → demoSlabUsed.bit k = true) ∧
      ∃ s1, demoSlabUsed.alloc =
          some (s1, demoSlabUsed.smem + demoSlabUsed.first.toNat * demoSlabUsed.objsize) ∧
        index demoSlabUsed.chunk demoSlabUsed.first =
          some (demoSlabUsed.smem + demoSlabUsed.first.toNat * demoSlabUsed.objsize)) ∧
    (demoSlabUsed.inuse = demoSlabUsed.total → demoSlabUsed.first = demoSlabUsed.total) :=
  hint_exact demoSlabUsed
    (slab.Reach.free { demoSlab with inuse := 2, first := 2, bufctl := [3] } _ 0 true
      (slab.Reach.alloc { demoSlab with inuse := 1, first := 1, bufctl := [1] } _ 4112
        (slab.Reach.alloc demoSlab _ 4096 demoSlab_reach (by decide) rfl) (by decide) rfl)
      (by decide) (by decide) rfl)

/-- C18. `find` is a rightmost-predecessor search: on a list sorted by base address,
`find p` is -1 exactly when every slab has a base address above `p` (so on the empty list),
and otherwise it is the unique index `i` with `s[i].smem ≤ p` such that `i` is the last
index or `s[i+1].smem > p`; the result depends on the base addresses only, not on `emem`. -/
theorem find_rightmost (s : List slab) (hs : slabs.Sorted s) (p : Nat) :
    (slabs.find s p = -1 ↔ ∀ x ∈ s, p < x.smem) ∧
    (slabs.find s p ≠ -1 → ∃ (i : Nat) (x : slab), slabs.find s p = (i : Int) ∧
      s[i]? = some x ∧ x.smem ≤ p ∧ (∀ y, s[i + 1]? = some y → p < y.smem) ∧
      ∀ (j : Nat) (y : slab), s[j]? = some y → y.smem ≤ p →
        (∀ z, s[j + 1]? = some z → p < z.smem) → j = i) ∧
    slabs.find [] p = -1 ∧
    (∀ t : List slab, t.map slab.smem = s.map slab.smem → slabs.find t p = slabs.find s p) := by
  obtain ⟨h1, h2, h3, h4⟩ := slabs.find_spec s p
  have hpos : 0 ≤ slabs.find s p → ∃ (i : Nat) (x : slab), slabs.find s p = (i : Int) ∧
      s[i]? = some x ∧ x.smem ≤ p := by
    intro h0
    obtain ⟨i, hi⟩ : ∃ i : Nat, slabs.find s p = (i : Int) := ⟨(slabs.find s p).toNat, by omega⟩
    have hlt : i < s.length := by omega
    refine ⟨i, s[i], hi, List.getElem?_eq_getElem hlt, ?_⟩
    apply h3 _ _ h0
    rw [hi]
    exact List.getElem?_eq_getElem hlt
  refine ⟨⟨fun hm x hx => ?_, fun hall => ?_⟩, fun hne => ?_, slabs.find_nil p,
    fun t ht => slabs.find_congr ht p⟩
  · obtain ⟨k, hk⟩ := List.getElem?_of_mem hx
    by_contra hle
    have := (slabs.find_sorted hs p k x hk).mp (by omega)
    omega
  · by_contra hne
    obtain ⟨i, x, _, hx, hle⟩ := hpos (by omega)
    have := hall x (mem_of_getElem?_eq hx)
    omega
  · obtain ⟨i, x, hi, hx, hle⟩ := hpos (by omega)
    refine ⟨i, x, hi, hx, hle, fun y hy => ?_, fun j y hy hyle hnext => ?_⟩
    · apply h4 y
      rw [hi]
      exact hy
    · have hji : (j : Int) ≤ slabs.find s p := (slabs.find_sorted hs p j y hy).mp hyle
      rw [hi] at hji
      by_contra hne2
      have hlt : j + 1 ≤ i := by omega
      have hlen : i < s.length := by
        rcases Nat.lt_or_ge i s.length with h | h
        · exact h
        · rw [List.getElem?_eq_none h] at hx
          cases hx
      have hz : s[j + 1]? = some s[j + 1] := List.getElem?_eq_getElem (by omega)
      have hzp := hnext _ hz
      have := pairwise_getElem? hs hz hx hlt
      omega

/-- Witness of C18: an address between two slabs, beyond the end of the first. -/
theorem find_rightmost_witness :
    (slabs.find demoSlabs 5000 = -1 ↔ ∀ x ∈ demoSlabs, 5000 < x.smem) ∧
    (slabs.find demoSlabs 5000 ≠ -1 → ∃ (i : Nat) (x : slab),
      slabs.find demoSlabs 5000 = (i : Int) ∧
      demoSlabs[i]? = some x ∧ x.smem ≤ 5000 ∧ (∀ y, demoSlabs[i + 1]? = some y → 5000 < y.smem) ∧
      ∀ (j : Nat) (y : slab), demoSlabs[j]? = some y → y.smem ≤ 5000 →
        (∀ z, demoSlabs[j + 1]? = some z → 5000 < z.smem) → j = i) ∧
    slabs.find [] 5000 = -1 ∧
    (∀ t : List slab, t.map slab.smem = demoSlabs.map slab.smem →
      slabs.find t 5000 = slabs.find demoSlabs 5000) :=
  find_rightmost demoSlabs (by unfold slabs.Sorted; decide) 5000

/-- C19. Address ordering is preserved: `insert` into a list sorted by base address gives a
sorted list, one longer, that holds the old elements, in their order, and the new one;
`pop` at an index in range returns the element at that index and leaves the list without
it, the order of the others unchanged, and sorted if the list was; hence the three lists of
every reachable cache are sorted by base address. -/
theorem ordering_preserved :
    (∀ (s : List slab) (o : slab), slabs.Sorted s →
      slabs.Sorted (slabs.insert s o) ∧ (slabs.insert s o).length = s.length + 1 ∧
      (slabs.insert s o).Perm (o :: s) ∧ s.Sublist (slabs.insert s o)) ∧
    (∀ (s : List slab) (i : Int), 0 ≤ i → i < s.length →
      ∃ o l1, slabs.pop s i = some (o, l1) ∧ s[i.toNat]? = some o ∧
        l1.length + 1 = s.length ∧ s = l1.take i.toNat ++ o :: l1.drop i.toNat ∧
        l1.Sublist s ∧ (slabs.Sorted s → slabs.Sorted l1)) ∧
    (∀ c : Cache, Reachable c →
      slabs.Sorted c.full ∧ slabs.Sorted c.part ∧ slabs.Sorted c.empty) := by
  refine ⟨fun s o hs => ⟨slabs.insert_sorted hs o, slabs.length_insert s o,
    slabs.insert_perm s o, slabs.insert_sublist s o⟩, fun s i h0 hlt => ?_,
    fun c hc => hc.inv.sorted⟩
  have hlt2 : i.toNat < s.length := by omega
  have hget : s[i.toNat]? = some s[i.toNat] := List.getElem?_eq_getElem hlt2
  have hpop := slabs.pop_of_getElem? hget
  rw [Int.toNat_of_nonneg h0] at hpop
  refine ⟨s[i.toNat], s.eraseIdx i.toNat, hpop, hget, ?_, eraseIdx_split s _ _ hget,
    List.eraseIdx_sublist s _, fun hs => slabs.pop_sorted hpop hs⟩
  rw [List.length_eraseIdx, if_pos hlt2]
  omega

/-- C20, evaluated on the code: on the sample slab (base address 4096, objects of 16
bytes) the address 4080, one object below the base, is not refused: the difference wraps to
2^64 - 16, which is a multiple of 16, and the bitmap index is out of range (a panic). -/
theorem slab_free_below_base :
    newSlab { Size := 16 } 8 false 4096 = some (demoSlab, []) ∧ 4080 < demoSlab.smem ∧
    demoSlab.free 4080 = none ∧ demoSlab.free 4080 ≠ some (demoSlab, false) := by
  decide

/-- C20, amended. For a slab of the shape `newSlab` gives and a machine-word address `a`:
`free a` returns false and leaves the slab unchanged if `a > emem`, or if `a ≥ smem` and
`a - smem` is not a multiple of `objsize`; if `smem ≤ a ≤ emem` and `a - smem` is a multiple
of `objsize` it returns true, flips the bit of slot `(a - smem) / objsize`, decrements
`inuse` and lowers `first` to that slot if it is smaller; and if `a < smem` (the slab lying
in the address space) it either returns false, leaving the slab unchanged, or panics. -/
theorem slab_free_checks (s : slab) (hw : s.WF) (hint : s.total < 2 ^ 63) (a : Nat)
    (ha : a < 2 ^ 64) :
    (s.emem < a → s.free a = some (s, false)) ∧
    (s.smem ≤ a → (a - s.smem) % s.objsize ≠ 0 → s.free a = some (s, false)) ∧
    (s.smem ≤ a → a ≤ s.emem → (a - s.smem) % s.objsize = 0 →
      ∃ s1, s.free a = some (s1, true) ∧ (a - s.smem) / s.objsize < s.total.toNat ∧
        (∀ j, s1.bit j = xor (s.bit j) (decide (j = (a - s.smem) / s.objsize))) ∧
        s1.inuse = s.inuse - 1 ∧
        s1.first = (if (((a - s.smem) / s.objsize : Nat) : Int) < s.first
          then (((a - s.smem) / s.objsize : Nat) : Int) else s.first) ∧
        s1.total = s.total ∧ s1.objsize = s.objsize ∧ s1.smem = s.smem ∧ s1.emem = s.emem ∧
        s1.chunk = s.chunk ∧ s1.bufctl.length = s.bufctl.length) ∧
    (a < s.smem → s.emem + s.objsize ≤ 2 ^ 64 →
      s.free a = some (s, false) ∨ s.free a = none) := by
  have hsz := hw.objsize
  refine ⟨fun h => slab.free_beyond h, fun h1 h2 => ?_, fun h1 h2 h3 => ?_,
    fun h1 h2 => slab.free_below hw h2 h1⟩
  · exact slab.free_rejects (by omega) h1 ha (fun hh => h2 hh.2)
  · have hk : (a - s.smem) / s.objsize * s.objsize = a - s.smem :=
      Nat.div_mul_cancel (Nat.dvd_of_mod_eq_zero h3)
    generalize hkk : (a - s.smem) / s.objsize = k at hk
    have hak : a = s.smem + k * s.objsize := by omega
    have hemem := hw.emem
    have htot := hw.total
    have hpos := hw.pos
    have hklt : k < s.total.toNat := by
      have h4 : k * s.objsize ≤ (s.total.toNat - 1) * s.objsize := by omega
      have := Nat.le_of_mul_le_mul_right h4 (by omega)
      omega
    subst hak
    obtain ⟨hf, hbits⟩ := slab.free_slot hw hint hklt ha
    refine ⟨_, hf, hklt, hbits, rfl, ?_, rfl, rfl, rfl, rfl, rfl, by simp⟩
    rfl

/-- Witness of C20: the address of slot 1 of the sample slab. -/
theorem slab_free_checks_witness :
    (demoSlab.emem < 4112 → demoSlab.free 4112 = some (demoSlab, false)) ∧
    (demoSlab.smem ≤ 4112 → (4112 - demoSlab.smem) % demoSlab.objsize ≠ 0 →
      demoSlab.free 4112 = some (demoSlab, false)) ∧
    (demoSlab.smem ≤ 4112 → 4112 ≤ demoSlab.emem → (4112 - demoSlab.smem) % demoSlab.objsize = 0 →
      ∃ s1, demoSlab.free 4112 = some (s1, true) ∧
        (4112 - demoSlab.smem) / demoSlab.objsize < demoSlab.total.toNat ∧
        (∀ j, s1.bit j =
          xor (demoSlab.bit j) (decide (j = (4112 - demoSlab.smem) / demoSlab.objsize))) ∧
        s1.inuse = demoSlab.inuse - 1 ∧
        s1.first = (if (((4112 - demoSlab.smem) / demoSlab.objsize : Nat) : Int) < demoSlab.first
          then (((4112 - demoSlab.smem) / demoSlab.objsize : Nat) : Int) else demoSlab.first) ∧
        s1.total = demoSlab.total ∧ s1.objsize = demoSlab.objsize ∧ s1.smem = demoSlab.smem ∧
        s1.emem = demoSlab.emem ∧ s1.chunk = demoSlab.chunk ∧
        s1.bufctl.length = demoSlab.bufctl.length) ∧
    ((4112 : Nat) < demoSlab.smem → demoSlab.emem + demoSlab.objsize ≤ 2 ^ 64 →
      demoSlab.free 4112 = some (demoSlab, false) ∨ demoSlab.free 4112 = none) :=
  slab_free_checks demoSlab demoSlab_WF (by decide) 4112 (by decide)

/-- C21. The table of trailing zeros is correct: `buildNtzMatrix` fills the 256 entries of
`ntzMatrix`; for every byte `b` other than 0xff the entry `ntzMatrix[b]` is a `k ≤ 7` such
that bit `k` of `b` is 0 and all bits of `b` below `k` are 1, and it is the only such index;
`ntzMatrix[0xff] = 8`; every entry is at most 8, the arithmetic being that of bytes. -/
theorem ntz_table_correct :
    ntzMatrix = buildNtzMatrix ∧ ntzMatrix.length = 256 ∧
    (∀ b, b < 256 → b ≠ 255 → ∃ k, ntzMatrix[b]? = some k ∧ k ≤ 7 ∧ b.testBit k = false ∧
      (∀ j, j < k → b.testBit j = true) ∧
      ∀ m, b.testBit m = false → (∀ j, j < m → b.testBit j = true) → m = k) ∧
    ntzMatrix[255]? = some 8 ∧
    (∀ v ∈ ntzMatrix, v ≤ 8) := by
  refine ⟨rfl, by simp [ntzMatrix, buildNtzMatrix], fun b hb hne => ?_, ?_, fun v hv => ?_⟩
  · obtain ⟨h1, h2, h3⟩ := ntzEntry_spec b hb hne
    refine ⟨ntzEntry b, ntzMatrix_getElem? b hb, by omega, h2, h3, fun m hm hbelow => ?_⟩
    rcases Nat.lt_trichotomy m (ntzEntry b) with hlt | heq | hgt
    · rw [h3 m hlt] at hm
      cases hm
    · exact heq
    · rw [hbelow _ hgt] at h2
      cases h2
  · rw [ntzMatrix_getElem? 255 (by norm_num), ntzEntry_full]
  · unfold ntzMatrix buildNtzMatrix at hv
    rw [List.mem_map] at hv
    obtain ⟨b, hb, rfl⟩ := hv
    exact ntzEntry_le b (List.mem_range.mp hb)

/-- C22. The bitmap agrees with the in-use count: in every state reached from a fresh cache
by Alloc calls (new slabs being placed in free memory) and by Free calls on live objects,
every slab of the cache has `inuse` equal to the number of bits set among its `total` slots
(the bitmap being made of bytes, with no bit set beyond them), `len(bufctl) * 8 = total =
objLen`, one entry of `chunk` per slot, and the bit of a slot set exactly when the object of
the slot is live; and every live object is the object of a slot of a slab of the cache. -/
theorem bitmap_agrees (c : Cache) (live : List Nat) (h : LiveReachable c live) (s : slab)
    (hs : s ∈ c.slabs) :
    s.inuse = (countBits s.bufctl s.total.toNat : Int) ∧ (∀ b ∈ s.bufctl, b < 256) ∧
    (s.bufctl.length : Int) * 8 = s.total ∧ s.total = c.objLen ∧
    s.chunk.length = s.total.toNat ∧
    (∀ k, s.bit k = true → k < s.total.toNat) ∧
    (∀ k o, s.chunk[k]? = some o → (s.bit k = true ↔ o ∈ live)) ∧
    (∀ a ∈ live, ∃ t ∈ c.slabs, ∃ k, t.chunk[k]? = some a ∧ t.bit k = true) := by
  have hok := h.linv.ok
  obtain ⟨hw, he, _⟩ := hok.good s hs
  have htot := hw.total
  refine ⟨he.inuse, hw.bytes, by omega, (h.reachable.shaped s hs).1, ?_, fun k hb => ?_,
    fun k o hko => ?_, fun a ha => ?_⟩
  · rw [hw.chunk]
    simp
  · by_contra hge
    have : bitAt s.bufctl k = false := bitAt_beyond (by omega)
    unfold slab.bit at hb
    rw [this] at hb
    cases hb
  · obtain ⟨hk, rfl⟩ := hw.chunk_get.mp hko
    exact hok.bit_iff hs hk
  · obtain ⟨t, ht, k, hk, hb, heq⟩ := (hok.own a).mp ha
    exact ⟨t, ht, k, (hok.good t ht).1.chunk_get.mpr ⟨hk, heq⟩, hb⟩

/-- Witness of C22: the partial slab of the sample cache after two Allocs. -/
theorem bitmap_agrees_witness :
    demoSlabTwo.inuse = (countBits demoSlabTwo.bufctl demoSlabTwo.total.toNat : Int) ∧
    (∀ b ∈ demoSlabTwo.bufctl, b < 256) ∧
    (demoSlabTwo.bufctl.length : Int) * 8 = demoSlabTwo.total ∧
    demoSlabTwo.total = (demoCache.after [Op.Alloc demoMem, Op.Alloc demoMem]).objLen ∧
    demoSlabTwo.chunk.length = demoSlabTwo.total.toNat ∧
    (∀ k, demoSlabTwo.bit k = true → k < demoSlabTwo.total.toNat) ∧
    (∀ k o, demoSlabTwo.chunk[k]? = some o → (demoSlabTwo.bit k = true ↔ o ∈ [4112, 4096])) ∧
    (∀ a ∈ [4112, 4096], ∃ t ∈ (demoCache.after [Op.Alloc demoMem, Op.Alloc demoMem]).slabs,
      ∃ k, t.chunk[k]? = some a ∧ t.bit k = true) :=
  bitmap_agrees (demoCache.after [Op.Alloc demoMem, Op.Alloc demoMem]) [4112, 4096]
    demoCache_live demoSlabTwo (by decide)
end Slabgo
